import Mathlib

/-! # Referral network: graph store and reach analytics

A shallow embedding of `source/ReferralNetwork.go`.

* A Go `map[string]V` is an association list whose keys are pairwise different
  when the list stands for a real map; a Go `map[string]struct{}` is a list of
  keys.  Insertion appends, so the list order is the insertion order.
* The order in which a `range` statement yields the keys of a map is not
  fixed by the language.  Every function that ranges over a map therefore
  takes an enumeration `e : Enum`; `e s` is the order in which the keys `s`
  are produced.  The theorems hold for every enumeration that permutes the keys.
* `sort.Slice` is library code; `TopKByReach` takes it as a parameter and the
  theorems assume only its documented contract (`SortSliceSpec`).
* The `for len(stack) > 0` loops are structural recursions on a step budget
  computed from the graph.  Running out of budget is a separate outcome
  (`Err.outOfFuel` / `none`), and the theorems show that it never occurs.
-/

namespace Referral

/-! ## Go maps and sets -/

/-- Read `m[k]` together with the `ok` flag. -/
def lookup {β : Type} : List (String × β) → String → Option β
  | [], _ => none
  | (k', v) :: m, k => if k' = k then some v else lookup m k

/-- Assignment `m[k] = v`. -/
def insert {β : Type} : List (String × β) → String → β → List (String × β)
  | [], k, v => [(k, v)]
  | (k', v') :: m, k, v => if k' = k then (k, v) :: m else (k', v') :: insert m k v

/-- Assignment `s[x] = struct{}{}` on a set of strings. -/
def setInsert (s : List String) (x : String) : List String :=
  if x ∈ s then s else s ++ [x]

/-- Order in which a `range` over a map yields the given keys. -/
abbrev Enum := List String → List String

/-- An enumeration yields every key exactly once. -/
def Enum.Valid (e : Enum) : Prop := ∀ s, (e s).Perm s

/-! ## Errors -/

/-- Error values of the package: two constructors for the inline
`errors.New`/`fmt.Errorf` values, and two for the outcomes that are not Go errors. -/
inductive Err where
  | ErrUserNotFound
  | ErrSelfReferral
  | ErrAlreadyHasReferrer
  | ErrWouldCreateCycle
  | ErrReferralExists
  /-- Value of `fmt.Errorf("<role> %s: %w", id, inner)`. -/
  | wrapped (role : String) (id : String) (inner : Err)
  /-- Value of `errors.New("k must be positive")`. -/
  | kMustBePositive
  /-- Run-time panic: assignment to an entry of a nil map. -/
  | nilMapWrite
  /-- The step budget of the model was exhausted. -/
  | outOfFuel
  deriving DecidableEq, Repr

/-! ## The graph store -/

structure Graph where
  users : List String
  parent : List (String × String)
  children : List (String × List String)
  deriving DecidableEq, Repr

def NewGraph : Graph := { users := [], parent := [], children := [] }

def AddUser (g : Graph) (id : String) : Graph :=
  if id = "" then g
  else
    { users := setInsert g.users id
      parent := g.parent
      children :=
        match lookup g.children id with
        | some _ => g.children
        | none => insert g.children id [] }

def HasUser (g : Graph) (id : String) : Bool := decide (id ∈ g.users)

/-- The keys of `g.children[u]`; a missing entry is a nil map, which has no keys. -/
def childrenOf (g : Graph) (u : String) : List String :=
  (lookup g.children u).getD []

def DirectReferrals (e : Enum) (g : Graph) (id : String) : Except Err (List String) :=
  if !HasUser g id then .error .ErrUserNotFound
  else .ok (e (childrenOf g id))

/-- Step budget for the traversals: the number of child links of the graph, plus one. -/
def fuelOf (g : Graph) : Nat :=
  (g.children.map (fun kv => kv.2.length)).sum + 1

/-- The loop of `wouldCreateCycle`.  The stack is a list whose head is the top
(`stack[len(stack)-1]`). -/
def cycleLoop (e : Enum) (g : Graph) (referrer : String) :
    Nat → List String → List String → Option Bool
  | _, [], _ => some false
  | 0, _ :: _, _ => none
  | fuel + 1, curr :: stack, visited =>
    if curr = referrer then some true
    else if curr ∈ visited then cycleLoop e g referrer fuel stack visited
    else
      cycleLoop e g referrer fuel
        (((e (childrenOf g curr)).filter
            (fun child => decide (child ∉ setInsert visited curr))).reverse ++ stack)
        (setInsert visited curr)

def wouldCreateCycle (e : Enum) (g : Graph) (referrer candidate : String) : Option Bool :=
  cycleLoop e g referrer (fuelOf g) [candidate] []

/-- The call mutates the receiver and returns an error value: the result is
the graph after the call and the error (`none` for `nil`). -/
def AddReferral (e : Enum) (g : Graph) (referrer candidate : String) : Graph × Option Err :=
  if !HasUser g referrer then (g, some (.wrapped "referrer" referrer .ErrUserNotFound))
  else if !HasUser g candidate then (g, some (.wrapped "candidate" candidate .ErrUserNotFound))
  else if referrer = candidate then (g, some .ErrSelfReferral)
  else
    match lookup g.parent candidate with
    | some p =>
      if p = referrer then (g, some .ErrReferralExists)
      else (g, some .ErrAlreadyHasReferrer)
    | none =>
      match wouldCreateCycle e g referrer candidate with
      | none => (g, some .outOfFuel)
      | some true => (g, some .ErrWouldCreateCycle)
      | some false =>
        match lookup g.children referrer with
        | none => (g, some .nilMapWrite)
        | some cs =>
          ({ users := g.users
             parent := insert g.parent candidate referrer
             children := insert g.children referrer (setInsert cs candidate) }, none)

/-! ## Reach -/

structure UserReach where
  User : String
  Reach : Nat
  deriving DecidableEq, Repr

/-- The inner `for child := range g.children[curr]` of the breadth-first
loops, acting on the pair `(visited, queue)`. -/
def visitChildren (cs : List String) (visited queue : List String) :
    List String × List String :=
  cs.foldl
    (fun vq child =>
      if child ∈ vq.1 then vq else (setInsert vq.1 child, vq.2 ++ [child]))
    (visited, queue)

/-- The loop shared (textually) by `TotalReach` and `FullDownstream`; returns
the final `visited` set. -/
def reachLoop (e : Enum) (g : Graph) : Nat → List String → List String → Option (List String)
  | _, [], visited => some visited
  | 0, _ :: _, _ => none
  | fuel + 1, curr :: queue, visited =>
    reachLoop e g fuel
      (visitChildren (e (childrenOf g curr)) visited queue).2
      (visitChildren (e (childrenOf g curr)) visited queue).1

def TotalReach (e : Enum) (g : Graph) (user : String) : Except Err Nat :=
  if !HasUser g user then .error .ErrUserNotFound
  else
    match reachLoop e g (fuelOf g) [user] [] with
    | none => .error .outOfFuel
    | some visited => .ok visited.length

def FullDownstream (e : Enum) (g : Graph) (user : String) : Except Err (List String) :=
  if !HasUser g user then .error .ErrUserNotFound
  else
    match reachLoop e g (fuelOf g) [user] [] with
    | none => .error .outOfFuel
    | some visited => .ok visited

/-- The `less` closure handed to `sort.Slice`. -/
def reachLess (a b : UserReach) : Bool :=
  if a.Reach = b.Reach then decide (a.User < b.User) else decide (a.Reach > b.Reach)

/-- The body of the loop over `g.users` in `TopKByReach`.  An error of
`TotalReach` is dropped by the caller (`cnt, _ :=`), which leaves the count 0. -/
def reachEntry (e : Enum) (g : Graph) (u : String) : UserReach :=
  match TotalReach e g u with
  | .ok cnt => { User := u, Reach := cnt }
  | .error _ => { User := u, Reach := 0 }

/-- The function `TopKByReach`; `sortSlice` stands for the library's `sort.Slice`. -/
def TopKByReach (sortSlice : (UserReach → UserReach → Bool) → List UserReach → List UserReach)
    (e : Enum) (g : Graph) (k : Int) : Except Err (List UserReach) :=
  if k ≤ 0 then .error .kMustBePositive
  else
    let reaches := sortSlice reachLess ((e g.users).map (reachEntry e g))
    .ok (reaches.take (if k > (reaches.length : Int) then reaches.length else k.toNat))

/-- Requirement of `sort.Slice` on its `less` argument: a strict weak ordering. -/
def StrictWeakOrder (less : UserReach → UserReach → Bool) : Prop :=
  (∀ a, less a a = false) ∧
  (∀ a b c, less a b = true → less b c = true → less a c = true) ∧
  (∀ a b c, less a b = false → less b c = false → less a c = false)

/-- Contract of `sort.Slice`: the slice is rearranged, and when `less` is a
strict weak ordering no element is less than an element placed before it.  The
sort need not be stable. -/
def SortSliceSpec
    (sortSlice : (UserReach → UserReach → Bool) → List UserReach → List UserReach) : Prop :=
  ∀ less l, (sortSlice less l).Perm l ∧
    (StrictWeakOrder less → (sortSlice less l).Pairwise (fun a b => less b a = false))

/-- One sorting function that meets the contract: insertion sort. -/
def insertionSortSlice (less : UserReach → UserReach → Bool) (l : List UserReach) :
    List UserReach :=
  l.insertionSort (fun a b => less b a = false)

/-- The ranking order of the specification: larger reach first, equal reaches
by ascending identifier. -/
def rankBefore (a b : UserReach) : Prop :=
  a.Reach > b.Reach ∨ (a.Reach = b.Reach ∧ a.User < b.User)

/-! ## Specification vocabulary -/

/-- There is a child link from `a` to `b`. -/
def child (g : Graph) (a b : String) : Prop := b ∈ childrenOf g a

instance (g : Graph) (a b : String) : Decidable (child g a b) :=
  inferInstanceAs (Decidable (b ∈ childrenOf g a))

/-- The node `b` is reached from `a` by one or more child links. -/
def Descendant (g : Graph) (a b : String) : Prop := Relation.TransGen (child g) a b

/-- The node `b` is reached from `a` by zero or more child links. -/
def ReachableFrom (g : Graph) (a b : String) : Prop := Relation.ReflTransGen (child g) a b

/-- Graphs obtained from `NewGraph` by `AddUser` and `AddReferral` calls; a
call of `AddReferral` counts whether it is accepted or rejected. -/
inductive Reachable : Graph → Prop
  | newGraph : Reachable NewGraph
  | addUser (g : Graph) (id : String) : Reachable g → Reachable (AddUser g id)
  | addReferral (e : Enum) (g : Graph) (referrer candidate : String) :
      e.Valid → Reachable g → Reachable (AddReferral e g referrer candidate).1

/-! ## Auxiliary definitions for the proofs -/

/-- Number of child links stored under keys that are not yet in `visited`. -/
def weight : List (String × List String) → List String → Nat
  | [], _ => 0
  | (k, cs) :: m, visited => (if k ∈ visited then 0 else cs.length) + weight m visited

/-- All child links of the graph, as the list of their targets. -/
def links : List (String × List String) → List String
  | [] => []
  | (_, cs) :: m => cs ++ links m

/-- Number of entries of `l` that are not in `visited`. -/
def unseen : List String → List String → Nat
  | [], _ => 0
  | x :: l, visited => (if x ∈ visited then 0 else 1) + unseen l visited

/-- The structural invariant kept by every call of `AddUser` and `AddReferral`. -/
structure Inv (g : Graph) : Prop where
  users_nodup : g.users.Nodup
  no_empty : "" ∉ g.users
  children_entry : ∀ u ∈ g.users, ∃ cs, lookup g.children u = some cs
  children_nodup : ∀ u, (childrenOf g u).Nodup
  parent_iff : ∀ c r, lookup g.parent c = some r ↔ child g r c
  parent_mem : ∀ c r, lookup g.parent c = some r → c ∈ g.users ∧ r ∈ g.users
  acyclic : ∀ x, ¬ Descendant g x x

/-- The node reached from `m` after exactly `n` parent links, if there are that many. -/
def climb (g : Graph) : Nat → String → Option String
  | 0, m => some m
  | n + 1, m =>
    match lookup g.parent m with
    | none => none
    | some p => climb g n p

/-! ## Concrete graphs -/

/-- Members A, B, C with the accepted referrals A → B and B → C. -/
def chainABC : Graph :=
  (AddReferral id
    (AddReferral id (AddUser (AddUser (AddUser NewGraph "A") "B") "C") "A" "B").1
    "B" "C").1

/-- Members A and B, no referral. -/
def pairAB : Graph := AddUser (AddUser NewGraph "A") "B"

/-- Members P, A, B, C with the accepted referral P → A. -/
def rootedPA : Graph :=
  (AddReferral id (AddUser (AddUser (AddUser (AddUser NewGraph "P") "A") "B") "C")
    "P" "A").1

/-- Graphs obtained from `NewGraph` by `AddUser` and `AddReferral` calls,
together with the log of the accepted referrals `(referrer, candidate)`, in the
order of their calls. -/
inductive History : Graph → List (String × String) → Prop
  | newGraph : History NewGraph []
  | addUser (g : Graph) (acc : List (String × String)) (id : String) :
      History g acc → History (AddUser g id) acc
  | addReferral (e : Enum) (g : Graph) (acc : List (String × String))
      (referrer candidate : String) :
      e.Valid → History g acc →
      History (AddReferral e g referrer candidate).1
        (if (AddReferral e g referrer candidate).2 = none
          then acc ++ [(referrer, candidate)] else acc)

/-! ## Greedy unique-reach expansion -/

/-- The keys of a map. -/
def keys {β : Type} (m : List (String × β)) : List String := m.map Prod.fst

/-- The statement `delete(m, k)`. -/
def erase {β : Type} (m : List (String × β)) (k : String) : List (String × β) :=
  m.filter (fun kv => decide (kv.1 ≠ k))

/-- The value of `ds, _ := g.FullDownstream(u)`: a nil map when the call fails. -/
def downstreamOf (e : Enum) (g : Graph) (u : String) : List String :=
  match FullDownstream e g u with
  | .ok ds => ds
  | .error _ => []

/-- The map `downstreams` after the first loop of `UniqueReachExpansion`. -/
def buildDownstreams (e : Enum) (g : Graph) : List (String × List String) :=
  (e g.users).foldl (fun m u => insert m u (downstreamOf e g u)) []

/-- The value of `newCount` for the downstream set `ds`. -/
def newCount (e : Enum) (ds covered : List String) : Nat :=
  ((e ds).filter (fun target => decide (target ∉ covered))).length

/-- The loop `for u, ds := range downstreams`: the final `(bestUser, bestNewCount)`. -/
def selectBest (e : Enum) (downstreams : List (String × List String))
    (covered : List String) : String × Int :=
  (e (keys downstreams)).foldl
    (fun best u =>
      if (newCount e ((lookup downstreams u).getD []) covered : Int) > best.2
      then (u, (newCount e ((lookup downstreams u).getD []) covered : Int))
      else best)
    ("", -1)

/-- The loop `for target := range downstreams[bestUser]` that extends `covered`. -/
def coverAll (e : Enum) (ds covered : List String) : List String :=
  (e ds).foldl setInsert covered

/-- The loop `for len(covered) < len(g.users)`; `n` is `len(g.users)`.  One
unit of the step budget is used by every iteration that selects a member. -/
def expansionLoop (e : Enum) (n : Nat) :
    Nat → List (String × List String) → List String → List UserReach →
      Option (List UserReach)
  | fuel, downstreams, covered, result =>
    if covered.length < n then
      if (selectBest e downstreams covered).2 ≤ 0 then some result
      else
        match fuel with
        | 0 => none
        | fuel + 1 =>
          expansionLoop e n fuel
            (erase downstreams (selectBest e downstreams covered).1)
            (coverAll e
              ((lookup downstreams (selectBest e downstreams covered).1).getD []) covered)
            (result ++ [{ User := (selectBest e downstreams covered).1
                          Reach := (selectBest e downstreams covered).2.toNat }])
    else some result

def UniqueReachExpansion (e : Enum) (g : Graph) : Except Err (List UserReach) :=
  match expansionLoop e g.users.length g.users.length (buildDownstreams e g) [] [] with
  | none => .error .outOfFuel
  | some result => .ok result

/-- The elements of the downstream set of `u` that are in the downstream set
of no member of `prev`. -/
def newlyCovered (g : Graph) (prev : List String) (u : String) : Set String :=
  {x | Descendant g u x ∧ ∀ w ∈ prev, ¬ Descendant g w x}

/-- One greedy step of the specification: with the members `prev` selected
before, the entry `x` names an unselected member, records the number of
elements of its downstream set that no member of `prev` covers, that number is
at least 1, and no unselected member covers more. -/
def GreedyStep (g : Graph) (prev : List String) (x : UserReach) : Prop :=
  x.User ∈ g.users ∧ x.User ∉ prev ∧
    x.Reach = (newlyCovered g prev x.User).ncard ∧ 1 ≤ x.Reach ∧
    ∀ w ∈ g.users, w ∉ prev → (newlyCovered g prev w).ncard ≤ x.Reach

/-- The set returned by `FullDownstream(u)`. -/
def downstreamSet (e : Enum) (g : Graph) (u : String) : Set String :=
  {t | ∃ ds, FullDownstream e g u = .ok ds ∧ t ∈ ds}

/-- Members A to E with the accepted referrals A → B, A → C, B → D, C → E. -/
def treeABCDE : Graph :=
  (AddReferral id (AddReferral id (AddReferral id (AddReferral id
    (AddUser (AddUser (AddUser (AddUser (AddUser NewGraph "A") "B") "C") "D") "E")
    "A" "B").1 "A" "C").1 "B" "D").1 "C" "E").1

/-! ## Flow centrality -/

/-- Read `m[k]` of a `map[string]int`: the zero value for a missing key. -/
def dget (m : List (String × Int)) (k : String) : Int := (lookup m k).getD 0

/-- The inner `for child := range g.children[curr]` of `bfsDistances`, acting
on the pair `(dist, queue)`. -/
def visitDist (curr : String) (cs : List String) (dist : List (String × Int))
    (queue : List String) : List (String × Int) × List String :=
  cs.foldl
    (fun dq child =>
      if dget dq.1 child = -1 then
        (insert dq.1 child (dget dq.1 curr + 1), dq.2 ++ [child])
      else dq)
    (dist, queue)

/-- The loop `for len(queue) > 0` of `bfsDistances`; returns the final `dist`. -/
def distLoop (e : Enum) (g : Graph) :
    Nat → List String → List (String × Int) → Option (List (String × Int))
  | _, [], dist => some dist
  | 0, _ :: _, _ => none
  | fuel + 1, curr :: queue, dist =>
    distLoop e g fuel
      (visitDist curr (e (childrenOf g curr)) dist queue).2
      (visitDist curr (e (childrenOf g curr)) dist queue).1

/-- The function `bfsDistances`; `none` when the step budget (one step per
member, plus one) is exhausted. -/
def bfsDistances (e : Enum) (g : Graph) (start : String) : Option (List (String × Int)) :=
  distLoop e g (g.users.length + 1) [start]
    (insert ((e g.users).foldl (fun dist u => insert dist u (-1)) []) start 0)

/-- The loop `for _, u := range users { dist[u] = bfsDistances(g, u) }`. -/
def allDistances (e : Enum) (g : Graph) :
    List String → List (String × List (String × Int)) →
      Option (List (String × List (String × Int)))
  | [], dist => some dist
  | u :: users, dist =>
    match bfsDistances e g u with
    | none => none
    | some d => allDistances e g users (insert dist u d)

/-- Read `dist[s][t]`: a missing `dist[s]` is a nil map. -/
def distAt (dist : List (String × List (String × Int))) (s t : String) : Int :=
  dget ((lookup dist s).getD []) t

/-- The statement `score[v]++`. -/
def bump (score : List (String × Int)) (v : String) : List (String × Int) :=
  insert score v (dget score v + 1)

/-- The three nested loops over `users` that fill `score`. -/
def scoreLoops (users : List String) (dist : List (String × List (String × Int))) :
    List (String × Int) :=
  users.foldl
    (fun score s =>
      users.foldl
        (fun score t =>
          if s = t ∨ distAt dist s t = -1 then score
          else
            users.foldl
              (fun score v =>
                if v = s ∨ v = t then score
                else if distAt dist s v ≠ -1 ∧ distAt dist v t ≠ -1 ∧
                    distAt dist s v + distAt dist v t = distAt dist s t then bump score v
                else score)
              score)
        score)
    []

/-- The function `FlowCentrality`; `sortSlice` stands for the library's `sort.Slice`.
The slice `users` is one enumeration of the member set, used by all loops. -/
def FlowCentrality
    (sortSlice : (UserReach → UserReach → Bool) → List UserReach → List UserReach)
    (e : Enum) (g : Graph) : Except Err (List UserReach) :=
  match allDistances e g (e g.users) [] with
  | none => .error .outOfFuel
  | some dist =>
    .ok (sortSlice reachLess
      ((e (keys (scoreLoops (e g.users) dist))).map fun u =>
        { User := u, Reach := (dget (scoreLoops (e g.users) dist) u).toNat }))

/-- There is a path of exactly `n` child links from `a` to `b`. -/
def Walk (g : Graph) : Nat → String → String → Prop
  | 0, a, b => a = b
  | n + 1, a, b => ∃ c, child g a c ∧ Walk g n c b

/-- The shortest child-link path from `a` to `b` has length `d`. -/
def IsDist (g : Graph) (a b : String) (d : Nat) : Prop :=
  Walk g d a b ∧ ∀ n, Walk g n a b → d ≤ n

/-- Number of members whose entry in `dist` is still `-1`. -/
def unassigned (users : List String) (dist : List (String × Int)) : Nat :=
  (users.filter (fun u => decide (dget dist u = -1))).length

/-- The part of the invariant of `bfsDistances` that does not mention the queue. -/
structure DistInv (g : Graph) (start : String) (dist : List (String × Int)) : Prop where
  lower : ∀ x ∈ g.users, -1 ≤ dget dist x
  start0 : dget dist start = 0
  sound : ∀ x ∈ g.users, 0 ≤ dget dist x → Walk g (dget dist x).toNat start x
  minimal : ∀ x ∈ g.users, 0 ≤ dget dist x → ∀ n, Walk g n start x → dget dist x ≤ n

/-- The test of the three nested loops of `FlowCentrality` under which `score[v]++` runs. -/
def betweenCond (dist : List (String × List (String × Int))) (s t v : String) : Bool :=
  decide (¬ (s = t ∨ distAt dist s t = -1) ∧ ¬ (v = s ∨ v = t) ∧
    (distAt dist s v ≠ -1 ∧ distAt dist v t ≠ -1 ∧
      distAt dist s v + distAt dist v t = distAt dist s t))

/-- Number of runs of `score[x]++` in the three nested loops over `users`. -/
def tally (users : List String) (dist : List (String × List (String × Int)))
    (x : String) : Int :=
  (users.map fun s =>
    (users.map fun t =>
      (users.map fun v =>
        if betweenCond dist s t v = true ∧ v = x then (1 : Int) else 0).sum).sum).sum

/-- The node `v` lies on a shortest path from `s` to `t`:
`dist(s, v) + dist(v, t) = dist(s, t)`, all three distances being defined. -/
def Between (g : Graph) (s v t : String) : Prop :=
  ∃ d1 d2 d3, IsDist g s v d1 ∧ IsDist g v t d2 ∧ IsDist g s t d3 ∧ d1 + d2 = d3

/-- The ordered pairs `(s, t)` of distinct members, both different from `v`,
such that `t` is reached from `s` and `v` lies on a shortest path from `s` to `t`. -/
def betweenPairs (g : Graph) (v : String) : Set (String × String) :=
  {st | st.1 ∈ g.users ∧ st.2 ∈ g.users ∧ st.1 ≠ st.2 ∧ st.1 ≠ v ∧ st.2 ≠ v ∧
    ReachableFrom g st.1 st.2 ∧ Between g st.1 v st.2}

/-- What the loops of `FlowCentrality` keep true of `score`: the keys are the
identifiers with a positive score. -/
structure ScoreOK (score : List (String × Int)) : Prop where
  keys_nodup : (keys score).Nodup
  key_iff : ∀ x, x ∈ keys score ↔ 1 ≤ dget score x
  nonneg : ∀ x, 0 ≤ dget score x

/-- The graph of the flow-centrality test: members A, B, C, D and the calls
`AddReferral` for A → B, B → C, A → D, D → C in that order. -/
def flowABCD : Graph :=
  (AddReferral id (AddReferral id (AddReferral id (AddReferral id
    (AddUser (AddUser (AddUser (AddUser NewGraph "A") "B") "C") "D")
    "A" "B").1 "B" "C").1 "A" "D").1 "D" "C").1

/-! ## Maps and sets: basic facts -/

theorem mem_setInsert {s : List String} {x y : String} :
    y ∈ setInsert s x ↔ y ∈ s ∨ y = x := by
  unfold setInsert
  split
  · constructor
    · intro h; exact Or.inl h
    · rintro (h | h)
      · exact h
      · subst h; assumption
  · simp

theorem nodup_setInsert {s : List String} (x : String) (h : s.Nodup) :
    (setInsert s x).Nodup := by
  unfold setInsert
  split
  · exact h
  · rename_i hx
    exact List.Nodup.append h (List.nodup_singleton x) (by
      intro a ha hb
      simp at hb
      subst hb
      exact hx ha)

theorem lookup_insert_self {β : Type} (m : List (String × β)) (k : String) (v : β) :
    lookup (insert m k v) k = some v := by
  induction m with
  | nil => simp [insert, lookup]
  | cons kv m ih =>
    obtain ⟨k', v'⟩ := kv
    by_cases h : k' = k
    · simp [insert, lookup, h]
    · simp [insert, lookup, h, ih]

theorem lookup_insert_ne {β : Type} (m : List (String × β)) {k k' : String} (v : β)
    (h : k' ≠ k) : lookup (insert m k v) k' = lookup m k' := by
  induction m with
  | nil =>
    have : ¬ k = k' := fun h' => h h'.symm
    simp [insert, lookup, this]
  | cons kv m ih =>
    obtain ⟨k0, v0⟩ := kv
    by_cases h0 : k0 = k
    · subst h0
      have : ¬ k0 = k' := fun h' => h h'.symm
      simp [insert, lookup, this]
    · by_cases h1 : k0 = k'
      · subst h1
        simp [insert, lookup, h0]
      · simp [insert, lookup, h0, h1, ih]

theorem Enum.Valid.mem {e : Enum} (he : e.Valid) {s : List String} {x : String} :
    x ∈ e s ↔ x ∈ s := (he s).mem_iff

theorem Enum.Valid.length {e : Enum} (he : e.Valid) (s : List String) :
    (e s).length = s.length := (he s).length_eq

theorem valid_id : Enum.Valid id := fun s => List.Perm.refl s

/-! ## The cycle check is a reachability test -/

theorem weight_setInsert_le (m : List (String × List String)) (visited : List String)
    (k : String) : weight m (setInsert visited k) ≤ weight m visited := by
  induction m with
  | nil => simp [weight]
  | cons kv m ih =>
    obtain ⟨k0, cs⟩ := kv
    simp only [weight, mem_setInsert]
    by_cases h : k0 ∈ visited
    · simp [h, ih]
    · by_cases h1 : k0 = k
      · simp [h, h1]; omega
      · simp [h, h1, ih]

theorem weight_visit (m : List (String × List String)) (visited : List String)
    (k : String) (hk : k ∉ visited) :
    weight m (setInsert visited k) + ((lookup m k).getD []).length ≤ weight m visited := by
  induction m with
  | nil => simp [weight, lookup]
  | cons kv m ih =>
    obtain ⟨k0, cs⟩ := kv
    simp only [weight, mem_setInsert, lookup]
    by_cases h1 : k0 = k
    · subst h1
      have := weight_setInsert_le m visited k0
      simp [hk]; omega
    · by_cases h : k0 ∈ visited
      · simp [h, h1]; exact ih
      · simp [h, h1]; omega

theorem weight_le_fuelOf (g : Graph) (visited : List String) :
    weight g.children visited + 1 ≤ fuelOf g := by
  unfold fuelOf
  have : ∀ m : List (String × List String),
      weight m visited ≤ (m.map (fun kv => kv.2.length)).sum := by
    intro m
    induction m with
    | nil => simp [weight]
    | cons kv m ih =>
      obtain ⟨k0, cs⟩ := kv
      simp only [weight, List.map_cons, List.sum_cons]
      split <;> omega
  have := this g.children
  omega

theorem cycleLoop_isSome {e : Enum} (he : e.Valid) (g : Graph) (referrer : String) :
    ∀ (fuel : Nat) (stack visited : List String),
      stack.length + weight g.children visited ≤ fuel →
      ∃ b, cycleLoop e g referrer fuel stack visited = some b := by
  intro fuel
  induction fuel with
  | zero =>
    intro stack visited h
    cases stack with
    | nil => exact ⟨false, rfl⟩
    | cons c s => simp at h
  | succ n ih =>
    intro stack visited h
    cases stack with
    | nil => exact ⟨false, rfl⟩
    | cons curr s =>
      simp only [cycleLoop]
      by_cases h1 : curr = referrer
      · exact ⟨true, by simp [h1]⟩
      · by_cases h2 : curr ∈ visited
        · simp only [h1, h2, if_true, if_false]
          apply ih
          simp at h; omega
        · simp only [h1, h2, if_false]
          apply ih
          have hw := weight_visit g.children visited curr h2
          have hf := List.length_filter_le
            (fun child => decide (child ∉ setInsert visited curr)) (e (childrenOf g curr))
          rw [he.length] at hf
          simp only [List.length_append, List.length_reverse]
          simp only [List.length_cons] at h
          unfold childrenOf at hf ⊢
          omega

theorem cycleLoop_sound {e : Enum} (he : e.Valid) (g : Graph) (referrer : String) :
    ∀ (fuel : Nat) (stack visited : List String),
      cycleLoop e g referrer fuel stack visited = some true →
      ∃ s ∈ stack, ReachableFrom g s referrer := by
  intro fuel
  induction fuel with
  | zero =>
    intro stack visited h
    cases stack <;> simp [cycleLoop] at h
  | succ n ih =>
    intro stack visited h
    cases stack with
    | nil => simp [cycleLoop] at h
    | cons curr s =>
      simp only [cycleLoop] at h
      by_cases h1 : curr = referrer
      · exact ⟨curr, List.mem_cons_self _ _, h1 ▸ Relation.ReflTransGen.refl⟩
      · by_cases h2 : curr ∈ visited
        · simp only [h1, h2, if_true, if_false] at h
          obtain ⟨x, hx, hr⟩ := ih _ _ h
          exact ⟨x, List.mem_cons_of_mem _ hx, hr⟩
        · simp only [h1, h2, if_false] at h
          obtain ⟨x, hx, hr⟩ := ih _ _ h
          rcases List.mem_append.1 hx with hx | hx
          · have hx1 := (List.mem_filter.1 (List.mem_reverse.1 hx)).1
            rw [he.mem] at hx1
            exact ⟨curr, List.mem_cons_self _ _, Relation.ReflTransGen.head hx1 hr⟩
          · exact ⟨x, List.mem_cons_of_mem _ hx, hr⟩

/-- A set that contains all children of its elements is closed under reachability. -/
theorem closed_reachable {g : Graph} {S : String → Prop}
    (hS : ∀ v, S v → ∀ c, child g v c → S c) {a b : String}
    (h : ReachableFrom g a b) (ha : S a) : S b := by
  induction h with
  | refl => exact ha
  | tail _ hbc ih => exact hS _ ih _ hbc

theorem cycleLoop_complete {e : Enum} (he : e.Valid) (g : Graph) (referrer : String) :
    ∀ (fuel : Nat) (stack visited : List String),
      cycleLoop e g referrer fuel stack visited = some false →
      referrer ∉ visited →
      (∀ v ∈ visited, ∀ c, child g v c → c ∈ visited ∨ c ∈ stack) →
      ∀ x, x ∈ stack ∨ x ∈ visited → ¬ ReachableFrom g x referrer := by
  intro fuel
  induction fuel with
  | zero =>
    intro stack visited h hr hcl x hx
    cases stack with
    | cons c s => simp [cycleLoop] at h
    | nil =>
      intro hreach
      have hxv : x ∈ visited := by simpa using hx
      exact hr (closed_reachable (S := fun v => v ∈ visited)
        (fun v hv c hc => by simpa using hcl v hv c hc) hreach hxv)
  | succ n ih =>
    intro stack visited h hr hcl x hx
    cases stack with
    | nil =>
      intro hreach
      have hxv : x ∈ visited := by simpa using hx
      exact hr (closed_reachable (S := fun v => v ∈ visited)
        (fun v hv c hc => by simpa using hcl v hv c hc) hreach hxv)
    | cons curr s =>
      simp only [cycleLoop] at h
      by_cases h1 : curr = referrer
      · simp [h1] at h
      · by_cases h2 : curr ∈ visited
        · simp only [h1, h2, if_true, if_false] at h
          apply ih _ _ h hr _ x
          · rcases hx with hx | hx
            · rcases List.mem_cons.1 hx with hx | hx
              · exact Or.inr (hx ▸ h2)
              · exact Or.inl hx
            · exact Or.inr hx
          · intro v hv c hc
            rcases hcl v hv c hc with h3 | h3
            · exact Or.inl h3
            · rcases List.mem_cons.1 h3 with h3 | h3
              · exact Or.inl (h3 ▸ h2)
              · exact Or.inr h3
        · simp only [h1, h2, if_false] at h
          apply ih _ _ h _ _ x
          · rcases hx with hx | hx
            · rcases List.mem_cons.1 hx with hx | hx
              · exact Or.inr (mem_setInsert.2 (Or.inr hx))
              · exact Or.inl (List.mem_append.2 (Or.inr hx))
            · exact Or.inr (mem_setInsert.2 (Or.inl hx))
          · intro hm
            rcases mem_setInsert.1 hm with hm | hm
            · exact hr hm
            · exact h1 hm.symm
          · intro v hv c hc
            by_cases hcv : c ∈ setInsert visited curr
            · exact Or.inl hcv
            · right
              rcases mem_setInsert.1 hv with hv | hv
              · rcases hcl v hv c hc with h3 | h3
                · exact absurd (mem_setInsert.2 (Or.inl h3)) hcv
                · rcases List.mem_cons.1 h3 with h3 | h3
                  · exact absurd (mem_setInsert.2 (Or.inr h3)) hcv
                  · exact List.mem_append.2 (Or.inr h3)
              · subst hv
                apply List.mem_append.2
                left
                apply List.mem_reverse.2
                apply List.mem_filter.2
                refine ⟨he.mem.2 hc, ?_⟩
                simpa using hcv

/-- The cycle check terminates and answers exactly whether `referrer` is
reached from `candidate` by zero or more child links. -/
theorem wouldCreateCycle_spec {e : Enum} (he : e.Valid) (g : Graph)
    (referrer candidate : String) :
    ∃ b, wouldCreateCycle e g referrer candidate = some b ∧
      (b = true ↔ ReachableFrom g candidate referrer) := by
  obtain ⟨b, hb⟩ := cycleLoop_isSome he g referrer (fuelOf g) [candidate] [] (by
    have := weight_le_fuelOf g []
    simp only [List.length_singleton]; omega)
  refine ⟨b, hb, ?_⟩
  cases b with
  | true =>
    obtain ⟨s, hs, hr⟩ := cycleLoop_sound he g referrer _ _ _ hb
    simp at hs
    subst hs
    simp [hr]
  | false =>
    have := cycleLoop_complete he g referrer _ _ _ hb (by simp) (by simp) candidate
      (Or.inl (List.mem_cons_self _ _))
    simp [this]

/-! ## The breadth-first loop computes the set of descendants -/

theorem links_length (g : Graph) : (links g.children).length + 1 = fuelOf g := by
  unfold fuelOf
  have : ∀ m : List (String × List String),
      (links m).length = (m.map (fun kv => kv.2.length)).sum := by
    intro m
    induction m with
    | nil => rfl
    | cons kv m ih =>
      obtain ⟨k, cs⟩ := kv
      simp [links, ih]
  rw [this]

theorem mem_links_of_lookup {m : List (String × List String)} {k : String}
    {cs : List String} (h : lookup m k = some cs) {x : String} (hx : x ∈ cs) :
    x ∈ links m := by
  induction m with
  | nil => simp [lookup] at h
  | cons kv m ih =>
    obtain ⟨k0, cs0⟩ := kv
    simp only [lookup] at h
    simp only [links, List.mem_append]
    by_cases h0 : k0 = k
    · simp only [h0, if_true, Option.some.injEq] at h
      exact Or.inl (h ▸ hx)
    · simp only [h0, if_false] at h
      exact Or.inr (ih h)

theorem mem_links_of_child {g : Graph} {a b : String} (h : child g a b) :
    b ∈ links g.children := by
  unfold child childrenOf at h
  cases hl : lookup g.children a with
  | none => simp [hl] at h
  | some cs =>
    rw [hl] at h
    exact mem_links_of_lookup hl h

theorem unseen_nil (l : List String) : unseen l [] = l.length := by
  induction l with
  | nil => rfl
  | cons x l ih => simp [unseen, ih]; omega

theorem unseen_setInsert_le (l visited : List String) (x : String) :
    unseen l (setInsert visited x) ≤ unseen l visited := by
  induction l with
  | nil => simp [unseen]
  | cons y l ih =>
    simp only [unseen, mem_setInsert]
    by_cases h : y ∈ visited
    · simp [h, ih]
    · by_cases h1 : y = x
      · simp [h, h1]; omega
      · simp [h, h1, ih]

theorem unseen_setInsert_lt (l visited : List String) (x : String) (hx : x ∈ l)
    (hv : x ∉ visited) : unseen l (setInsert visited x) + 1 ≤ unseen l visited := by
  induction l with
  | nil => simp at hx
  | cons y l ih =>
    simp only [unseen, mem_setInsert]
    by_cases h1 : y = x
    · subst h1
      have := unseen_setInsert_le l visited y
      simp [hv]; omega
    · have hx' : x ∈ l := by
        rcases List.mem_cons.1 hx with h | h
        · exact absurd h.symm h1
        · exact h
      have := ih hx'
      by_cases h : y ∈ visited
      · simp [h, h1]; omega
      · simp [h, h1]; omega

theorem visitChildren_nil (visited queue : List String) :
    visitChildren [] visited queue = (visited, queue) := rfl

theorem visitChildren_cons (c : String) (cs visited queue : List String) :
    visitChildren (c :: cs) visited queue =
      if c ∈ visited then visitChildren cs visited queue
      else visitChildren cs (setInsert visited c) (queue ++ [c]) := by
  unfold visitChildren
  simp only [List.foldl_cons]
  split <;> rfl

theorem visitChildren_potential (l : List String) :
    ∀ (cs visited queue : List String), (∀ c ∈ cs, c ∈ l) →
      (visitChildren cs visited queue).2.length + unseen l (visitChildren cs visited queue).1
        ≤ queue.length + unseen l visited := by
  intro cs
  induction cs with
  | nil => intro visited queue _; simp [visitChildren_nil]
  | cons c cs ih =>
    intro visited queue h
    rw [visitChildren_cons]
    have hcs : ∀ x ∈ cs, x ∈ l := fun x hx => h x (List.mem_cons_of_mem _ hx)
    by_cases hc : c ∈ visited
    · simp only [hc, if_true]
      exact ih visited queue hcs
    · simp only [hc, if_false]
      have h1 := ih (setInsert visited c) (queue ++ [c]) hcs
      have h2 := unseen_setInsert_lt l visited c (h c (List.mem_cons_self _ _)) hc
      simp only [List.length_append, List.length_singleton] at h1
      omega

theorem visitChildren_visited (cs : List String) :
    ∀ (visited queue : List String) (x : String),
      x ∈ (visitChildren cs visited queue).1 ↔ x ∈ visited ∨ x ∈ cs := by
  induction cs with
  | nil => intro visited queue x; simp [visitChildren_nil]
  | cons c cs ih =>
    intro visited queue x
    rw [visitChildren_cons]
    by_cases hc : c ∈ visited
    · simp only [hc, if_true, ih, List.mem_cons]
      constructor
      · rintro (h | h)
        · exact Or.inl h
        · exact Or.inr (Or.inr h)
      · rintro (h | h | h)
        · exact Or.inl h
        · exact Or.inl (h ▸ hc)
        · exact Or.inr h
    · simp only [hc, if_false, ih, mem_setInsert, List.mem_cons]
      tauto

theorem visitChildren_queue (cs : List String) :
    ∀ (visited queue : List String) (x : String),
      x ∈ (visitChildren cs visited queue).2 ↔ x ∈ queue ∨ (x ∈ cs ∧ x ∉ visited) := by
  induction cs with
  | nil => intro visited queue x; simp [visitChildren_nil]
  | cons c cs ih =>
    intro visited queue x
    rw [visitChildren_cons]
    by_cases hc : c ∈ visited
    · simp only [hc, if_true, ih, List.mem_cons]
      constructor
      · rintro (h | ⟨h1, h2⟩)
        · exact Or.inl h
        · exact Or.inr ⟨Or.inr h1, h2⟩
      · rintro (h | ⟨h1 | h1, h2⟩)
        · exact Or.inl h
        · exact absurd (h1 ▸ hc) h2
        · exact Or.inr ⟨h1, h2⟩
    · simp only [hc, if_false, ih, mem_setInsert, List.mem_append, List.mem_singleton,
        List.mem_cons]
      by_cases hx : x = c
      · subst hx
        simp [hc]
      · simp [hx]

theorem visitChildren_nodup (cs : List String) :
    ∀ (visited queue : List String), visited.Nodup →
      (visitChildren cs visited queue).1.Nodup := by
  induction cs with
  | nil => intro visited queue h; simpa [visitChildren_nil] using h
  | cons c cs ih =>
    intro visited queue h
    rw [visitChildren_cons]
    by_cases hc : c ∈ visited
    · simp only [hc, if_true]
      exact ih visited queue h
    · simp only [hc, if_false]
      exact ih _ _ (nodup_setInsert c h)

theorem reachLoop_spec {e : Enum} (he : e.Valid) (g : Graph) (user : String) :
    ∀ (fuel : Nat) (queue visited : List String),
      queue.length + unseen (links g.children) visited ≤ fuel →
      visited.Nodup →
      (∀ x ∈ visited, Descendant g user x) →
      (∀ x ∈ queue, ReachableFrom g user x) →
      (∀ v, v = user ∨ v ∈ visited → v ∈ queue ∨ ∀ c, child g v c → c ∈ visited) →
      ∃ out, reachLoop e g fuel queue visited = some out ∧ out.Nodup ∧
        ∀ x, x ∈ out ↔ Descendant g user x := by
  have hfinal : ∀ visited : List String, visited.Nodup →
      (∀ x ∈ visited, Descendant g user x) →
      (∀ v, v = user ∨ v ∈ visited → v ∈ ([] : List String) ∨
        ∀ c, child g v c → c ∈ visited) →
      visited.Nodup ∧ ∀ x, x ∈ visited ↔ Descendant g user x := by
    intro visited hnd hb hd
    refine ⟨hnd, fun x => ⟨hb x, ?_⟩⟩
    intro hx
    have hcl : ∀ v, v = user ∨ v ∈ visited → ∀ c, child g v c → c ∈ visited := by
      intro v hv
      rcases hd v hv with h | h
      · simp at h
      · exact h
    unfold Descendant at hx
    induction hx with
    | single h1 => exact hcl user (Or.inl rfl) _ h1
    | tail _ h1 ih => exact hcl _ (Or.inr ih) _ h1
  intro fuel
  induction fuel with
  | zero =>
    intro queue visited hf hnd hb hc hd
    cases queue with
    | cons c q => simp at hf
    | nil => exact ⟨visited, rfl, hfinal visited hnd hb hd⟩
  | succ n ih =>
    intro queue visited hf hnd hb hc hd
    cases queue with
    | nil => exact ⟨visited, rfl, hfinal visited hnd hb hd⟩
    | cons curr rest =>
      simp only [reachLoop]
      have hcurr : ReachableFrom g user curr := hc curr (List.mem_cons_self _ _)
      have hmem : ∀ x, x ∈ e (childrenOf g curr) ↔ child g curr x := fun x => he.mem
      apply ih
      · have := visitChildren_potential (links g.children) (e (childrenOf g curr))
          visited rest (fun c hcm => mem_links_of_child ((hmem c).1 hcm))
        simp only [List.length_cons] at hf
        omega
      · exact visitChildren_nodup _ _ _ hnd
      · intro x hx
        rcases (visitChildren_visited _ _ _ _).1 hx with h | h
        · exact hb x h
        · exact Relation.TransGen.tail' hcurr ((hmem x).1 h)
      · intro x hx
        rcases (visitChildren_queue _ _ _ _).1 hx with h | ⟨h, _⟩
        · exact hc x (List.mem_cons_of_mem _ h)
        · exact Relation.ReflTransGen.tail hcurr ((hmem x).1 h)
      · intro v hv
        by_cases hvc : v = curr
        · right
          intro c hcv
          apply (visitChildren_visited _ _ _ _).2
          exact Or.inr ((hmem c).2 (hvc ▸ hcv))
        · have hold : v = user ∨ v ∈ visited →
              v ∈ (visitChildren (e (childrenOf g curr)) visited rest).2 ∨
                ∀ c, child g v c →
                  c ∈ (visitChildren (e (childrenOf g curr)) visited rest).1 := by
            intro hv'
            rcases hd v hv' with h | h
            · rcases List.mem_cons.1 h with h | h
              · exact absurd h hvc
              · exact Or.inl ((visitChildren_queue _ _ _ _).2 (Or.inl h))
            · exact Or.inr fun c hcv =>
                (visitChildren_visited _ _ _ _).2 (Or.inl (h c hcv))
          rcases hv with hv | hv
          · exact hold (Or.inl hv)
          · rcases (visitChildren_visited _ _ _ _).1 hv with h | h
            · exact hold (Or.inr h)
            · by_cases hvv : v ∈ visited
              · exact hold (Or.inr hvv)
              · exact Or.inl ((visitChildren_queue _ _ _ _).2 (Or.inr ⟨h, hvv⟩))

/-- The breadth-first loop started at `user` terminates within the budget and
returns a duplicate-free list of exactly the descendants of `user`. -/
theorem reachLoop_total {e : Enum} (he : e.Valid) (g : Graph) (user : String) :
    ∃ out, reachLoop e g (fuelOf g) [user] [] = some out ∧ out.Nodup ∧
      ∀ x, x ∈ out ↔ Descendant g user x := by
  apply reachLoop_spec he g user
  · rw [unseen_nil, ← links_length]
    simp
    omega
  · exact List.nodup_nil
  · simp
  · intro x hx
    simp at hx
    subst hx
    exact Relation.ReflTransGen.refl
  · intro v hv
    rcases hv with hv | hv
    · exact Or.inl (by simp [hv])
    · simp at hv

theorem FullDownstream_spec {e : Enum} (he : e.Valid) (g : Graph) (user : String)
    (hu : user ∈ g.users) :
    ∃ ds, FullDownstream e g user = .ok ds ∧ TotalReach e g user = .ok ds.length ∧
      ds.Nodup ∧ ∀ x, x ∈ ds ↔ Descendant g user x := by
  obtain ⟨out, h1, h2, h3⟩ := reachLoop_total he g user
  refine ⟨out, ?_, ?_, h2, h3⟩
  · simp [FullDownstream, HasUser, hu, h1]
  · simp [TotalReach, HasUser, hu, h1]

/-- The reach does not depend on the enumeration order. -/
theorem TotalReach_enum {e e' : Enum} (he : e.Valid) (he' : e'.Valid) (g : Graph)
    (user : String) : TotalReach e g user = TotalReach e' g user := by
  by_cases hu : user ∈ g.users
  · obtain ⟨ds, _, h1, h2, h3⟩ := FullDownstream_spec he g user hu
    obtain ⟨ds', _, h1', h2', h3'⟩ := FullDownstream_spec he' g user hu
    rw [h1, h1']
    have : ds.Perm ds' :=
      (List.perm_ext_iff_of_nodup h2 h2').2 fun x => by rw [h3, h3']
    rw [this.length_eq]
  · simp [TotalReach, HasUser, hu]

/-! ## Effect of the two mutations -/

theorem childrenOf_AddUser (g : Graph) (id u : String) :
    childrenOf (AddUser g id) u = childrenOf g u := by
  unfold AddUser
  by_cases h : id = ""
  · simp [h]
  · simp only [h, if_false, childrenOf]
    cases hl : lookup g.children id with
    | some cs => rfl
    | none =>
      simp only
      by_cases hu : u = id
      · subst hu
        rw [lookup_insert_self, hl]
        rfl
      · rw [lookup_insert_ne _ _ hu]

theorem child_AddUser (g : Graph) (id a b : String) :
    child (AddUser g id) a b ↔ child g a b := by
  unfold child
  rw [childrenOf_AddUser]

theorem parent_AddUser (g : Graph) (id : String) : (AddUser g id).parent = g.parent := by
  unfold AddUser
  split <;> rfl

theorem mem_users_AddUser (g : Graph) (id u : String) :
    u ∈ (AddUser g id).users ↔ u ∈ g.users ∨ (u = id ∧ id ≠ "") := by
  unfold AddUser
  by_cases h : id = ""
  · simp [h]
  · simp [h, mem_setInsert]

/-- What an accepted call has checked and what it has written. -/
theorem AddReferral_ok {e : Enum} {g : Graph} {r c : String}
    (h : (AddReferral e g r c).2 = none) :
    r ∈ g.users ∧ c ∈ g.users ∧ r ≠ c ∧ lookup g.parent c = none ∧
      wouldCreateCycle e g r c = some false ∧
      ∃ cs, lookup g.children r = some cs ∧
        (AddReferral e g r c).1 =
          { users := g.users
            parent := insert g.parent c r
            children := insert g.children r (setInsert cs c) } := by
  unfold AddReferral at h ⊢
  by_cases h1 : r ∈ g.users
  · by_cases h2 : c ∈ g.users
    · by_cases h3 : r = c
      · simp [HasUser, h1, h2, h3] at h
      · cases hp : lookup g.parent c with
        | some p =>
          by_cases h4 : p = r <;> simp [HasUser, h1, h2, h3, hp, h4] at h
        | none =>
          cases hw : wouldCreateCycle e g r c with
          | none => simp [HasUser, h1, h2, h3, hp, hw] at h
          | some b =>
            cases b with
            | true => simp [HasUser, h1, h2, h3, hp, hw] at h
            | false =>
              cases hc : lookup g.children r with
              | none => simp [HasUser, h1, h2, h3, hp, hw, hc] at h
              | some cs =>
                refine ⟨h1, h2, h3, rfl, rfl, cs, rfl, ?_⟩
                simp [HasUser, h1, h2, h3, hp, hw, hc]
    · simp [HasUser, h1, h2] at h
  · simp [HasUser, h1] at h

/-- A rejected call leaves the graph as it was. -/
theorem AddReferral_err {e : Enum} {g : Graph} {r c : String}
    (h : (AddReferral e g r c).2 ≠ none) : (AddReferral e g r c).1 = g := by
  unfold AddReferral at h ⊢
  by_cases h1 : r ∈ g.users
  · by_cases h2 : c ∈ g.users
    · by_cases h3 : r = c
      · simp [HasUser, h1, h2, h3]
      · cases hp : lookup g.parent c with
        | some p =>
          by_cases h4 : p = r <;> simp [HasUser, h1, h2, h3, hp, h4]
        | none =>
          cases hw : wouldCreateCycle e g r c with
          | none => simp [HasUser, h1, h2, h3, hp, hw]
          | some b =>
            cases b with
            | true => simp [HasUser, h1, h2, h3, hp, hw]
            | false =>
              cases hc : lookup g.children r with
              | none => simp [HasUser, h1, h2, h3, hp, hw, hc]
              | some cs => simp [HasUser, h1, h2, h3, hp, hw, hc] at h
    · simp [HasUser, h1, h2]
  · simp [HasUser, h1]

/-- Children sets after the writes of an accepted call. -/
theorem childrenOf_written (g : Graph) (r c : String) (cs : List String)
    (hc : lookup g.children r = some cs) (p : List (String × String)) (u : String) :
    childrenOf { users := g.users, parent := p,
                 children := insert g.children r (setInsert cs c) } u =
      if u = r then setInsert (childrenOf g r) c else childrenOf g u := by
  unfold childrenOf
  by_cases hu : u = r
  · subst hu
    simp [lookup_insert_self, hc]
  · simp [lookup_insert_ne _ _ hu, hu]

theorem child_written (g : Graph) (r c : String) (cs : List String)
    (hc : lookup g.children r = some cs) (p : List (String × String)) (a b : String) :
    child { users := g.users, parent := p,
            children := insert g.children r (setInsert cs c) } a b ↔
      child g a b ∨ (a = r ∧ b = c) := by
  unfold child
  rw [childrenOf_written g r c cs hc]
  by_cases ha : a = r
  · subst ha
    simp [mem_setInsert]
  · simp [ha]

/-! ## Invariant of the store -/

/-- A path in a relation extended by one link `r → c` either avoids the new
link or passes through it; in the second case it starts with an old path to
`r` and ends with an old path from `c`. -/
theorem transGen_extend {R R' : String → String → Prop} {r c : String}
    (hR : ∀ a b, R' a b ↔ R a b ∨ (a = r ∧ b = c)) {a b : String}
    (h : Relation.TransGen R' a b) :
    Relation.TransGen R a b ∨
      (Relation.ReflTransGen R a r ∧ Relation.ReflTransGen R c b) := by
  induction h with
  | single hab =>
    rcases (hR _ _).1 hab with h1 | ⟨h1, h2⟩
    · exact Or.inl (Relation.TransGen.single h1)
    · subst h1; subst h2
      exact Or.inr ⟨Relation.ReflTransGen.refl, Relation.ReflTransGen.refl⟩
  | tail _ hbd ih =>
    rcases (hR _ _).1 hbd with h1 | ⟨h1, h2⟩
    · rcases ih with ih | ⟨ih1, ih2⟩
      · exact Or.inl (Relation.TransGen.tail ih h1)
      · exact Or.inr ⟨ih1, Relation.ReflTransGen.tail ih2 h1⟩
    · subst h1; subst h2
      rcases ih with ih | ⟨ih1, _⟩
      · exact Or.inr ⟨ih.to_reflTransGen, Relation.ReflTransGen.refl⟩
      · exact Or.inr ⟨ih1, Relation.ReflTransGen.refl⟩

theorem Inv_NewGraph : Inv NewGraph where
  users_nodup := List.nodup_nil
  no_empty := by simp [NewGraph]
  children_entry := by simp [NewGraph]
  children_nodup := by simp [NewGraph, childrenOf, lookup]
  parent_iff := by simp [NewGraph, child, childrenOf, lookup]
  parent_mem := by simp [NewGraph, lookup]
  acyclic := by
    intro x h
    have : ∀ a b, Descendant NewGraph a b → False := by
      intro a b hab
      induction hab with
      | single h1 => simp [child, NewGraph, childrenOf, lookup] at h1
      | tail _ h1 _ => simp [child, NewGraph, childrenOf, lookup] at h1
    exact this _ _ h

theorem descendant_congr {g g' : Graph} (h : ∀ a b, child g' a b ↔ child g a b)
    (a b : String) : Descendant g' a b ↔ Descendant g a b := by
  have : child g' = child g := by
    funext a b
    exact propext (h a b)
  unfold Descendant
  rw [this]

theorem Inv_AddUser {g : Graph} (hg : Inv g) (id : String) : Inv (AddUser g id) where
  users_nodup := by
    unfold AddUser
    split
    · exact hg.users_nodup
    · exact nodup_setInsert _ hg.users_nodup
  no_empty := by
    rw [mem_users_AddUser]
    rintro (h | ⟨h1, h2⟩)
    · exact hg.no_empty h
    · exact h2 h1.symm
  children_entry := by
    intro u hu
    unfold AddUser at hu ⊢
    by_cases h : id = ""
    · simp only [h, if_true] at hu ⊢
      exact hg.children_entry u hu
    · simp only [h, if_false] at hu ⊢
      cases hl : lookup g.children id with
      | some cs =>
        simp only
        rcases mem_setInsert.1 hu with hu | hu
        · exact hg.children_entry u hu
        · exact ⟨cs, hu ▸ hl⟩
      | none =>
        simp only
        by_cases hui : u = id
        · exact ⟨[], hui ▸ lookup_insert_self _ _ _⟩
        · rw [lookup_insert_ne _ _ hui]
          rcases mem_setInsert.1 hu with hu | hu
          · exact hg.children_entry u hu
          · exact absurd hu hui
  children_nodup := by
    intro u
    rw [childrenOf_AddUser]
    exact hg.children_nodup u
  parent_iff := by
    intro c r
    rw [parent_AddUser, child_AddUser]
    exact hg.parent_iff c r
  parent_mem := by
    intro c r h
    rw [parent_AddUser] at h
    have := hg.parent_mem c r h
    simp only [mem_users_AddUser]
    exact ⟨Or.inl this.1, Or.inl this.2⟩
  acyclic := by
    intro x h
    exact hg.acyclic x ((descendant_congr (child_AddUser g id) x x).1 h)

theorem Inv_AddReferral {e : Enum} (he : e.Valid) {g : Graph} (hg : Inv g)
    (r c : String) : Inv (AddReferral e g r c).1 := by
  by_cases hok : (AddReferral e g r c).2 = none
  · obtain ⟨hr, hc, hrc, hp, hw, cs, hcs, heq⟩ := AddReferral_ok hok
    rw [heq]
    have hchild := child_written g r c cs hcs (insert g.parent c r)
    have hnot : ¬ ReachableFrom g c r := by
      obtain ⟨b, hb, hiff⟩ := wouldCreateCycle_spec he g r c
      rw [hw] at hb
      cases hb
      intro hreach
      exact Bool.false_ne_true (hiff.2 hreach)
    exact
      { users_nodup := hg.users_nodup
        no_empty := hg.no_empty
        children_entry := by
          intro u hu
          by_cases hur : u = r
          · rw [hur]
            exact ⟨_, lookup_insert_self _ _ _⟩
          · simp only
            rw [lookup_insert_ne _ _ hur]
            exact hg.children_entry u hu
        children_nodup := by
          intro u
          rw [childrenOf_written g r c cs hcs]
          split
          · exact nodup_setInsert _ (hg.children_nodup r)
          · exact hg.children_nodup u
        parent_iff := by
          intro x y
          rw [hchild]
          simp only
          by_cases hx : x = c
          · subst hx
            rw [lookup_insert_self]
            constructor
            · intro h
              cases h
              exact Or.inr ⟨rfl, rfl⟩
            · rintro (h | ⟨h, _⟩)
              · have := (hg.parent_iff x y).2 h
                rw [hp] at this
                cases this
              · rw [h]
          · rw [lookup_insert_ne _ _ hx, hg.parent_iff]
            constructor
            · exact Or.inl
            · rintro (h | ⟨_, h⟩)
              · exact h
              · exact absurd h hx
        parent_mem := by
          intro x y h
          simp only at h ⊢
          by_cases hx : x = c
          · subst hx
            rw [lookup_insert_self] at h
            cases h
            exact ⟨hc, hr⟩
          · rw [lookup_insert_ne _ _ hx] at h
            exact hg.parent_mem x y h
        acyclic := by
          intro x h
          rcases transGen_extend hchild h with h1 | ⟨h1, h2⟩
          · exact hg.acyclic x h1
          · exact hnot (Relation.ReflTransGen.trans h2 h1) }
  · rw [AddReferral_err hok]
    exact hg

theorem Reachable.inv {g : Graph} (h : Reachable g) : Inv g := by
  induction h with
  | newGraph => exact Inv_NewGraph
  | addUser g id _ ih => exact Inv_AddUser ih id
  | addReferral e g r c he _ ih => exact Inv_AddReferral he ih r c

theorem AddReferral_of_unknown_referrer (e : Enum) (g : Graph) {r : String} (c : String)
    (h1 : r ∉ g.users) :
    (AddReferral e g r c).2 = some (.wrapped "referrer" r .ErrUserNotFound) := by
  simp [AddReferral, HasUser, h1]

theorem AddReferral_of_self (e : Enum) (g : Graph) {r : String} (h1 : r ∈ g.users) :
    (AddReferral e g r r).2 = some .ErrSelfReferral := by
  simp [AddReferral, HasUser, h1]

/-- Outcome of the call once the first three checks have passed and the
candidate has a recorded referrer. -/
theorem AddReferral_of_parent (e : Enum) (g : Graph) {r c p : String}
    (h1 : r ∈ g.users) (h2 : c ∈ g.users) (h3 : r ≠ c) (h4 : lookup g.parent c = some p) :
    (AddReferral e g r c).2 =
      some (if p = r then Err.ErrReferralExists else Err.ErrAlreadyHasReferrer) := by
  by_cases h5 : p = r <;> simp [AddReferral, HasUser, h1, h2, h3, h4, h5]

/-- Outcome of the call once the first four checks have passed and the
referrer is reached from the candidate. -/
theorem AddReferral_of_cycle {e : Enum} (he : e.Valid) (g : Graph) {r c : String}
    (h1 : r ∈ g.users) (h2 : c ∈ g.users) (h3 : r ≠ c) (h4 : lookup g.parent c = none)
    (h5 : ReachableFrom g c r) :
    (AddReferral e g r c).2 = some .ErrWouldCreateCycle := by
  obtain ⟨b, hb, hiff⟩ := wouldCreateCycle_spec he g r c
  have hbt : b = true := hiff.2 h5
  subst hbt
  simp [AddReferral, HasUser, h1, h2, h3, h4, hb]

/-- The graph after an accepted call, in terms of members, parent entries and
child links. -/
theorem AddReferral_ok_effect {e : Enum} {g : Graph} {r c : String}
    (h : (AddReferral e g r c).2 = none) :
    (AddReferral e g r c).1.users = g.users ∧
      (∀ x, lookup (AddReferral e g r c).1.parent x =
        if x = c then some r else lookup g.parent x) ∧
      (∀ a b, child (AddReferral e g r c).1 a b ↔ child g a b ∨ (a = r ∧ b = c)) := by
  obtain ⟨_, _, _, _, _, cs, hcs, heq⟩ := AddReferral_ok h
  rw [heq]
  refine ⟨rfl, ?_, child_written g r c cs hcs _⟩
  intro x
  by_cases hx : x = c
  · subst hx
    simp [lookup_insert_self]
  · simp [lookup_insert_ne _ _ hx, hx]

/-! ## Following parent links -/

theorem climb_add (g : Graph) (i d : Nat) (m x : String) (h : climb g i m = some x) :
    climb g (i + d) m = climb g d x := by
  induction i generalizing m with
  | zero =>
    simp only [climb] at h
    cases h
    simp
  | succ n ih =>
    simp only [climb] at h
    cases hp : lookup g.parent m with
    | none => simp [hp] at h
    | some p =>
      simp only [hp] at h
      have : n + 1 + d = (n + d) + 1 := by omega
      rw [this]
      simp only [climb, hp]
      exact ih p h

theorem climb_prefix (g : Graph) (i d : Nat) (m y : String)
    (h : climb g (i + d) m = some y) : ∃ x, climb g i m = some x := by
  induction i generalizing m with
  | zero => exact ⟨m, rfl⟩
  | succ n ih =>
    have : n + 1 + d = (n + d) + 1 := by omega
    rw [this] at h
    simp only [climb] at h ⊢
    cases hp : lookup g.parent m with
    | none => simp [hp] at h
    | some p =>
      simp only [hp] at h ⊢
      exact ih p h

theorem climb_descendant {g : Graph} (hg : Inv g) (d : Nat) (x y : String)
    (h : climb g (d + 1) x = some y) : Descendant g y x := by
  induction d generalizing x with
  | zero =>
    simp only [climb] at h
    cases hp : lookup g.parent x with
    | none => simp [hp] at h
    | some p =>
      simp only [hp] at h
      cases h
      exact Relation.TransGen.single ((hg.parent_iff x _).1 hp)
  | succ n ih =>
    rw [climb] at h
    cases hp : lookup g.parent x with
    | none => simp [hp] at h
    | some p =>
      simp only [hp] at h
      exact Relation.TransGen.tail (ih p h) ((hg.parent_iff x p).1 hp)

theorem climb_mem {g : Graph} (hg : Inv g) (n : Nat) (m x : String) (hm : m ∈ g.users)
    (h : climb g n m = some x) : x ∈ g.users := by
  induction n generalizing m with
  | zero =>
    simp only [climb] at h
    cases h
    exact hm
  | succ n ih =>
    simp only [climb] at h
    cases hp : lookup g.parent m with
    | none => simp [hp] at h
    | some p =>
      simp only [hp] at h
      exact ih p (hg.parent_mem m p hp).2 h

theorem climb_no_revisit {g : Graph} (hg : Inv g) (m : String) (i j : Nat) (x : String)
    (hij : i < j) (hi : climb g i m = some x) : climb g j m ≠ some x := by
  intro hj
  obtain ⟨d, rfl⟩ : ∃ d, j = i + (d + 1) := ⟨j - i - 1, by omega⟩
  rw [climb_add g i (d + 1) m x hi] at hj
  exact hg.acyclic x (climb_descendant hg d x x hj)

theorem climb_stops_or_continues (g : Graph) (m : String) (n : Nat) :
    (∃ k root, k ≤ n ∧ climb g k m = some root ∧ lookup g.parent root = none) ∨
      ∃ x, climb g (n + 1) m = some x := by
  induction n with
  | zero =>
    cases hp : lookup g.parent m with
    | none => exact Or.inl ⟨0, m, le_refl _, rfl, hp⟩
    | some p => exact Or.inr ⟨p, by simp [climb, hp]⟩
  | succ n ih =>
    rcases ih with ⟨k, root, hk, h1, h2⟩ | ⟨x, hx⟩
    · exact Or.inl ⟨k, root, by omega, h1, h2⟩
    · cases hp : lookup g.parent x with
      | none => exact Or.inl ⟨n + 1, x, le_refl _, hx, hp⟩
      | some p =>
        right
        refine ⟨p, ?_⟩
        rw [climb_add g (n + 1) 1 m x hx]
        simp [climb, hp]

/-- A walk along parent links never has as many links as there are members. -/
theorem climb_short {g : Graph} (hg : Inv g) (m : String) (hm : m ∈ g.users) (n : Nat)
    (y : String) (h : climb g n m = some y) : n + 1 ≤ g.users.length := by
  have hdef : ∀ i, i ≤ n → ∃ x, climb g i m = some x := by
    intro i hi
    obtain ⟨d, rfl⟩ : ∃ d, n = i + d := ⟨n - i, by omega⟩
    exact climb_prefix g i d m y h
  have hcard : (Finset.range (n + 1)).card ≤ g.users.toFinset.card := by
    apply Finset.card_le_card_of_injOn (fun i => (climb g i m).getD "")
    · intro i hi
      have hi' : i ≤ n := by
        have := Finset.mem_range.1 hi
        omega
      obtain ⟨x, hx⟩ := hdef i hi'
      simp only [hx, Option.getD_some]
      exact List.mem_toFinset.2 (climb_mem hg i m x hm hx)
    · intro i hi j hj hij
      have hi' : i ≤ n := by
        have := Finset.mem_range.1 (Finset.mem_coe.1 hi)
        omega
      have hj' : j ≤ n := by
        have := Finset.mem_range.1 (Finset.mem_coe.1 hj)
        omega
      obtain ⟨x, hx⟩ := hdef i hi'
      obtain ⟨z, hz⟩ := hdef j hj'
      simp only [hx, hz, Option.getD_some] at hij
      subst hij
      by_contra hne
      rcases Nat.lt_or_gt_of_ne hne with hlt | hlt
      · exact climb_no_revisit hg m i j x hlt hx hz
      · exact climb_no_revisit hg m j i x hlt hz hx
  rw [Finset.card_range] at hcard
  have := List.toFinset_card_le g.users
  omega

/-! ## The concrete graphs are reachable -/

theorem reachable_chainABC : Reachable chainABC :=
  Reachable.addReferral id _ "B" "C" valid_id
    (Reachable.addReferral id _ "A" "B" valid_id
      (Reachable.addUser _ "C" (Reachable.addUser _ "B"
        (Reachable.addUser _ "A" Reachable.newGraph))))

theorem chainABC_eq : chainABC =
    { users := ["A", "B", "C"]
      parent := [("B", "A"), ("C", "B")]
      children := [("A", ["B"]), ("B", ["C"]), ("C", [])] } := by
  decide

/-! ## Claims C1 to C4: the graph store -/

/-- C1: on a graph built by `AddUser`/`AddReferral` calls, `AddReferral` reports
the first failing check in the fixed order (referrer unknown, candidate unknown,
self-referral, the same referrer recorded, another referrer recorded, referrer
among the descendants of the candidate), and it is accepted exactly when no
check fails. -/
theorem C1_validation_order (e : Enum) (he : e.Valid) (g : Graph) (hg : Reachable g)
    (referrer candidate : String) :
    (referrer ∉ g.users →
      (AddReferral e g referrer candidate).2 =
        some (.wrapped "referrer" referrer .ErrUserNotFound)) ∧
    (referrer ∈ g.users → candidate ∉ g.users →
      (AddReferral e g referrer candidate).2 =
        some (.wrapped "candidate" candidate .ErrUserNotFound)) ∧
    (referrer ∈ g.users → candidate ∈ g.users → referrer = candidate →
      (AddReferral e g referrer candidate).2 = some .ErrSelfReferral) ∧
    (referrer ∈ g.users → candidate ∈ g.users → referrer ≠ candidate →
      lookup g.parent candidate = some referrer →
      (AddReferral e g referrer candidate).2 = some .ErrReferralExists) ∧
    (referrer ∈ g.users → candidate ∈ g.users → referrer ≠ candidate →
      (∃ p, lookup g.parent candidate = some p ∧ p ≠ referrer) →
      (AddReferral e g referrer candidate).2 = some .ErrAlreadyHasReferrer) ∧
    (referrer ∈ g.users → candidate ∈ g.users → referrer ≠ candidate →
      lookup g.parent candidate = none → Descendant g candidate referrer →
      (AddReferral e g referrer candidate).2 = some .ErrWouldCreateCycle) ∧
    ((AddReferral e g referrer candidate).2 = none ↔
      referrer ∈ g.users ∧ candidate ∈ g.users ∧ referrer ≠ candidate ∧
        lookup g.parent candidate = none ∧ ¬ Descendant g candidate referrer) := by
  obtain ⟨b, hb, hiff⟩ := wouldCreateCycle_spec he g referrer candidate
  have hdesc : referrer ≠ candidate →
      (ReachableFrom g candidate referrer ↔ Descendant g candidate referrer) := by
    intro hne
    unfold ReachableFrom Descendant
    rw [Relation.reflTransGen_iff_eq_or_transGen]
    constructor
    · rintro (h | h)
      · exact absurd h hne
      · exact h
    · exact Or.inr
  refine ⟨?_, ?_, ?_, ?_, ?_, ?_, ?_⟩
  · intro h1
    simp [AddReferral, HasUser, h1]
  · intro h1 h2
    simp [AddReferral, HasUser, h1, h2]
  · intro h1 h2 h3
    simp [AddReferral, HasUser, h1, h2, h3]
  · intro h1 h2 h3 h4
    simp [AddReferral, HasUser, h1, h2, h3, h4]
  · rintro h1 h2 h3 ⟨p, h4, h5⟩
    simp [AddReferral, HasUser, h1, h2, h3, h4, h5]
  · intro h1 h2 h3 h4 h5
    have hbt : b = true := hiff.2 ((hdesc h3).2 h5)
    subst hbt
    simp [AddReferral, HasUser, h1, h2, h3, h4, hb]
  · constructor
    · intro hok
      obtain ⟨h1, h2, h3, h4, h5, _⟩ := AddReferral_ok hok
      refine ⟨h1, h2, h3, h4, ?_⟩
      intro hd
      rw [h5] at hb
      cases hb
      exact Bool.false_ne_true (hiff.2 ((hdesc h3).2 hd))
    · rintro ⟨h1, h2, h3, h4, h5⟩
      have hbf : b = false := by
        cases b with
        | false => rfl
        | true => exact absurd ((hdesc h3).1 (hiff.1 rfl)) h5
      subst hbf
      obtain ⟨cs, hcs⟩ := hg.inv.children_entry referrer h1
      simp [AddReferral, HasUser, h1, h2, h3, h4, hb, hcs]

/-- C1 at the chain A → B → C: `AddReferral("C", "A")` passes the first four
checks and is rejected by the cycle check, A being an ancestor of C. -/
theorem C1_validation_order_witness :
    (AddReferral id chainABC "C" "A").2 = some .ErrWouldCreateCycle :=
  (C1_validation_order id valid_id chainABC reachable_chainABC "C" "A").2.2.2.2.2.1
    (by decide) (by decide) (by decide) (by decide)
    (Relation.TransGen.tail (b := "B") (Relation.TransGen.single (by decide)) (by decide))

/-- C2: `AddReferral` accepts or rejects atomically.  A rejected call returns
the graph unchanged; an accepted call keeps the member set, records
`parent[candidate] = referrer` and changes no other parent entry, adds
`candidate` to `children[referrer]` and changes no other children set. -/
theorem C2_atomic (e : Enum) (g : Graph) (hg : Reachable g)
    (referrer candidate : String) :
    ((AddReferral e g referrer candidate).2 ≠ none →
      (AddReferral e g referrer candidate).1 = g) ∧
    ((AddReferral e g referrer candidate).2 = none →
      (AddReferral e g referrer candidate).1.users = g.users ∧
      lookup (AddReferral e g referrer candidate).1.parent candidate = some referrer ∧
      (∀ x, x ≠ candidate →
        lookup (AddReferral e g referrer candidate).1.parent x = lookup g.parent x) ∧
      (∃ cs, lookup g.children referrer = some cs ∧ candidate ∉ cs ∧
        lookup (AddReferral e g referrer candidate).1.children referrer =
          some (cs ++ [candidate])) ∧
      (∀ u, u ≠ referrer →
        lookup (AddReferral e g referrer candidate).1.children u =
          lookup g.children u)) := by
  refine ⟨AddReferral_err, ?_⟩
  intro hok
  obtain ⟨_, _, _, hp, _, cs, hcs, heq⟩ := AddReferral_ok hok
  have hnot : candidate ∉ cs := by
    intro hmem
    have : child g referrer candidate := by
      unfold child childrenOf
      rw [hcs]
      exact hmem
    have := (hg.inv.parent_iff candidate referrer).2 this
    rw [hp] at this
    cases this
  rw [heq]
  refine ⟨rfl, lookup_insert_self _ _ _, ?_, ⟨cs, hcs, hnot, ?_⟩, ?_⟩
  · intro x hx
    exact lookup_insert_ne _ _ hx
  · simp only
    rw [lookup_insert_self]
    simp [setInsert, hnot]
  · intro u hu
    exact lookup_insert_ne _ _ hu

/-- C2 at the chain A → B → C: the rejected call `AddReferral("C", "A")`
returns the chain itself. -/
theorem C2_atomic_witness : (AddReferral id chainABC "C" "A").1 = chainABC :=
  (C2_atomic id chainABC reachable_chainABC "C" "A").1 (by decide)

/-- C3: in a graph built by `AddUser`/`AddReferral` calls, following parent
links from a member reaches, after at most (member count) links, a member
without a parent, and no member occurs twice on the way. -/
theorem C3_acyclic (g : Graph) (hg : Reachable g) (m : String) (hm : m ∈ g.users) :
    ∃ k root, k ≤ g.users.length ∧ climb g k m = some root ∧ root ∈ g.users ∧
      lookup g.parent root = none ∧
      ∀ i j x, i < j → j ≤ k → climb g i m = some x → climb g j m ≠ some x := by
  have hinv := hg.inv
  rcases climb_stops_or_continues g m g.users.length with ⟨k, root, hk, h1, h2⟩ | ⟨x, hx⟩
  · exact ⟨k, root, hk, h1, climb_mem hinv k m root hm h1, h2,
      fun i j x hij _ hi => climb_no_revisit hinv m i j x hij hi⟩
  · have := climb_short hinv m hm _ x hx
    omega

/-- C3 at the chain A → B → C, starting from C. -/
theorem C3_acyclic_witness :
    ∃ k root, k ≤ chainABC.users.length ∧ climb chainABC k "C" = some root ∧
      root ∈ chainABC.users ∧ lookup chainABC.parent root = none ∧
      ∀ i j x, i < j → j ≤ k → climb chainABC i "C" = some x →
        climb chainABC j "C" ≠ some x :=
  C3_acyclic chainABC reachable_chainABC "C" (by decide)

/-- C4: in a graph built by `AddUser`/`AddReferral` calls, `parent[c] == r`
holds exactly when `c` is in `children[r]`, and then `c` and `r` are members. -/
theorem C4_parent_children_consistent (g : Graph) (hg : Reachable g) (c r : String) :
    (lookup g.parent c = some r ↔ c ∈ childrenOf g r) ∧
      (lookup g.parent c = some r → c ∈ g.users ∧ r ∈ g.users) :=
  ⟨hg.inv.parent_iff c r, hg.inv.parent_mem c r⟩

/-- C4 at the chain A → B → C for the link B → C. -/
theorem C4_parent_children_consistent_witness :
    (lookup chainABC.parent "C" = some "B" ↔ "C" ∈ childrenOf chainABC "B") ∧
      (lookup chainABC.parent "C" = some "B" →
        "C" ∈ chainABC.users ∧ "B" ∈ chainABC.users) :=
  C4_parent_children_consistent chainABC reachable_chainABC "C" "B"

/-! ## Claims C5 and C6: repeated and cyclic referrals -/

theorem reachable_pairAB : Reachable pairAB :=
  Reachable.addUser _ "B" (Reachable.addUser _ "A" Reachable.newGraph)

/-- C5 as stated fails: after the accepted `AddReferral("A", "B")`, the call
`AddReferral("C", "B")` with the unknown identifier C (which differs from A) is
rejected with the wrapped `ErrUserNotFound`, and the call `AddReferral("B", "B")`
(B differs from A) is rejected with `ErrSelfReferral`; neither is
`ErrAlreadyHasReferrer`. -/
theorem C5_counterexample :
    Reachable pairAB ∧ (AddReferral id pairAB "A" "B").2 = none ∧
      "C" ≠ "A" ∧
      (AddReferral id (AddReferral id pairAB "A" "B").1 "C" "B").2 =
        some (.wrapped "referrer" "C" .ErrUserNotFound) ∧
      (AddReferral id (AddReferral id pairAB "A" "B").1 "C" "B").2 ≠
        some .ErrAlreadyHasReferrer ∧
      "B" ≠ "A" ∧
      (AddReferral id (AddReferral id pairAB "A" "B").1 "B" "B").2 =
        some .ErrSelfReferral :=
  ⟨reachable_pairAB, by decide, by decide, by decide, by decide, by decide, by decide⟩

/-- C5, amended: after an accepted `AddReferral(a, b)`, repeating the call is
rejected with `ErrReferralExists`, and `AddReferral(c, b)` is rejected with
`ErrAlreadyHasReferrer` for every member `c` other than `a` and `b`; for an
unknown `c` the rejection is the wrapped `ErrUserNotFound`, and for `c = b` it
is `ErrSelfReferral`. -/
theorem C5_second_referral (e e' : Enum) (g : Graph) (a b : String)
    (hok : (AddReferral e g a b).2 = none) :
    (AddReferral e' (AddReferral e g a b).1 a b).2 = some .ErrReferralExists ∧
    (∀ c, c ≠ a → c ∈ g.users → c ≠ b →
      (AddReferral e' (AddReferral e g a b).1 c b).2 = some .ErrAlreadyHasReferrer) ∧
    (∀ c, c ∉ g.users →
      (AddReferral e' (AddReferral e g a b).1 c b).2 =
        some (.wrapped "referrer" c .ErrUserNotFound)) ∧
    (AddReferral e' (AddReferral e g a b).1 b b).2 = some .ErrSelfReferral := by
  obtain ⟨ha, hb, hab, _, _, _⟩ := AddReferral_ok hok
  obtain ⟨hu, hp, _⟩ := AddReferral_ok_effect hok
  have hpb : lookup (AddReferral e g a b).1.parent b = some a := by
    rw [hp b]
    simp
  refine ⟨?_, ?_, ?_, ?_⟩
  · rw [AddReferral_of_parent e' _ (hu ▸ ha) (hu ▸ hb) hab hpb]
    simp
  · intro c hca hc hcb
    rw [AddReferral_of_parent e' _ (hu ▸ hc) (hu ▸ hb) hcb hpb]
    have : ¬ a = c := fun h => hca h.symm
    simp [this]
  · intro c hc
    exact AddReferral_of_unknown_referrer e' _ b (hu ▸ hc)
  · exact AddReferral_of_self e' _ (hu ▸ hb)

/-- C5 (amended) at members A, B: the second `AddReferral("A", "B")`. -/
theorem C5_second_referral_witness :
    (AddReferral id (AddReferral id pairAB "A" "B").1 "A" "B").2 =
      some .ErrReferralExists :=
  (C5_second_referral id id pairAB "A" "B" (by decide)).1

theorem reachable_rootedPA : Reachable rootedPA :=
  Reachable.addReferral id _ "P" "A" valid_id
    (Reachable.addUser _ "C" (Reachable.addUser _ "B" (Reachable.addUser _ "A"
      (Reachable.addUser _ "P" Reachable.newGraph))))

/-- C6 as stated fails: with the referral P → A already recorded,
`AddReferral("A", "B")` and then `AddReferral("B", "C")` are accepted, and the
following `AddReferral("C", "A")` is rejected with `ErrAlreadyHasReferrer`
(the referrer check comes before the cycle check), not `ErrWouldCreateCycle`. -/
theorem C6_counterexample :
    Reachable rootedPA ∧ (AddReferral id rootedPA "A" "B").2 = none ∧
      (AddReferral id (AddReferral id rootedPA "A" "B").1 "B" "C").2 = none ∧
      (AddReferral id
        (AddReferral id (AddReferral id rootedPA "A" "B").1 "B" "C").1 "C" "A").2 =
        some .ErrAlreadyHasReferrer ∧
      (AddReferral id
        (AddReferral id (AddReferral id rootedPA "A" "B").1 "B" "C").1 "C" "A").2 ≠
        some .ErrWouldCreateCycle :=
  ⟨reachable_rootedPA, by decide, by decide, by decide, by decide⟩

/-- C6, amended: after accepted calls `AddReferral(a, b)` and
`AddReferral(b, c)`, the call `AddReferral(c, a)` is rejected: with
`ErrWouldCreateCycle` when `a` has no recorded referrer, and with
`ErrAlreadyHasReferrer` when `a` has one. -/
theorem C6_closing_referral (e1 e2 e3 : Enum) (h2 : e2.Valid) (h3 : e3.Valid)
    (g : Graph) (hg : Reachable g) (a b c : String)
    (hab : (AddReferral e1 g a b).2 = none)
    (hbc : (AddReferral e2 (AddReferral e1 g a b).1 b c).2 = none) :
    (lookup g.parent a = none →
      (AddReferral e3 (AddReferral e2 (AddReferral e1 g a b).1 b c).1 c a).2 =
        some .ErrWouldCreateCycle) ∧
    (lookup g.parent a ≠ none →
      (AddReferral e3 (AddReferral e2 (AddReferral e1 g a b).1 b c).1 c a).2 =
        some .ErrAlreadyHasReferrer) := by
  obtain ⟨ha, _, hneab, _, _, _⟩ := AddReferral_ok hab
  obtain ⟨hu1, hp1, hc1⟩ := AddReferral_ok_effect hab
  obtain ⟨_, hc', _, _, hw, _⟩ := AddReferral_ok hbc
  obtain ⟨hu2, hp2, hc2⟩ := AddReferral_ok_effect hbc
  have hnot : ¬ ReachableFrom (AddReferral e1 g a b).1 c b := by
    obtain ⟨x, hx, hiff⟩ := wouldCreateCycle_spec h2 (AddReferral e1 g a b).1 b c
    rw [hw] at hx
    cases hx
    intro hreach
    exact Bool.false_ne_true (hiff.2 hreach)
  have hedge : child (AddReferral e1 g a b).1 a b := (hc1 a b).2 (Or.inr ⟨rfl, rfl⟩)
  have hca : c ≠ a := by
    intro h
    subst h
    exact hnot (Relation.ReflTransGen.single hedge)
  have hmemc : c ∈ (AddReferral e2 (AddReferral e1 g a b).1 b c).1.users := hu2 ▸ hc'
  have hmema : a ∈ (AddReferral e2 (AddReferral e1 g a b).1 b c).1.users :=
    hu2 ▸ hu1 ▸ ha
  have hpa : lookup (AddReferral e2 (AddReferral e1 g a b).1 b c).1.parent a =
      lookup g.parent a := by
    rw [hp2 a, hp1 a]
    have : ¬ a = c := fun h => hca h.symm
    simp [this, hneab]
  constructor
  · intro hnone
    apply AddReferral_of_cycle h3 _ hmemc hmema hca (hpa ▸ hnone)
    exact Relation.ReflTransGen.tail
      (Relation.ReflTransGen.single ((hc2 a b).2 (Or.inl hedge)))
      ((hc2 b c).2 (Or.inr ⟨rfl, rfl⟩))
  · intro hsome
    cases hp : lookup g.parent a with
    | none => exact absurd hp hsome
    | some p =>
      rw [AddReferral_of_parent e3 _ hmemc hmema hca (hpa ▸ hp)]
      have hpc : p ≠ c := by
        intro h
        subst h
        have hpa' : child g p a := (hg.inv.parent_iff a p).1 hp
        exact hnot (Relation.ReflTransGen.tail
          (Relation.ReflTransGen.single ((hc1 p a).2 (Or.inl hpa'))) hedge)
      simp [hpc]

/-- C6 (amended) at members A, B, C without referrals: A → B and B → C are
accepted, then `AddReferral("C", "A")` is rejected by the cycle check. -/
theorem C6_closing_referral_witness :
    (AddReferral id (AddReferral id (AddReferral id
      (AddUser (AddUser (AddUser NewGraph "A") "B") "C") "A" "B").1 "B" "C").1
      "C" "A").2 = some .ErrWouldCreateCycle :=
  (C6_closing_referral id id id valid_id valid_id
    (AddUser (AddUser (AddUser NewGraph "A") "B") "C")
    (Reachable.addUser _ "C" (Reachable.addUser _ "B"
      (Reachable.addUser _ "A" Reachable.newGraph)))
    "A" "B" "C" (by decide) (by decide)).1 (by decide)

/-! ## Claims C7 and C8: reach and downstream set -/

theorem descendant_mem {g : Graph} (hg : Inv g) {a b : String} (h : Descendant g a b) :
    b ∈ g.users := by
  cases h with
  | single h1 => exact (hg.parent_mem _ _ ((hg.parent_iff _ _).2 h1)).1
  | tail _ h1 => exact (hg.parent_mem _ _ ((hg.parent_iff _ _).2 h1)).1

/-- In a chain `xs` (every node of `xs` has the next node of `xs` as its only
child, the last one has none) the descendants of a node are the later nodes. -/
theorem chain_descendant {g : Graph} {xs : List String}
    (hch : ∀ j a, xs[j]? = some a → ∀ y, child g a y ↔ xs[j + 1]? = some y)
    (i : Nat) (a : String) (ha : xs[i]? = some a) (y : String) :
    Descendant g a y ↔ ∃ j, i < j ∧ xs[j]? = some y := by
  constructor
  · intro h
    unfold Descendant at h
    induction h with
    | single h1 => exact ⟨i + 1, by omega, (hch i a ha _).1 h1⟩
    | tail _ h1 ih =>
      obtain ⟨j, hj, hb⟩ := ih
      exact ⟨j + 1, by omega, (hch j _ hb _).1 h1⟩
  · rintro ⟨j, hj, hy⟩
    obtain ⟨d, rfl⟩ : ∃ d, j = i + 1 + d := ⟨j - (i + 1), by omega⟩
    clear hj
    induction d generalizing y with
    | zero => exact Relation.TransGen.single ((hch i a ha y).2 hy)
    | succ d ih =>
      have hlt : i + 1 + d < xs.length := by
        have := (List.getElem?_eq_some.1 hy).1
        omega
      have hb : xs[i + 1 + d]? = some (xs[i + 1 + d]) := List.getElem?_eq_getElem hlt
      exact Relation.TransGen.tail (ih _ hb) ((hch _ _ hb y).2 hy)

theorem chain_nodup {g : Graph} (hg : Inv g) {xs : List String}
    (hch : ∀ j a, xs[j]? = some a → ∀ y, child g a y ↔ xs[j + 1]? = some y) :
    xs.Nodup := by
  rw [List.nodup_iff_getElem?_ne_getElem?]
  intro i j hij hj heq
  have hi : i < xs.length := by omega
  have ha : xs[i]? = some (xs[i]) := List.getElem?_eq_getElem hi
  have hd := (chain_descendant hch i _ ha (xs[i])).2 ⟨j, hij, heq ▸ ha⟩
  exact hg.acyclic _ hd

/-- C7: on a graph built by `AddUser`/`AddReferral` calls and for a member
`p`, `TotalReach` succeeds with the number of members reached from `p` by one
or more child links; `p` is not among them; a member without children has
reach 0; and in a chain `xs` the node at position `i` has reach
`xs.length - 1 - i`. -/
theorem C7_total_reach (e : Enum) (he : e.Valid) (g : Graph) (hg : Reachable g)
    (p : String) (hp : p ∈ g.users) :
    TotalReach e g p = .ok (Set.ncard {x | x ∈ g.users ∧ Descendant g p x}) ∧
    ¬ Descendant g p p ∧
    (childrenOf g p = [] → TotalReach e g p = .ok 0) ∧
    (∀ (xs : List String) (i : Nat), xs[i]? = some p →
      (∀ j a, xs[j]? = some a → ∀ y, child g a y ↔ xs[j + 1]? = some y) →
      TotalReach e g p = .ok (xs.length - 1 - i)) := by
  have hinv := hg.inv
  obtain ⟨ds, _, h1, h2, h3⟩ := FullDownstream_spec he g p hp
  refine ⟨?_, hinv.acyclic p, ?_, ?_⟩
  · rw [h1]
    have hset : {x | x ∈ g.users ∧ Descendant g p x} = (↑ds.toFinset : Set String) := by
      ext x
      simp only [Set.mem_setOf_eq, Finset.mem_coe, List.mem_toFinset, h3]
      exact ⟨fun h => h.2, fun h => ⟨descendant_mem hinv h, h⟩⟩
    rw [hset, Set.ncard_coe_Finset, List.toFinset_card_of_nodup h2]
  · intro hleaf
    rw [h1]
    have : ds = [] := by
      apply List.eq_nil_iff_forall_not_mem.2
      intro x hx
      have hd := (h3 x).1 hx
      have : ∀ a b, Descendant g a b → a = p → False := by
        intro a b hab
        induction hab using Relation.TransGen.head_induction_on with
        | base h0 =>
          intro hap
          subst hap
          unfold child at h0
          rw [hleaf] at h0
          simp at h0
        | ih h0 _ _ =>
          intro hap
          subst hap
          unfold child at h0
          rw [hleaf] at h0
          simp at h0
      exact this p x hd rfl
    rw [this]
    rfl
  · intro xs i hi hch
    rw [h1]
    have hnd : (xs.drop (i + 1)).Nodup :=
      (chain_nodup hinv hch).sublist (List.drop_sublist _ _)
    have hperm : ds.Perm (xs.drop (i + 1)) := by
      apply (List.perm_ext_iff_of_nodup h2 hnd).2
      intro x
      rw [h3, chain_descendant hch i p hi, List.mem_iff_getElem?]
      constructor
      · rintro ⟨j, hj, hx⟩
        refine ⟨j - (i + 1), ?_⟩
        rw [List.getElem?_drop]
        have : i + 1 + (j - (i + 1)) = j := by omega
        rw [this]
        exact hx
      · rintro ⟨n, hn⟩
        rw [List.getElem?_drop] at hn
        exact ⟨i + 1 + n, by omega, hn⟩
    rw [hperm.length_eq, List.length_drop]
    congr 1
    omega

/-- C7 at the chain A → B → C: the reach of A is 2. -/
theorem C7_total_reach_witness : TotalReach id chainABC "A" = .ok 2 :=
  (C7_total_reach id valid_id chainABC reachable_chainABC "A" (by decide)).2.2.2
    ["A", "B", "C"] 0 rfl (by
      rw [chainABC_eq]
      intro j a hj y
      match j, hj with
      | 0, hj => cases hj; simp [child, childrenOf, lookup, eq_comm]
      | 1, hj => cases hj; simp [child, childrenOf, lookup, eq_comm]
      | 2, hj => cases hj; simp [child, childrenOf, lookup]
      | n + 3, hj => simp at hj)

/-- C8: on every graph and for every identifier `p`, `TotalReach` and
`FullDownstream` fail with `ErrUserNotFound` exactly when `p` is not a member;
for a member, `FullDownstream` returns a duplicate-free set whose size is the
value of `TotalReach`, and on a graph built by `AddUser`/`AddReferral` calls
that set does not contain `p`. -/
theorem C8_reach_is_downstream_size (e1 e2 : Enum) (h1 : e1.Valid) (h2 : e2.Valid)
    (g : Graph) (p : String) :
    (TotalReach e1 g p = .error .ErrUserNotFound ↔ p ∉ g.users) ∧
    (FullDownstream e2 g p = .error .ErrUserNotFound ↔ p ∉ g.users) ∧
    (p ∈ g.users →
      ∃ ds, FullDownstream e2 g p = .ok ds ∧ ds.Nodup ∧
        TotalReach e1 g p = .ok ds.length ∧ (Reachable g → p ∉ ds)) := by
  by_cases hp : p ∈ g.users
  · obtain ⟨ds, ha, hb, hc, hd⟩ := FullDownstream_spec h2 g p hp
    rw [TotalReach_enum h1 h2 g p]
    refine ⟨?_, ?_, fun _ => ⟨ds, ha, hc, hb, ?_⟩⟩
    · simp [hb, hp]
    · simp [ha, hp]
    · intro hg hmem
      exact hg.inv.acyclic p ((hd p).1 hmem)
  · refine ⟨?_, ?_, fun h => absurd h hp⟩
    · simp [TotalReach, HasUser, hp]
    · simp [FullDownstream, HasUser, hp]

/-- C8 at the chain A → B → C and the member A. -/
theorem C8_reach_is_downstream_size_witness :
    ∃ ds, FullDownstream id chainABC "A" = .ok ds ∧ ds.Nodup ∧
      TotalReach id chainABC "A" = .ok ds.length ∧ (Reachable chainABC → "A" ∉ ds) :=
  (C8_reach_is_downstream_size id id valid_id valid_id chainABC "A").2.2 (by decide)

/-! ## Claims C9 and C10: top K by reach -/

theorem insertionSortSlice_spec : SortSliceSpec insertionSortSlice := by
  intro less l
  refine ⟨List.perm_insertionSort _ l, ?_⟩
  rintro ⟨hirr, htr, hneg⟩
  haveI : IsTotal UserReach (fun a b => less b a = false) := ⟨by
    intro a b
    cases hba : less b a with
    | false => exact Or.inl rfl
    | true =>
      right
      cases hab : less a b with
      | false => rfl
      | true =>
        have := htr a b a hab hba
        rw [hirr a] at this
        cases this⟩
  haveI : IsTrans UserReach (fun a b => less b a = false) :=
    ⟨fun a b c hab hbc => hneg c b a hbc hab⟩
  exact List.sorted_insertionSort _ l

theorem reachLess_iff (a b : UserReach) : reachLess a b = true ↔ rankBefore a b := by
  unfold reachLess rankBefore
  by_cases h : a.Reach = b.Reach
  · simp [h]
  · simp [h]

theorem rankBefore_irrefl (a : UserReach) : ¬ rankBefore a a := by
  rintro (h | ⟨_, h⟩)
  · omega
  · exact lt_irrefl _ h

theorem rankBefore_trans {a b c : UserReach} (h1 : rankBefore a b) (h2 : rankBefore b c) :
    rankBefore a c := by
  unfold rankBefore at *
  rcases h1 with h1 | ⟨h1, h1'⟩ <;> rcases h2 with h2 | ⟨h2, h2'⟩
  · left; omega
  · left; omega
  · left; omega
  · right; exact ⟨by omega, lt_trans h1' h2'⟩

theorem rankBefore_total {a b : UserReach} (h : a.User ≠ b.User) :
    rankBefore a b ∨ rankBefore b a := by
  unfold rankBefore
  rcases Nat.lt_trichotomy a.Reach b.Reach with h1 | h1 | h1
  · right; left; omega
  · rcases lt_trichotomy a.User b.User with h2 | h2 | h2
    · left; right; exact ⟨h1, h2⟩
    · exact absurd h2 h
    · right; right; exact ⟨h1.symm, h2⟩
  · left; left; omega

/-- Two entries that are not ranked either way have the same reach and identifier. -/
theorem rankBefore_incomparable {a b : UserReach} (h1 : ¬ rankBefore a b)
    (h2 : ¬ rankBefore b a) : a = b := by
  have hu : a.User = b.User := by
    by_contra hne
    rcases rankBefore_total hne with h | h
    · exact h1 h
    · exact h2 h
  have hr : a.Reach = b.Reach := by
    unfold rankBefore at h1 h2
    rcases Nat.lt_trichotomy a.Reach b.Reach with h | h | h
    · exact absurd (Or.inl h) h2
    · exact h
    · exact absurd (Or.inl h) h1
  cases a
  cases b
  simp only at hu hr
  rw [hu, hr]

theorem reachLess_strictWeakOrder : StrictWeakOrder reachLess := by
  have hf : ∀ a b, reachLess a b = false ↔ ¬ rankBefore a b := by
    intro a b
    rw [← reachLess_iff]
    simp
  refine ⟨?_, ?_, ?_⟩
  · intro a
    rw [hf]
    exact rankBefore_irrefl a
  · intro a b c h1 h2
    rw [reachLess_iff] at *
    exact rankBefore_trans h1 h2
  · intro a b c h1 h2
    rw [hf] at *
    intro hac
    by_cases hba : rankBefore b a
    · exact h2 (rankBefore_trans hba hac)
    · have := rankBefore_incomparable h1 hba
      subst this
      exact h2 hac

theorem reachEntry_User (e : Enum) (g : Graph) (u : String) :
    (reachEntry e g u).User = u := by
  unfold reachEntry
  split <;> rfl

theorem reachEntry_Reach {e : Enum} (he : e.Valid) (g : Graph) {u : String}
    (hu : u ∈ g.users) : TotalReach e g u = .ok (reachEntry e g u).Reach := by
  obtain ⟨ds, _, h, _⟩ := FullDownstream_spec he g u hu
  unfold reachEntry
  rw [h]

theorem reachEntry_enum {e e' : Enum} (he : e.Valid) (he' : e'.Valid) (g : Graph) :
    reachEntry e g = reachEntry e' g := by
  funext u
  unfold reachEntry
  rw [TotalReach_enum he he' g u]

/-- The sorted slice of `TopKByReach` is the ranking of all members. -/
theorem sorted_reaches
    {sortSlice : (UserReach → UserReach → Bool) → List UserReach → List UserReach}
    (hs : SortSliceSpec sortSlice) {e : Enum} (he : e.Valid) (g : Graph)
    (hu : g.users.Nodup) :
    (sortSlice reachLess ((e g.users).map (reachEntry e g))).Perm
        (g.users.map (reachEntry e g)) ∧
      (sortSlice reachLess ((e g.users).map (reachEntry e g))).Pairwise rankBefore := by
  obtain ⟨hperm, hsorted⟩ := hs reachLess ((e g.users).map (reachEntry e g))
  have hperm' := hperm.trans ((he g.users).map (reachEntry e g))
  refine ⟨hperm', ?_⟩
  have hnd : (g.users.map (reachEntry e g)).Nodup := by
    apply List.Nodup.of_map UserReach.User
    rw [List.map_map]
    have : UserReach.User ∘ reachEntry e g = id := by
      funext u
      exact reachEntry_User e g u
    rw [this, List.map_id]
    exact hu
  have hne : (sortSlice reachLess ((e g.users).map (reachEntry e g))).Pairwise
      (fun a b => a ≠ b) := hperm'.nodup_iff.2 hnd
  refine ((hsorted reachLess_strictWeakOrder).and hne).imp ?_
  rintro a b ⟨h1, h2⟩
  by_contra hab
  have hba : ¬ rankBefore b a := by
    rw [← reachLess_iff, h1]
    simp
  exact h2 (rankBefore_incomparable hab hba)

theorem TopKByReach_eq
    (sortSlice : (UserReach → UserReach → Bool) → List UserReach → List UserReach)
    (e : Enum) (g : Graph) {k : Int} (hk : 0 < k) :
    TopKByReach sortSlice e g k =
      .ok ((sortSlice reachLess ((e g.users).map (reachEntry e g))).take k.toNat) := by
  unfold TopKByReach
  have : ¬ k ≤ 0 := by omega
  simp only [this, if_false]
  split
  · rename_i hgt
    congr 1
    rw [List.take_of_length_le (le_refl _), List.take_of_length_le]
    omega
  · rfl

/-- C9: on every graph, `TopKByReach(k)` fails (with the "k must be positive"
error) exactly when `k ≤ 0`; for `k > 0` it succeeds and returns
`min(k, member count)` entries. -/
theorem C9_topk_length
    (sortSlice : (UserReach → UserReach → Bool) → List UserReach → List UserReach)
    (hs : SortSliceSpec sortSlice) (e : Enum) (he : e.Valid) (g : Graph) (k : Int) :
    (TopKByReach sortSlice e g k = .error .kMustBePositive ↔ k ≤ 0) ∧
    ((∃ err, TopKByReach sortSlice e g k = .error err) ↔ k ≤ 0) ∧
    (0 < k → ∃ out, TopKByReach sortSlice e g k = .ok out ∧
      (out.length : Int) = min k (g.users.length : Int)) := by
  have hlen : (sortSlice reachLess ((e g.users).map (reachEntry e g))).length =
      g.users.length := by
    rw [(hs reachLess _).1.length_eq, List.length_map, he.length]
  by_cases hk : k ≤ 0
  · have : TopKByReach sortSlice e g k = .error .kMustBePositive := by
      simp [TopKByReach, hk]
    refine ⟨by simp [this, hk], ?_, fun h => by omega⟩
    simp only [hk, iff_true]
    exact ⟨_, this⟩
  · have hpos : 0 < k := by omega
    have heq := TopKByReach_eq sortSlice e g hpos
    refine ⟨by simp [heq, hk], by simp [heq, hk], fun _ => ⟨_, heq, ?_⟩⟩
    rw [List.length_take, hlen]
    omega

/-- C9 with insertion sort, the identity enumeration and the chain A → B → C:
asking for 5 entries returns 3. -/
theorem C9_topk_length_witness :
    ∃ out, TopKByReach insertionSortSlice id chainABC 5 = .ok out ∧
      (out.length : Int) = min 5 (chainABC.users.length : Int) :=
  (C9_topk_length insertionSortSlice insertionSortSlice_spec id valid_id chainABC 5).2.2
    (by decide)

/-- C10: on every graph (its member set being a map, without repeated keys)
and for `k > 0`, `TopKByReach(k)` returns the first `min(k, member count)`
entries of the ranking of all members: the ranking lists every member once with
its `TotalReach`, in descending reach and, for equal reaches, ascending
identifier; every member left out ranks after every returned entry; and the
result is the same for every enumeration order and every sorting function that
meets the contract of `sort.Slice`. -/
theorem C10_topk_ranking
    (sortSlice : (UserReach → UserReach → Bool) → List UserReach → List UserReach)
    (hs : SortSliceSpec sortSlice) (e : Enum) (he : e.Valid) (g : Graph)
    (hu : g.users.Nodup) (k : Int) (hk : 0 < k) :
    ∃ ranking : List UserReach,
      (ranking.map UserReach.User).Perm g.users ∧
      (∀ x ∈ ranking, TotalReach e g x.User = .ok x.Reach) ∧
      ranking.Pairwise rankBefore ∧
      TopKByReach sortSlice e g k = .ok (ranking.take k.toNat) ∧
      ((ranking.take k.toNat).length : Int) = min k (g.users.length : Int) ∧
      (∀ x ∈ ranking.take k.toNat,
        x.User ∈ g.users ∧ TotalReach e g x.User = .ok x.Reach) ∧
      ((ranking.take k.toNat).map UserReach.User).Nodup ∧
      (ranking.take k.toNat).Pairwise rankBefore ∧
      (∀ u ∈ g.users, u ∉ (ranking.take k.toNat).map UserReach.User →
        ∀ r, TotalReach e g u = .ok r →
          ∀ x ∈ ranking.take k.toNat, rankBefore x { User := u, Reach := r }) ∧
      (∀ sortSlice' e', SortSliceSpec sortSlice' → Enum.Valid e' →
        TopKByReach sortSlice' e' g k = .ok (ranking.take k.toNat)) := by
  obtain ⟨hperm, hsorted⟩ := sorted_reaches hs he g hu
  have husers : ((sortSlice reachLess ((e g.users).map (reachEntry e g))).map
      UserReach.User).Perm g.users := by
    have := hperm.map UserReach.User
    rw [List.map_map] at this
    have hid : UserReach.User ∘ reachEntry e g = id := by
      funext u
      exact reachEntry_User e g u
    rwa [hid, List.map_id] at this
  have hentry : ∀ x ∈ sortSlice reachLess ((e g.users).map (reachEntry e g)),
      x.User ∈ g.users ∧ TotalReach e g x.User = .ok x.Reach := by
    intro x hx
    obtain ⟨u, hu', rfl⟩ := List.mem_map.1 (hperm.mem_iff.1 hx)
    rw [reachEntry_User]
    exact ⟨hu', reachEntry_Reach he g hu'⟩
  have htake := List.take_sublist k.toNat
    (sortSlice reachLess ((e g.users).map (reachEntry e g)))
  refine ⟨_, husers, fun x hx => (hentry x hx).2, hsorted, TopKByReach_eq sortSlice e g hk,
    ?_, fun x hx => hentry x (htake.subset hx), ?_, hsorted.sublist htake, ?_, ?_⟩
  · rw [List.length_take, hperm.length_eq, List.length_map]
    omega
  · exact (husers.nodup_iff.2 hu).sublist (htake.map UserReach.User)
  · intro u hmem hout r hr x hx
    have hin : reachEntry e g u ∈
        sortSlice reachLess ((e g.users).map (reachEntry e g)) :=
      hperm.mem_iff.2 (List.mem_map.2 ⟨u, hmem, rfl⟩)
    have heq : reachEntry e g u = { User := u, Reach := r } := by
      unfold reachEntry
      rw [hr]
    rw [← List.take_append_drop k.toNat
      (sortSlice reachLess ((e g.users).map (reachEntry e g)))] at hin hsorted
    rcases List.mem_append.1 hin with h | h
    · exact absurd (List.mem_map.2 ⟨_, h, reachEntry_User e g u⟩) hout
    · rw [← heq]
      exact (List.pairwise_append.1 hsorted).2.2 x hx _ h
  · intro sortSlice' e' hs' he'
    obtain ⟨hperm', hsorted'⟩ := sorted_reaches hs' he' g hu
    rw [TopKByReach_eq sortSlice' e' g hk]
    rw [reachEntry_enum he' he g] at hperm' hsorted' ⊢
    haveI : IsAntisymm UserReach rankBefore :=
      ⟨fun a _ h1 h2 => absurd (rankBefore_trans h1 h2) (rankBefore_irrefl a)⟩
    rw [List.eq_of_perm_of_sorted (hperm'.trans hperm.symm) hsorted' hsorted]

/-- C10 with insertion sort, the identity enumeration and the chain
A → B → C, asking for 2 entries. -/
theorem C10_topk_ranking_witness :
    ∃ ranking : List UserReach,
      (ranking.map UserReach.User).Perm chainABC.users ∧
      (∀ x ∈ ranking, TotalReach id chainABC x.User = .ok x.Reach) ∧
      ranking.Pairwise rankBefore ∧
      TopKByReach insertionSortSlice id chainABC 2 = .ok (ranking.take (2 : Int).toNat) ∧
      ((ranking.take (2 : Int).toNat).length : Int) = min 2 (chainABC.users.length : Int) ∧
      (∀ x ∈ ranking.take (2 : Int).toNat,
        x.User ∈ chainABC.users ∧ TotalReach id chainABC x.User = .ok x.Reach) ∧
      ((ranking.take (2 : Int).toNat).map UserReach.User).Nodup ∧
      (ranking.take (2 : Int).toNat).Pairwise rankBefore ∧
      (∀ u ∈ chainABC.users, u ∉ (ranking.take (2 : Int).toNat).map UserReach.User →
        ∀ r, TotalReach id chainABC u = .ok r →
          ∀ x ∈ ranking.take (2 : Int).toNat, rankBefore x { User := u, Reach := r }) ∧
      (∀ sortSlice' e', SortSliceSpec sortSlice' → Enum.Valid e' →
        TopKByReach sortSlice' e' chainABC 2 = .ok (ranking.take (2 : Int).toNat)) :=
  C10_topk_ranking insertionSortSlice insertionSortSlice_spec id valid_id chainABC
    (by decide) 2 (by decide)

/-! ## Claim C15: adding a member -/

theorem lookup_insert_some {β : Type} {m : List (String × β)} {k u : String} {v x : β}
    (h : lookup (insert m k v) u = some x) : u = k ∨ lookup m u = some x := by
  by_cases hu : u = k
  · exact Or.inl hu
  · rw [lookup_insert_ne _ _ hu] at h
    exact Or.inr h

/-- On a graph built by `AddUser`/`AddReferral` calls only members have a
children set. -/
theorem Reachable.children_keys {g : Graph} (h : Reachable g) :
    ∀ u cs, lookup g.children u = some cs → u ∈ g.users := by
  induction h with
  | newGraph => intro u cs h; simp [NewGraph, lookup] at h
  | addUser g id _ ih =>
    intro u cs h
    rw [mem_users_AddUser]
    unfold AddUser at h
    by_cases hid : id = ""
    · simp only [hid, if_true] at h
      exact Or.inl (ih u cs h)
    · simp only [hid, if_false] at h
      cases hl : lookup g.children id with
      | some cs0 =>
        simp only [hl] at h
        exact Or.inl (ih u cs h)
      | none =>
        simp only [hl] at h
        rcases lookup_insert_some h with h1 | h1
        · exact Or.inr ⟨h1, hid⟩
        · exact Or.inl (ih u cs h1)
  | addReferral e g r c _ _ ih =>
    intro u cs h
    by_cases hok : (AddReferral e g r c).2 = none
    · obtain ⟨hr, _, _, _, _, cs0, _, heq⟩ := AddReferral_ok hok
      rw [heq] at h ⊢
      simp only at h ⊢
      rcases lookup_insert_some h with h1 | h1
      · exact h1 ▸ hr
      · exact ih u cs h1
    · rw [AddReferral_err hok] at h ⊢
      exact ih u cs h

theorem AddUser_of_member {g : Graph} (hg : Inv g) {id : String} (h : id ∈ g.users) :
    AddUser g id = g := by
  obtain ⟨cs, hcs⟩ := hg.children_entry id h
  have hne : id ≠ "" := fun h0 => hg.no_empty (h0 ▸ h)
  unfold AddUser
  simp [hne, hcs, setInsert, h]

/-- C15: `AddUser` is a total function on graphs (it has no error result).  On
a graph built by `AddUser`/`AddReferral` calls it returns the graph unchanged
when `id` is empty or already a member; otherwise it appends `id` to the
members, gives it an empty children set and no parent, and changes no other
entry.  Applying it twice is the same as applying it once, and `HasUser("")`
is false. -/
theorem C15_add_user (g : Graph) (hg : Reachable g) (id : String) :
    (id = "" ∨ id ∈ g.users → AddUser g id = g) ∧
    (id ≠ "" → id ∉ g.users →
      (AddUser g id).users = g.users ++ [id] ∧
      (AddUser g id).parent = g.parent ∧
      lookup (AddUser g id).parent id = none ∧
      lookup g.children id = none ∧
      lookup (AddUser g id).children id = some [] ∧
      ∀ u, u ≠ id → lookup (AddUser g id).children u = lookup g.children u) ∧
    AddUser (AddUser g id) id = AddUser g id ∧
    HasUser g "" = false := by
  have hinv := hg.inv
  refine ⟨?_, ?_, ?_, ?_⟩
  · rintro (h | h)
    · simp [AddUser, h]
    · exact AddUser_of_member hinv h
  · intro hne hmem
    have hnone : lookup g.children id = none := by
      cases hl : lookup g.children id with
      | none => rfl
      | some cs => exact absurd (hg.children_keys id cs hl) hmem
    have hpar : lookup g.parent id = none := by
      cases hl : lookup g.parent id with
      | none => rfl
      | some p => exact absurd (hinv.parent_mem id p hl).1 hmem
    have hA : AddUser g id =
        { users := g.users ++ [id], parent := g.parent,
          children := insert g.children id [] } := by
      simp [AddUser, hne, hnone, setInsert, hmem]
    rw [hA]
    exact ⟨rfl, rfl, hpar, hnone, lookup_insert_self _ _ _,
      fun u hu => lookup_insert_ne _ _ hu⟩
  · by_cases hid : id = ""
    · simp [AddUser, hid]
    · apply AddUser_of_member (Inv_AddUser hinv id)
      rw [mem_users_AddUser]
      exact Or.inr ⟨rfl, hid⟩
  · simp [HasUser, hinv.no_empty]

/-- C15 at the chain A → B → C: adding the member A again returns the chain. -/
theorem C15_add_user_witness : AddUser chainABC "A" = chainABC :=
  (C15_add_user chainABC reachable_chainABC "A").1 (Or.inr (by decide))

/-! ## Claim C16: direct referrals -/

theorem History.reachable {g : Graph} {acc : List (String × String)} (h : History g acc) :
    Reachable g := by
  induction h with
  | newGraph => exact Reachable.newGraph
  | addUser g _ id _ ih => exact Reachable.addUser g id ih
  | addReferral e g _ r c he _ ih => exact Reachable.addReferral e g r c he ih

/-- Every graph built by `AddUser`/`AddReferral` calls has a log of accepted referrals. -/
theorem Reachable.history {g : Graph} (h : Reachable g) : ∃ acc, History g acc := by
  induction h with
  | newGraph => exact ⟨[], History.newGraph⟩
  | addUser g id _ ih =>
    obtain ⟨acc, hacc⟩ := ih
    exact ⟨acc, History.addUser g acc id hacc⟩
  | addReferral e g r c he _ ih =>
    obtain ⟨acc, hacc⟩ := ih
    exact ⟨_, History.addReferral e g acc r c he hacc⟩

/-- The log of accepted referrals lists every recorded parent link exactly once. -/
theorem History.log {g : Graph} {acc : List (String × String)} (h : History g acc) :
    acc.Nodup ∧ ∀ r c, (r, c) ∈ acc ↔ lookup g.parent c = some r := by
  induction h with
  | newGraph => simp [NewGraph, lookup]
  | addUser g acc id _ ih =>
    rw [parent_AddUser]
    exact ih
  | addReferral e g acc r c _ _ ih =>
    by_cases hok : (AddReferral e g r c).2 = none
    · obtain ⟨_, _, _, hp, _, _⟩ := AddReferral_ok hok
      obtain ⟨_, hpar, _⟩ := AddReferral_ok_effect hok
      simp only [hok, if_true]
      have hnew : (r, c) ∉ acc := by
        intro hmem
        have := (ih.2 r c).1 hmem
        rw [hp] at this
        cases this
      refine ⟨List.Nodup.append ih.1 (List.nodup_singleton _) (by
        intro x hx hx'
        simp at hx'
        exact hnew (hx' ▸ hx)), ?_⟩
      intro r' c'
      rw [hpar c', List.mem_append, List.mem_singleton, ih.2, Prod.mk.injEq]
      by_cases hc : c' = c
      · subst hc
        simp only [if_true, hp, Option.some.injEq, and_true]
        constructor
        · rintro (h | h)
          · cases h
          · exact h.symm
        · exact fun h => Or.inr h.symm
      · simp [hc]
    · simp only [hok, if_false]
      rw [AddReferral_err hok]
      exact ih

/-- C16: on a graph built by `AddUser`/`AddReferral` calls with log `acc` of
accepted referrals, `DirectReferrals(id)` fails with `ErrUserNotFound` exactly
when `id` is not a member; for a member it returns a list without duplicates
whose elements are exactly the candidates `c` of the accepted calls
`AddReferral(id, c)`, which are exactly the `c` with `parent[c] == id`, and
its length is the number of accepted referrals made by `id`. -/
theorem C16_direct_referrals (e : Enum) (he : e.Valid) (g : Graph)
    (acc : List (String × String)) (hg : History g acc) (id : String) :
    (DirectReferrals e g id = .error .ErrUserNotFound ↔ id ∉ g.users) ∧
    ((∃ err, DirectReferrals e g id = .error err) ↔ id ∉ g.users) ∧
    (id ∈ g.users →
      ∃ out, DirectReferrals e g id = .ok out ∧ out.Nodup ∧
        (∀ c, c ∈ out ↔ (id, c) ∈ acc) ∧
        (∀ c, c ∈ out ↔ lookup g.parent c = some id) ∧
        out.length = (acc.filter (fun rc => decide (rc.1 = id))).length) := by
  have hinv := hg.reachable.inv
  obtain ⟨hnd, hlog⟩ := hg.log
  by_cases hid : id ∈ g.users
  · have heq : DirectReferrals e g id = .ok (e (childrenOf g id)) := by
      simp [DirectReferrals, HasUser, hid]
    have hmem : ∀ c, c ∈ e (childrenOf g id) ↔ lookup g.parent c = some id := by
      intro c
      rw [he.mem, hinv.parent_iff]
      rfl
    have hout : (e (childrenOf g id)).Nodup :=
      (he (childrenOf g id)).nodup_iff.2 (hinv.children_nodup id)
    refine ⟨by simp [heq, hid], by simp [heq, hid], fun _ =>
      ⟨_, heq, hout, fun c => by rw [hmem, hlog], hmem, ?_⟩⟩
    have hnd' : ((acc.filter (fun rc => decide (rc.1 = id))).map Prod.snd).Nodup := by
      apply List.Nodup.map_on _ (hnd.filter _)
      intro x hx y hy hxy
      have h1 := (List.mem_filter.1 hx).2
      have h2 := (List.mem_filter.1 hy).2
      simp only [decide_eq_true_eq] at h1 h2
      exact Prod.ext (h1.trans h2.symm) hxy
    have hperm : (e (childrenOf g id)).Perm
        ((acc.filter (fun rc => decide (rc.1 = id))).map Prod.snd) := by
      apply (List.perm_ext_iff_of_nodup hout hnd').2
      intro c
      rw [hmem, ← hlog, List.mem_map]
      constructor
      · intro h
        exact ⟨(id, c), List.mem_filter.2 ⟨h, by simp⟩, rfl⟩
      · rintro ⟨⟨r', c'⟩, h, rfl⟩
        obtain ⟨h1, h2⟩ := List.mem_filter.1 h
        simp only [decide_eq_true_eq] at h2
        subst h2
        exact h1
    rw [hperm.length_eq, List.length_map]
  · have heq : DirectReferrals e g id = .error .ErrUserNotFound := by
      simp [DirectReferrals, HasUser, hid]
    exact ⟨by simp [heq, hid], by simp [heq, hid], fun h => absurd h hid⟩

/-- The chain A → B → C with its log of accepted referrals. -/
theorem history_chainABC : History chainABC [("A", "B"), ("B", "C")] :=
  History.addReferral id _ [("A", "B")] "B" "C" valid_id
    (History.addReferral id _ [] "A" "B" valid_id
      (History.addUser _ [] "C" (History.addUser _ [] "B"
        (History.addUser _ [] "A" History.newGraph))))

/-- C16 at the chain A → B → C and the member A. -/
theorem C16_direct_referrals_witness :
    ∃ out, DirectReferrals id chainABC "A" = .ok out ∧ out.Nodup ∧
      (∀ c, c ∈ out ↔ ("A", c) ∈ [("A", "B"), ("B", "C")]) ∧
      (∀ c, c ∈ out ↔ lookup chainABC.parent c = some "A") ∧
      out.length =
        ([("A", "B"), ("B", "C")].filter (fun rc => decide (rc.1 = "A"))).length :=
  (C16_direct_referrals id valid_id chainABC _ history_chainABC "A").2.2 (by decide)

/-! ## Claim C18: the cycle check -/

theorem reachableFrom_iff (g : Graph) (a b : String) :
    ReachableFrom g a b ↔ b = a ∨ Descendant g a b :=
  Relation.reflTransGen_iff_eq_or_transGen

/-- A node with a descendant is a member of a graph that satisfies the invariant. -/
theorem descendant_source_mem {g : Graph} (hg : Inv g) {a b : String}
    (h : Descendant g a b) : a ∈ g.users := by
  unfold Descendant at h
  induction h using Relation.TransGen.head_induction_on with
  | base h1 => exact (hg.parent_mem _ _ ((hg.parent_iff _ _).2 h1)).2
  | ih h1 _ _ => exact (hg.parent_mem _ _ ((hg.parent_iff _ _).2 h1)).2

/-- The calls that are rejected by the cycle check. -/
theorem AddReferral_cycle_iff {e : Enum} (he : e.Valid) (g : Graph) (r c : String) :
    (AddReferral e g r c).2 = some .ErrWouldCreateCycle ↔
      r ∈ g.users ∧ c ∈ g.users ∧ r ≠ c ∧ lookup g.parent c = none ∧
        ReachableFrom g c r := by
  constructor
  · intro h
    obtain ⟨b, hb, hiff⟩ := wouldCreateCycle_spec he g r c
    by_cases h1 : r ∈ g.users
    · by_cases h2 : c ∈ g.users
      · by_cases h3 : r = c
        · simp [AddReferral, HasUser, h1, h2, h3] at h
        · cases hp : lookup g.parent c with
          | some p =>
            rw [AddReferral_of_parent e g h1 h2 h3 hp] at h
            by_cases h4 : p = r <;> simp [h4] at h
          | none =>
            refine ⟨h1, h2, h3, rfl, hiff.1 ?_⟩
            cases b with
            | true => rfl
            | false =>
              cases hc : lookup g.children r with
              | none => simp [AddReferral, HasUser, h1, h2, h3, hp, hb, hc] at h
              | some cs => simp [AddReferral, HasUser, h1, h2, h3, hp, hb, hc] at h
      · simp [AddReferral, HasUser, h1, h2] at h
    · simp [AddReferral, HasUser, h1] at h
  · rintro ⟨h1, h2, h3, h4, h5⟩
    exact AddReferral_of_cycle he g h1 h2 h3 h4 h5

/-- C18 as stated fails: in the chain A → B → C the member C is a descendant
of B, and `AddReferral("C", "B")` is rejected with `ErrAlreadyHasReferrer` (B
has the referrer A), not with `ErrWouldCreateCycle`. -/
theorem C18_counterexample :
    Reachable chainABC ∧ Descendant chainABC "B" "C" ∧
      (AddReferral id chainABC "C" "B").2 = some .ErrAlreadyHasReferrer ∧
      (AddReferral id chainABC "C" "B").2 ≠ some .ErrWouldCreateCycle :=
  ⟨reachable_chainABC, Relation.TransGen.single (by decide), by decide, by decide⟩

/-- C18, amended: on every graph `wouldCreateCycle(referrer, candidate)`
terminates and returns true exactly when `referrer` equals `candidate` or is
reached from it by one or more child links.  On a graph built by
`AddUser`/`AddReferral` calls, `AddReferral` rejects with `ErrWouldCreateCycle`
exactly when `candidate` has no recorded referrer and `referrer` is a
descendant of `candidate`; and `referrer` equals `candidate` or is a descendant
of it exactly when the graph extended by the link `referrer → candidate` has a
cycle. -/
theorem C18_cycle_check (e : Enum) (he : e.Valid) (g : Graph) (referrer candidate : String) :
    (∃ b, wouldCreateCycle e g referrer candidate = some b ∧
      (b = true ↔ referrer = candidate ∨ Descendant g candidate referrer)) ∧
    (Reachable g →
      ((AddReferral e g referrer candidate).2 = some .ErrWouldCreateCycle ↔
        lookup g.parent candidate = none ∧ Descendant g candidate referrer)) ∧
    (Reachable g →
      ((referrer = candidate ∨ Descendant g candidate referrer) ↔
        ∃ x, Relation.TransGen
          (fun a b => child g a b ∨ (a = referrer ∧ b = candidate)) x x)) := by
  refine ⟨?_, ?_, ?_⟩
  · obtain ⟨b, hb, hiff⟩ := wouldCreateCycle_spec he g referrer candidate
    exact ⟨b, hb, hiff.trans (reachableFrom_iff g candidate referrer)⟩
  · intro hg
    have hinv := hg.inv
    rw [AddReferral_cycle_iff he]
    constructor
    · rintro ⟨_, _, h3, h4, h5⟩
      rcases (reachableFrom_iff g _ _).1 h5 with h | h
      · exact absurd h h3
      · exact ⟨h4, h⟩
    · rintro ⟨h4, h5⟩
      refine ⟨descendant_mem hinv h5, descendant_source_mem hinv h5, ?_, h4,
        (reachableFrom_iff g _ _).2 (Or.inr h5)⟩
      intro heq
      subst heq
      exact hinv.acyclic _ h5
  · intro hg
    have hinv := hg.inv
    constructor
    · rintro (h | h)
      · exact ⟨referrer, Relation.TransGen.single (Or.inr ⟨rfl, h⟩)⟩
      · refine ⟨candidate, Relation.TransGen.tail ?_ (Or.inr ⟨rfl, rfl⟩)⟩
        exact Relation.TransGen.mono (fun a b hab => Or.inl hab) h
    · rintro ⟨x, hx⟩
      rcases transGen_extend (R := child g) (fun a b => Iff.rfl) hx with h | ⟨h1, h2⟩
      · exact absurd h (hinv.acyclic x)
      · exact (reachableFrom_iff g _ _).1 (Relation.ReflTransGen.trans h2 h1)

/-- C18 (amended) at the chain A → B → C, for the referrer C and the candidate A. -/
theorem C18_cycle_check_witness :
    ∃ b, wouldCreateCycle id chainABC "C" "A" = some b ∧
      (b = true ↔ "C" = "A" ∨ Descendant chainABC "A" "C") :=
  (C18_cycle_check id valid_id chainABC "C" "A").1

/-! ## Maps: keys and deletion -/

theorem keys_insert {β : Type} (m : List (String × β)) (k : String) (v : β) :
    keys (insert m k v) = setInsert (keys m) k := by
  induction m with
  | nil => simp [insert, keys, setInsert]
  | cons kv m ih =>
    obtain ⟨k0, v0⟩ := kv
    unfold keys at ih ⊢
    by_cases h : k0 = k
    · subst h
      simp [insert, setInsert]
    · have hne : ¬ k = k0 := fun h' => h h'.symm
      simp only [insert, h, if_false, List.map_cons, ih]
      unfold setInsert
      by_cases hk : k ∈ List.map Prod.fst m
      · simp [hk]
      · simp [hk, hne]

theorem mem_keys_iff {β : Type} (m : List (String × β)) (u : String) :
    u ∈ keys m ↔ ∃ v, lookup m u = some v := by
  induction m with
  | nil => simp [keys, lookup]
  | cons kv m ih =>
    obtain ⟨k0, v0⟩ := kv
    unfold keys at ih ⊢
    simp only [List.map_cons, List.mem_cons, lookup]
    by_cases h : k0 = u
    · simp [h]
    · have hne : ¬ u = k0 := fun h' => h h'.symm
      simp [h, hne, ih]

theorem keys_erase {β : Type} (m : List (String × β)) (k : String) :
    keys (erase m k) = (keys m).filter (fun u => decide (u ≠ k)) := by
  unfold keys erase
  rw [List.filter_map]
  rfl

theorem lookup_erase {β : Type} (m : List (String × β)) (k u : String) :
    lookup (erase m k) u = if u = k then none else lookup m u := by
  induction m with
  | nil => simp [erase, lookup]
  | cons kv m ih =>
    obtain ⟨k0, v0⟩ := kv
    unfold erase at ih ⊢
    by_cases h : k0 = k
    · subst h
      simp only [List.filter_cons, ne_eq, not_true_eq_false, decide_False, Bool.false_eq_true,
        if_false, ih, lookup]
      by_cases hu : u = k0
      · simp [hu]
      · have : ¬ k0 = u := fun h' => hu h'.symm
        simp [hu, this]
    · simp only [List.filter_cons, ne_eq, h, not_false_eq_true, decide_True, if_true, lookup, ih]
      by_cases hu : k0 = u
      · subst hu
        simp [h]
      · simp [hu]

theorem lookup_foldl_insert {β : Type} (f : String → β) (l : List String) :
    ∀ (m : List (String × β)) (u : String),
      lookup (l.foldl (fun m u => insert m u (f u)) m) u =
        if u ∈ l then some (f u) else lookup m u := by
  induction l with
  | nil => intro m u; simp
  | cons a l ih =>
    intro m u
    simp only [List.foldl_cons, ih, List.mem_cons]
    by_cases h1 : u ∈ l
    · simp [h1]
    · by_cases h2 : u = a
      · subst h2
        simp [h1, lookup_insert_self]
      · simp [h1, h2, lookup_insert_ne _ _ h2]

theorem keys_foldl_insert {β : Type} (f : String → β) (l : List String) :
    ∀ (m : List (String × β)),
      keys (l.foldl (fun m u => insert m u (f u)) m) = l.foldl setInsert (keys m) := by
  induction l with
  | nil => intro m; rfl
  | cons a l ih =>
    intro m
    simp only [List.foldl_cons, ih, keys_insert]

theorem mem_foldl_setInsert (l : List String) :
    ∀ (s : List String) (x : String), x ∈ l.foldl setInsert s ↔ x ∈ s ∨ x ∈ l := by
  induction l with
  | nil => intro s x; simp
  | cons a l ih =>
    intro s x
    simp only [List.foldl_cons, ih, mem_setInsert, List.mem_cons]
    tauto

theorem nodup_foldl_setInsert (l : List String) :
    ∀ (s : List String), s.Nodup → (l.foldl setInsert s).Nodup := by
  induction l with
  | nil => intro s h; exact h
  | cons a l ih =>
    intro s h
    exact ih _ (nodup_setInsert a h)

theorem length_foldl_setInsert (l : List String) :
    ∀ (s : List String), l.Nodup →
      (l.foldl setInsert s).length =
        s.length + (l.filter (fun x => decide (x ∉ s))).length := by
  induction l with
  | nil => intro s _; simp
  | cons a l ih =>
    intro s h
    have hnd := List.nodup_cons.1 h
    simp only [List.foldl_cons]
    rw [ih _ hnd.2]
    have hfilter : l.filter (fun x => decide (x ∉ setInsert s a)) =
        l.filter (fun x => decide (x ∉ s)) := by
      apply List.filter_congr
      intro x hx
      have : x ≠ a := fun h' => hnd.1 (h' ▸ hx)
      simp [mem_setInsert, this]
    rw [hfilter]
    by_cases ha : a ∈ s
    · simp [setInsert, ha, List.filter_cons]
    · simp [setInsert, ha, List.filter_cons]
      omega

/-! ## The map of downstream sets -/

theorem downstreamOf_spec {e : Enum} (he : e.Valid) (g : Graph) (u : String) :
    (downstreamOf e g u).Nodup ∧
      (u ∈ g.users → ∀ x, x ∈ downstreamOf e g u ↔ Descendant g u x) ∧
      (u ∈ g.users → TotalReach e g u = .ok (downstreamOf e g u).length) ∧
      (u ∈ g.users → FullDownstream e g u = .ok (downstreamOf e g u)) := by
  by_cases hu : u ∈ g.users
  · obtain ⟨ds, h1, h2, h3, h4⟩ := FullDownstream_spec he g u hu
    have : downstreamOf e g u = ds := by
      unfold downstreamOf
      rw [h1]
    rw [this]
    exact ⟨h3, fun _ => h4, fun _ => h2, fun _ => h1⟩
  · have : downstreamOf e g u = [] := by
      simp [downstreamOf, FullDownstream, HasUser, hu]
    rw [this]
    exact ⟨List.nodup_nil, fun h => absurd h hu, fun h => absurd h hu, fun h => absurd h hu⟩

theorem buildDownstreams_spec {e : Enum} (he : e.Valid) (g : Graph) :
    (keys (buildDownstreams e g)).Nodup ∧
      (∀ u, u ∈ keys (buildDownstreams e g) ↔ u ∈ g.users) ∧
      (∀ u ∈ g.users, lookup (buildDownstreams e g) u = some (downstreamOf e g u)) := by
  unfold buildDownstreams
  refine ⟨?_, ?_, ?_⟩
  · rw [keys_foldl_insert]
    exact nodup_foldl_setInsert _ _ List.nodup_nil
  · intro u
    rw [keys_foldl_insert, mem_foldl_setInsert, he.mem]
    simp [keys]
  · intro u hu
    rw [lookup_foldl_insert]
    simp [he.mem.2 hu]

theorem keys_buildDownstreams_length {e : Enum} (he : e.Valid) (g : Graph) :
    (keys (buildDownstreams e g)).length ≤ g.users.length := by
  obtain ⟨h1, h2, _⟩ := buildDownstreams_spec he g
  have hsub : keys (buildDownstreams e g) ⊆ e g.users := fun u hu =>
    he.mem.2 ((h2 u).1 hu)
  have := (List.subperm_of_subset h1 hsub).length_le
  rw [he.length] at this
  exact this

/-! ## The greedy loop -/

theorem ncard_of_list (S : Set String) (l : List String) (hl : l.Nodup)
    (h : ∀ x, x ∈ S ↔ x ∈ l) : S.ncard = l.length := by
  have hset : S = (↑l.toFinset : Set String) := by
    ext x
    simp [h]
  rw [hset, Set.ncard_coe_Finset, List.toFinset_card_of_nodup hl]

theorem foldl_best (cnt : String → Int) (l : List String) :
    ∀ best : String × Int,
      best.2 ≤ (l.foldl (fun best u => if cnt u > best.2 then (u, cnt u) else best) best).2 ∧
      (∀ u ∈ l,
        cnt u ≤ (l.foldl (fun best u => if cnt u > best.2 then (u, cnt u) else best) best).2) ∧
      ((l.foldl (fun best u => if cnt u > best.2 then (u, cnt u) else best) best) = best ∨
        ((l.foldl (fun best u => if cnt u > best.2 then (u, cnt u) else best) best).1 ∈ l ∧
          cnt (l.foldl (fun best u => if cnt u > best.2 then (u, cnt u) else best) best).1 =
            (l.foldl (fun best u => if cnt u > best.2 then (u, cnt u) else best) best).2)) := by
  induction l with
  | nil => intro best; simp
  | cons a l ih =>
    intro best
    simp only [List.foldl_cons]
    by_cases h : cnt a > best.2
    · simp only [h, if_true]
      obtain ⟨h1, h2, h3⟩ := ih (a, cnt a)
      refine ⟨by simp only at h1; omega, ?_, ?_⟩
      · intro u hu
        rcases List.mem_cons.1 hu with hu | hu
        · subst hu
          exact h1
        · exact h2 u hu
      · right
        rcases h3 with h3 | ⟨h3, h4⟩
        · rw [h3]
          exact ⟨List.mem_cons_self _ _, rfl⟩
        · exact ⟨List.mem_cons_of_mem _ h3, h4⟩
    · simp only [h, if_false]
      obtain ⟨h1, h2, h3⟩ := ih best
      refine ⟨h1, ?_, ?_⟩
      · intro u hu
        rcases List.mem_cons.1 hu with hu | hu
        · subst hu
          omega
        · exact h2 u hu
      · rcases h3 with h3 | ⟨h3, h4⟩
        · exact Or.inl h3
        · exact Or.inr ⟨List.mem_cons_of_mem _ h3, h4⟩

theorem selectBest_spec {e : Enum} (he : e.Valid) (m : List (String × List String))
    (covered : List String) :
    (∀ u ∈ keys m,
      (newCount e ((lookup m u).getD []) covered : Int) ≤ (selectBest e m covered).2) ∧
    ((selectBest e m covered).2 ≤ 0 ∨
      ((selectBest e m covered).1 ∈ keys m ∧
        (newCount e ((lookup m (selectBest e m covered).1).getD []) covered : Int) =
          (selectBest e m covered).2)) := by
  obtain ⟨_, h2, h3⟩ := foldl_best
    (fun u => (newCount e ((lookup m u).getD []) covered : Int)) (e (keys m)) ("", -1)
  refine ⟨fun u hu => h2 u (he.mem.2 hu), ?_⟩
  rcases h3 with h3 | ⟨h3, h4⟩
  · left
    unfold selectBest
    rw [h3]
    decide
  · exact Or.inr ⟨he.mem.1 h3, h4⟩

/-- The count computed by the loop for an unselected member is the size of
the part of its downstream set that the selected members do not cover. -/
theorem newCount_eq {e : Enum} (he : e.Valid) (g : Graph) {u : String} (hu : u ∈ g.users)
    (prev covered : List String) (hprev : ∀ w ∈ prev, w ∈ g.users)
    (hcov : ∀ x, x ∈ covered ↔ ∃ w ∈ prev, Descendant g w x) :
    newCount e (downstreamOf e g u) covered = (newlyCovered g prev u).ncard := by
  obtain ⟨hnd, hmem, _, _⟩ := downstreamOf_spec he g u
  unfold newCount
  symm
  apply ncard_of_list
  · exact ((he _).nodup_iff.2 hnd).filter _
  · intro x
    have _ := hprev
    simp only [newlyCovered, Set.mem_setOf_eq, List.mem_filter, he.mem, hmem hu,
      decide_eq_true_eq, hcov]
    constructor
    · rintro ⟨h1, h2⟩
      exact ⟨h1, fun ⟨w, hw, hd⟩ => h2 w hw hd⟩
    · rintro ⟨h1, h2⟩
      exact ⟨h1, fun w hw hd => h2 ⟨w, hw, hd⟩⟩

theorem expansionLoop_spec {e : Enum} (he : e.Valid) (g : Graph) :
    ∀ (fuel : Nat) (m : List (String × List String)) (covered : List String)
      (result : List UserReach),
      (keys m).Nodup →
      (∀ u, u ∈ keys m ↔ u ∈ g.users ∧ u ∉ result.map UserReach.User) →
      (∀ u ∈ keys m, lookup m u = some (downstreamOf e g u)) →
      covered.Nodup →
      (∀ x, x ∈ covered ↔ ∃ w ∈ result.map UserReach.User, Descendant g w x) →
      covered.length = (result.map UserReach.Reach).sum →
      (∀ w ∈ result.map UserReach.User, w ∈ g.users) →
      (∀ i x, result[i]? = some x → GreedyStep g ((result.take i).map UserReach.User) x) →
      (keys m).length ≤ fuel →
      ∃ (out : List UserReach) (final : List String),
        expansionLoop e g.users.length fuel m covered result = some out ∧
        final.Nodup ∧
        (∀ x, x ∈ final ↔ ∃ w ∈ out.map UserReach.User, Descendant g w x) ∧
        final.length = (out.map UserReach.Reach).sum ∧
        (∀ i x, out[i]? = some x → GreedyStep g ((out.take i).map UserReach.User) x) ∧
        (g.users.length ≤ final.length ∨
          ∀ w ∈ g.users, w ∉ out.map UserReach.User →
            (newlyCovered g (out.map UserReach.User) w).ncard = 0) := by
  intro fuel
  induction fuel with
  | zero =>
    intro m covered result hk1 hk2 hk3 hc1 hc2 hc3 hr hs hf
    have hcnt : ∀ u ∈ keys m,
        (newCount e ((lookup m u).getD []) covered : Int) =
          ((newlyCovered g (result.map UserReach.User) u).ncard : Int) := by
      intro u hu
      rw [hk3 u hu, Option.getD_some,
        newCount_eq he g ((hk2 u).1 hu).1 (result.map UserReach.User) covered hr hc2]
    obtain ⟨hb1, hb2⟩ := selectBest_spec he m covered
    unfold expansionLoop
    by_cases hlen : covered.length < g.users.length
    · simp only [hlen, if_true]
      by_cases hbest : (selectBest e m covered).2 ≤ 0
      · simp only [hbest, if_true]
        refine ⟨result, covered, rfl, hc1, hc2, hc3, hs, Or.inr ?_⟩
        intro w hw hnot
        have hwk : w ∈ keys m := (hk2 w).2 ⟨hw, hnot⟩
        have := hb1 w hwk
        rw [hcnt w hwk] at this
        omega
      · exfalso
        rcases hb2 with hb2 | ⟨hb2, _⟩
        · exact hbest hb2
        · have := List.length_pos_of_mem hb2
          omega
    · simp only [hlen, if_false]
      exact ⟨result, covered, rfl, hc1, hc2, hc3, hs, Or.inl (by omega)⟩
  | succ n ih =>
    intro m covered result hk1 hk2 hk3 hc1 hc2 hc3 hr hs hf
    have hcnt : ∀ u ∈ keys m,
        (newCount e ((lookup m u).getD []) covered : Int) =
          ((newlyCovered g (result.map UserReach.User) u).ncard : Int) := by
      intro u hu
      rw [hk3 u hu, Option.getD_some,
        newCount_eq he g ((hk2 u).1 hu).1 (result.map UserReach.User) covered hr hc2]
    obtain ⟨hb1, hb2⟩ := selectBest_spec he m covered
    unfold expansionLoop
    by_cases hlen : covered.length < g.users.length
    · simp only [hlen, if_true]
      by_cases hbest : (selectBest e m covered).2 ≤ 0
      · simp only [hbest, if_true]
        refine ⟨result, covered, rfl, hc1, hc2, hc3, hs, Or.inr ?_⟩
        intro w hw hnot
        have hwk : w ∈ keys m := (hk2 w).2 ⟨hw, hnot⟩
        have := hb1 w hwk
        rw [hcnt w hwk] at this
        omega
      · simp only [hbest, if_false]
        rcases hb2 with hb2 | ⟨hbk, hbc⟩
        · exact absurd hb2 hbest
        · have hbu := (hk2 _).1 hbk
          have hlk := hk3 _ hbk
          obtain ⟨hdnd, hdmem, _, _⟩ := downstreamOf_spec he g (selectBest e m covered).1
          have hgain : (selectBest e m covered).2.toNat =
              (newlyCovered g (result.map UserReach.User) (selectBest e m covered).1).ncard := by
            have := hcnt _ hbk
            rw [hbc] at this
            omega
          apply ih
          · rw [keys_erase]
            exact hk1.filter _
          · intro u
            rw [keys_erase, List.mem_filter, hk2]
            simp only [ne_eq, decide_eq_true_eq, List.map_append, List.map_cons, List.map_nil,
              List.mem_append, List.mem_singleton]
            tauto
          · intro u hu
            rw [keys_erase, List.mem_filter] at hu
            simp only [ne_eq, decide_eq_true_eq] at hu
            rw [lookup_erase]
            simp only [hu.2, if_false]
            exact hk3 u hu.1
          · exact nodup_foldl_setInsert _ _ hc1
          · intro x
            unfold coverAll
            rw [mem_foldl_setInsert, he.mem, hlk, Option.getD_some, hdmem hbu.1, hc2]
            simp only [List.map_append, List.map_cons, List.map_nil, List.mem_append,
              List.mem_singleton]
            constructor
            · rintro (⟨w, hw, hd⟩ | hd)
              · exact ⟨w, Or.inl hw, hd⟩
              · exact ⟨_, Or.inr rfl, hd⟩
            · rintro ⟨w, hw | hw, hd⟩
              · exact Or.inl ⟨w, hw, hd⟩
              · exact Or.inr (hw ▸ hd)
          · unfold coverAll
            rw [length_foldl_setInsert _ _ ((he _).nodup_iff.2 (by
              rw [hlk, Option.getD_some]
              exact hdnd))]
            have hnc : newCount e ((lookup m (selectBest e m covered).1).getD []) covered =
                (selectBest e m covered).2.toNat := by
              omega
            unfold newCount at hnc
            rw [hnc, hc3]
            simp
          · intro w hw
            simp only [List.map_append, List.map_cons, List.map_nil, List.mem_append,
              List.mem_singleton] at hw
            rcases hw with hw | hw
            · exact hr w hw
            · exact hw ▸ hbu.1
          · intro i x hx
            rcases Nat.lt_trichotomy i result.length with hi | hi | hi
            · rw [List.getElem?_append_left hi] at hx
              rw [List.take_append_of_le_length (by omega)]
              exact hs i x hx
            · subst hi
              rw [List.getElem?_append_right (le_refl _)] at hx
              simp only [Nat.sub_self, List.getElem?_cons_zero, Option.some.injEq] at hx
              subst hx
              rw [List.take_left' rfl]
              refine ⟨hbu.1, hbu.2, hgain, ?_, ?_⟩
              · simp only
                omega
              · intro w hw hnot
                have hwk : w ∈ keys m := (hk2 w).2 ⟨hw, hnot⟩
                have := hb1 w hwk
                rw [hcnt w hwk] at this
                simp only
                omega
            · rw [List.getElem?_append_right (by omega)] at hx
              have : i - result.length = (i - result.length - 1) + 1 := by omega
              rw [this] at hx
              simp at hx
          · rw [keys_erase]
            have := (List.length_filter_lt_length_iff_exists
              (p := fun u => decide (u ≠ (selectBest e m covered).1)) (l := keys m)).2
              ⟨(selectBest e m covered).1, hbk, by simp⟩
            omega
    · simp only [hlen, if_false]
      exact ⟨result, covered, rfl, hc1, hc2, hc3, hs, Or.inl (by omega)⟩

/-- The greedy expansion terminates; its result is a sequence of greedy
steps, and it stops when the covered set is as large as the member set or no
unselected member covers anything new. -/
theorem UniqueReachExpansion_spec {e : Enum} (he : e.Valid) (g : Graph) :
    ∃ (out : List UserReach) (final : List String), UniqueReachExpansion e g = .ok out ∧
      final.Nodup ∧
      (∀ x, x ∈ final ↔ ∃ w ∈ out.map UserReach.User, Descendant g w x) ∧
      final.length = (out.map UserReach.Reach).sum ∧
      (∀ i x, out[i]? = some x → GreedyStep g ((out.take i).map UserReach.User) x) ∧
      (g.users.length ≤ final.length ∨
        ∀ w ∈ g.users, w ∉ out.map UserReach.User →
          (newlyCovered g (out.map UserReach.User) w).ncard = 0) := by
  obtain ⟨h1, h2, h3⟩ := buildDownstreams_spec he g
  obtain ⟨out, final, h, hrest⟩ := expansionLoop_spec he g g.users.length
    (buildDownstreams e g) [] [] h1 (by simpa using h2)
    (fun u hu => h3 u ((h2 u).1 hu)) List.nodup_nil (by simp) (by simp) (by simp)
    (by simp) (keys_buildDownstreams_length he g)
  refine ⟨out, final, ?_, hrest⟩
  unfold UniqueReachExpansion
  rw [h]

/-! ## Claims C11 and C12: the greedy expansion -/

theorem downstreamSet_eq {e : Enum} (he : e.Valid) (g : Graph) {u : String}
    (hu : u ∈ g.users) : downstreamSet e g u = {t | Descendant g u t} := by
  obtain ⟨_, h2, _, h4⟩ := downstreamOf_spec he g u
  ext t
  simp only [downstreamSet, Set.mem_setOf_eq, h4 hu, Except.ok.injEq]
  constructor
  · rintro ⟨ds, rfl, ht⟩
    exact (h2 hu t).1 ht
  · intro ht
    exact ⟨_, rfl, (h2 hu t).2 ht⟩

theorem ncard_descendants {e : Enum} (he : e.Valid) (g : Graph) {u : String}
    (hu : u ∈ g.users) :
    Set.ncard {t | Descendant g u t} = (downstreamOf e g u).length := by
  obtain ⟨h1, h2, _, _⟩ := downstreamOf_spec he g u
  exact ncard_of_list _ _ h1 fun x => ((h2 hu) x).symm

theorem newlyCovered_nil (g : Graph) (u : String) :
    newlyCovered g [] u = {t | Descendant g u t} := by
  ext t
  simp [newlyCovered]

theorem nodup_of_steps (g : Graph) (out : List UserReach)
    (h : ∀ i x, out[i]? = some x → GreedyStep g ((out.take i).map UserReach.User) x) :
    (out.map UserReach.User).Nodup := by
  rw [List.nodup_iff_getElem?_ne_getElem?]
  intro i j hij hj heq
  rw [List.length_map] at hj
  have hi : i < out.length := by omega
  have hx : out[j]? = some (out[j]) := List.getElem?_eq_getElem hj
  have hnot := (h j _ hx).2.1
  apply hnot
  rw [List.getElem?_map, List.getElem?_map, hx, List.getElem?_eq_getElem hi] at heq
  simp only [Option.map_some', Option.some.injEq] at heq
  rw [← heq]
  apply List.mem_map.2
  refine ⟨out[i], ?_, rfl⟩
  rw [List.mem_iff_getElem?]
  exact ⟨i, by rw [List.getElem?_take_of_lt hij, List.getElem?_eq_getElem hi]⟩

theorem reachable_treeABCDE : Reachable treeABCDE :=
  Reachable.addReferral id _ "C" "E" valid_id
    (Reachable.addReferral id _ "B" "D" valid_id
      (Reachable.addReferral id _ "A" "C" valid_id
        (Reachable.addReferral id _ "A" "B" valid_id
          (Reachable.addUser _ "E" (Reachable.addUser _ "D" (Reachable.addUser _ "C"
            (Reachable.addUser _ "B" (Reachable.addUser _ "A" Reachable.newGraph))))))))

theorem history_treeABCDE :
    History treeABCDE [("A", "B"), ("A", "C"), ("B", "D"), ("C", "E")] :=
  History.addReferral id _ [("A", "B"), ("A", "C"), ("B", "D")] "C" "E" valid_id
    (History.addReferral id _ [("A", "B"), ("A", "C")] "B" "D" valid_id
      (History.addReferral id _ [("A", "B")] "A" "C" valid_id
        (History.addReferral id _ [] "A" "B" valid_id
          (History.addUser _ [] "E" (History.addUser _ [] "D" (History.addUser _ [] "C"
            (History.addUser _ [] "B" (History.addUser _ [] "A" History.newGraph))))))))

/-- C11: on a graph built by `AddUser`/`AddReferral` calls of which at least
one referral was accepted, `UniqueReachExpansion` returns a non-empty sequence;
its first entry names a member whose `TotalReach` is the recorded count and is
not exceeded by the `TotalReach` of any member. -/
theorem C11_first_selection (e : Enum) (he : e.Valid) (g : Graph)
    (acc : List (String × String)) (hg : History g acc) (hacc : acc ≠ []) :
    ∃ first rest, UniqueReachExpansion e g = .ok (first :: rest) ∧
      first.User ∈ g.users ∧ TotalReach e g first.User = .ok first.Reach ∧
      ∀ w ∈ g.users, ∀ n, TotalReach e g w = .ok n → n ≤ first.Reach := by
  have hinv := hg.reachable.inv
  obtain ⟨out, final, hout, _, hfin, hlen, hsteps, hstop⟩ := UniqueReachExpansion_spec he g
  obtain ⟨⟨r, c⟩, hrc⟩ := List.exists_mem_of_ne_nil acc hacc
  have hpar : lookup g.parent c = some r := (hg.log.2 r c).1 hrc
  have hr : r ∈ g.users := (hinv.parent_mem c r hpar).2
  have hchild : Descendant g r c := Relation.TransGen.single ((hinv.parent_iff c r).1 hpar)
  have hpos : 1 ≤ (downstreamOf e g r).length := by
    obtain ⟨_, h2, _, _⟩ := downstreamOf_spec he g r
    exact List.length_pos_of_mem ((h2 hr c).2 hchild)
  cases out with
  | nil =>
    exfalso
    have hfinal : final = [] := by
      apply List.eq_nil_iff_forall_not_mem.2
      intro x hx
      obtain ⟨w, hw, _⟩ := (hfin x).1 hx
      simp at hw
    rcases hstop with h | h
    · rw [hfinal] at h
      have := List.length_pos_of_mem hr
      simp only [List.length_nil] at h
      omega
    · have := h r hr (by simp)
      simp only [List.map_nil] at this
      rw [newlyCovered_nil, ncard_descendants he g hr] at this
      omega
  | cons first rest =>
    have hstep := hsteps 0 first (by simp)
    simp only [List.take_zero, List.map_nil] at hstep
    obtain ⟨h1, _, h3, _, h5⟩ := hstep
    obtain ⟨_, _, hreach, _⟩ := downstreamOf_spec he g first.User
    refine ⟨first, rest, hout, h1, ?_, ?_⟩
    · rw [hreach h1, h3, newlyCovered_nil, ncard_descendants he g h1]
    · intro w hw n hn
      obtain ⟨_, _, hreachw, _⟩ := downstreamOf_spec he g w
      rw [hreachw hw] at hn
      cases hn
      have := h5 w hw (by simp)
      rw [newlyCovered_nil, ncard_descendants he g hw] at this
      exact this

/-- C11 at the tree A → B, A → C, B → D, C → E with the identity enumeration. -/
theorem C11_first_selection_witness :
    ∃ first rest, UniqueReachExpansion id treeABCDE = .ok (first :: rest) ∧
      first.User ∈ treeABCDE.users ∧ TotalReach id treeABCDE first.User = .ok first.Reach ∧
      ∀ w ∈ treeABCDE.users, ∀ n, TotalReach id treeABCDE w = .ok n → n ≤ first.Reach :=
  C11_first_selection id valid_id treeABCDE _ history_treeABCDE (by decide)

/-- C12: on every graph `UniqueReachExpansion` succeeds, and every entry
`(u, n)` of its result is a greedy step: `u` is a member that no earlier entry
names, `n` is the number of elements of `FullDownstream(u)` that are in the
`FullDownstream` set of no earlier entry, `n ≥ 1`, and no member without an
earlier entry has a larger such number.  No member is named twice and the
result is not longer than the member count. -/
theorem C12_greedy_steps (e : Enum) (he : e.Valid) (g : Graph) :
    ∃ out, UniqueReachExpansion e g = .ok out ∧
      (∀ i x, out[i]? = some x →
        x.User ∈ g.users ∧ x.User ∉ (out.take i).map UserReach.User ∧
        x.Reach = Set.ncard {t | t ∈ downstreamSet e g x.User ∧
          ∀ w ∈ (out.take i).map UserReach.User, t ∉ downstreamSet e g w} ∧
        1 ≤ x.Reach ∧
        ∀ v ∈ g.users, v ∉ (out.take i).map UserReach.User →
          Set.ncard {t | t ∈ downstreamSet e g v ∧
            ∀ w ∈ (out.take i).map UserReach.User, t ∉ downstreamSet e g w} ≤ x.Reach) ∧
      (out.map UserReach.User).Nodup ∧
      out.length ≤ g.users.length := by
  obtain ⟨out, final, hout, _, _, _, hsteps, _⟩ := UniqueReachExpansion_spec he g
  have hnd := nodup_of_steps g out hsteps
  have hmem : ∀ w ∈ out.map UserReach.User, w ∈ g.users := by
    intro w hw
    obtain ⟨x, hx, rfl⟩ := List.mem_map.1 hw
    obtain ⟨i, hi⟩ := List.mem_iff_getElem?.1 hx
    exact (hsteps i x hi).1
  have hset : ∀ (i : Nat) (v : String), v ∈ g.users →
      {t | t ∈ downstreamSet e g v ∧
        ∀ w ∈ (out.take i).map UserReach.User, t ∉ downstreamSet e g w} =
      newlyCovered g ((out.take i).map UserReach.User) v := by
    intro i v hv
    ext t
    simp only [Set.mem_setOf_eq, newlyCovered, downstreamSet_eq he g hv]
    constructor
    · rintro ⟨h1, h2⟩
      refine ⟨h1, fun w hw hd => h2 w hw ?_⟩
      have hwu : w ∈ g.users :=
        hmem w ((List.take_sublist i out).map UserReach.User |>.subset hw)
      rw [downstreamSet_eq he g hwu]
      exact hd
    · rintro ⟨h1, h2⟩
      refine ⟨h1, fun w hw hd => h2 w hw ?_⟩
      have hwu : w ∈ g.users :=
        hmem w ((List.take_sublist i out).map UserReach.User |>.subset hw)
      rw [downstreamSet_eq he g hwu] at hd
      exact hd
  refine ⟨out, hout, ?_, hnd, ?_⟩
  · intro i x hx
    obtain ⟨h1, h2, h3, h4, h5⟩ := hsteps i x hx
    refine ⟨h1, h2, ?_, h4, ?_⟩
    · rw [hset i x.User h1]
      exact h3
    · intro v hv hnot
      rw [hset i v hv]
      exact h5 v hv hnot
  · have := (List.subperm_of_subset hnd hmem).length_le
    rwa [List.length_map] at this

/-- C12 at the tree A → B, A → C, B → D, C → E with the identity enumeration. -/
theorem C12_greedy_steps_witness :
    ∃ out, UniqueReachExpansion id treeABCDE = .ok out ∧
      (∀ i x, out[i]? = some x →
        x.User ∈ treeABCDE.users ∧ x.User ∉ (out.take i).map UserReach.User ∧
        x.Reach = Set.ncard {t | t ∈ downstreamSet id treeABCDE x.User ∧
          ∀ w ∈ (out.take i).map UserReach.User, t ∉ downstreamSet id treeABCDE w} ∧
        1 ≤ x.Reach ∧
        ∀ v ∈ treeABCDE.users, v ∉ (out.take i).map UserReach.User →
          Set.ncard {t | t ∈ downstreamSet id treeABCDE v ∧
            ∀ w ∈ (out.take i).map UserReach.User, t ∉ downstreamSet id treeABCDE w}
              ≤ x.Reach) ∧
      (out.map UserReach.User).Nodup ∧
      out.length ≤ treeABCDE.users.length :=
  C12_greedy_steps id valid_id treeABCDE

/-! ## Claim C19: the greedy expansion on a forest -/

/-- A node without a recorded parent is nobody's descendant. -/
theorem root_not_descendant {g : Graph} (hg : Inv g) {u : String}
    (hu : lookup g.parent u = none) (w : String) : ¬ Descendant g w u := by
  intro h
  have : ∃ y, child g y u := by
    cases h with
    | single h1 => exact ⟨_, h1⟩
    | tail _ h1 => exact ⟨_, h1⟩
  obtain ⟨y, hy⟩ := this
  rw [(hg.parent_iff u y).2 hy] at hu
  cases hu

theorem descendant_has_child {g : Graph} {a b : String} (h : Descendant g a b) :
    ∃ y, child g a y := by
  unfold Descendant at h
  induction h using Relation.TransGen.head_induction_on with
  | base h0 => exact ⟨_, h0⟩
  | ih h0 _ _ => exact ⟨_, h0⟩

/-- In a forest two ancestors of a node are equal or one is an ancestor of the other. -/
theorem ancestors_comparable {g : Graph} (hg : Inv g) {w u d : String}
    (h1 : Descendant g w d) (h2 : Descendant g u d) :
    w = u ∨ Descendant g w u ∨ Descendant g u w := by
  have huniq : ∀ {a b x : String}, child g a x → child g b x → a = b := by
    intro a b x ha hb
    have h := (hg.parent_iff x a).2 ha
    rw [(hg.parent_iff x b).2 hb] at h
    cases h
    rfl
  unfold Descendant at h1
  induction h1 with
  | single hwd =>
    cases h2 with
    | single hud => exact Or.inl (huniq hwd hud)
    | tail huy hyd =>
      have := huniq hwd hyd
      subst this
      exact Or.inr (Or.inr huy)
  | tail hwy hyd ih =>
    cases h2 with
    | single hud =>
      have := huniq hyd hud
      subst this
      exact Or.inr (Or.inl hwy)
    | tail huy' hyd' =>
      have := huniq hyd hyd'
      subst this
      exact ih huy'

/-- The downstream sets of two different roots are disjoint. -/
theorem roots_disjoint {g : Graph} (hg : Inv g) {w u d : String}
    (hw : lookup g.parent w = none) (hu : lookup g.parent u = none) (hne : w ≠ u)
    (h1 : Descendant g w d) : ¬ Descendant g u d := by
  intro h2
  rcases ancestors_comparable hg h1 h2 with h | h | h
  · exact hne h
  · exact root_not_descendant hg hu w h
  · exact root_not_descendant hg hw u h

theorem newlyCovered_root {g : Graph} (hg : Inv g) {u : String}
    (hu : lookup g.parent u = none) (prev : List String)
    (hprev : ∀ w ∈ prev, lookup g.parent w = none ∧ w ≠ u) :
    newlyCovered g prev u = {t | Descendant g u t} := by
  ext t
  simp only [newlyCovered, Set.mem_setOf_eq]
  constructor
  · exact fun h => h.1
  · intro h
    exact ⟨h, fun w hw hd => roots_disjoint hg (hprev w hw).1 hu (hprev w hw).2 hd h⟩

theorem newlyCovered_finite {e : Enum} (he : e.Valid) (g : Graph) (prev : List String)
    {u : String} (hu : u ∈ g.users) : (newlyCovered g prev u).Finite := by
  obtain ⟨_, h2, _, _⟩ := downstreamOf_spec he g u
  apply Set.Finite.subset (List.finite_toSet (downstreamOf e g u))
  intro t ht
  exact (h2 hu t).2 ht.1

/-- Every member has a root above it or is a root. -/
theorem exists_root {g : Graph} (hg : Inv g) {m : String} (hm : m ∈ g.users) :
    ∃ r ∈ g.users, lookup g.parent r = none ∧ (r = m ∨ Descendant g r m) := by
  rcases climb_stops_or_continues g m g.users.length with ⟨k, root, _, h1, h2⟩ | ⟨x, hx⟩
  · refine ⟨root, climb_mem hg k m root hm h1, h2, ?_⟩
    cases k with
    | zero =>
      simp only [climb, Option.some.injEq] at h1
      exact Or.inl h1.symm
    | succ d => exact Or.inr (climb_descendant hg d m root h1)
  · have := climb_short hg m hm _ x hx
    omega

/-- A selected member of the greedy expansion of a forest is a root. -/
theorem step_root {e : Enum} (he : e.Valid) {g : Graph} (hg : Inv g) {prev : List String}
    {x : UserReach} (h : GreedyStep g prev x) : lookup g.parent x.User = none := by
  obtain ⟨h1, _, h3, h4, h5⟩ := h
  cases hp : lookup g.parent x.User with
  | none => rfl
  | some p =>
    exfalso
    have hpu : child g p x.User := (hg.parent_iff _ _).1 hp
    have hpm : p ∈ g.users := (hg.parent_mem _ _ hp).2
    obtain ⟨d, hd⟩ := Set.nonempty_of_ncard_ne_zero
      (s := newlyCovered g prev x.User) (by omega)
    have hnotprev : p ∉ prev := fun hmem =>
      hd.2 p hmem (Relation.TransGen.head hpu hd.1)
    have hcov : ∀ w ∈ prev, ¬ Descendant g w x.User := fun w hw hwx =>
      hd.2 w hw (Relation.TransGen.trans hwx hd.1)
    have hss : newlyCovered g prev x.User ⊂ newlyCovered g prev p := by
      refine ⟨fun t ht => ⟨Relation.TransGen.head hpu ht.1, ht.2⟩, ?_⟩
      intro hsub
      have : x.User ∈ newlyCovered g prev x.User :=
        hsub ⟨Relation.TransGen.single hpu, hcov⟩
      exact hg.acyclic _ this.1
    have hlt := Set.ncard_lt_ncard hss (newlyCovered_finite he g prev hpm)
    have hle := h5 p hpm hnotprev
    omega

/-- C19: on every graph built by `AddUser`/`AddReferral` calls and for every
enumeration order, `UniqueReachExpansion` selects exactly the members that have
no referrer and at least one direct referral, each once and with its
`TotalReach` as count; the counts do not increase along the result; their sum
is the number of members that have a referrer, which is less than the member
count when there are members. -/
theorem C19_expansion_on_forest (e : Enum) (he : e.Valid) (g : Graph) (hg : Reachable g) :
    ∃ out, UniqueReachExpansion e g = .ok out ∧
      (∀ u, u ∈ out.map UserReach.User ↔
        (u ∈ g.users ∧ lookup g.parent u = none ∧ childrenOf g u ≠ [])) ∧
      (out.map UserReach.User).Nodup ∧
      (∀ x ∈ out, TotalReach e g x.User = .ok x.Reach) ∧
      (out.map UserReach.Reach).Pairwise (fun a b => a ≥ b) ∧
      (out.map UserReach.Reach).sum =
        (g.users.filter (fun u => (lookup g.parent u).isSome)).length ∧
      (g.users ≠ [] → (out.map UserReach.Reach).sum < g.users.length) := by
  have hinv := hg.inv
  obtain ⟨out, final, hout, hfnd, hfin, hlen, hsteps, hstop⟩ := UniqueReachExpansion_spec he g
  have hnd := nodup_of_steps g out hsteps
  have hidx : ∀ x ∈ out, ∃ i, out[i]? = some x := fun x hx => List.mem_iff_getElem?.1 hx
  have hroot : ∀ w ∈ out.map UserReach.User, lookup g.parent w = none := by
    intro w hw
    obtain ⟨x, hx, rfl⟩ := List.mem_map.1 hw
    obtain ⟨i, hi⟩ := hidx x hx
    exact step_root he hinv (hsteps i x hi)
  -- the gain of a root that the given selected members do not contain is its reach
  have hgain : ∀ (prev : List String) (u : String), u ∈ g.users →
      lookup g.parent u = none → (∀ w ∈ prev, w ∈ out.map UserReach.User) → u ∉ prev →
      (newlyCovered g prev u).ncard = (downstreamOf e g u).length := by
    intro prev u hu hpu hprev hnot
    rw [newlyCovered_root hinv hpu prev (fun w hw =>
      ⟨hroot w (hprev w hw), fun h => hnot (h ▸ hw)⟩), ncard_descendants he g hu]
  have htake : ∀ (i : Nat) (w : String), w ∈ (out.take i).map UserReach.User →
      w ∈ out.map UserReach.User := fun i w hw =>
    ((List.take_sublist i out).map UserReach.User).subset hw
  have hentry : ∀ (i : Nat) (x : UserReach), out[i]? = some x →
      x.Reach = (downstreamOf e g x.User).length := by
    intro i x hi
    obtain ⟨h1, h2, h3, _, _⟩ := hsteps i x hi
    rw [h3]
    exact hgain _ _ h1 (step_root he hinv (hsteps i x hi)) (htake i) h2
  have hsel : ∀ u, u ∈ out.map UserReach.User ↔
      (u ∈ g.users ∧ lookup g.parent u = none ∧ childrenOf g u ≠ []) := by
    intro u
    constructor
    · intro hu
      obtain ⟨x, hx, rfl⟩ := List.mem_map.1 hu
      obtain ⟨i, hi⟩ := hidx x hx
      obtain ⟨h1, _, _, h4, _⟩ := hsteps i x hi
      refine ⟨h1, hroot _ hu, ?_⟩
      have hpos : 1 ≤ (downstreamOf e g x.User).length := by
        rw [← hentry i x hi]
        exact h4
      obtain ⟨t, ht⟩ := List.exists_mem_of_length_pos hpos
      obtain ⟨_, h2, _, _⟩ := downstreamOf_spec he g x.User
      have hd : Descendant g x.User t := (h2 h1 t).1 ht
      obtain ⟨y, hy⟩ := descendant_has_child hd
      intro hempty
      unfold child at hy
      rw [hempty] at hy
      simp at hy
    · rintro ⟨hu, hpu, hch⟩
      by_contra hnot
      obtain ⟨y, hy⟩ := List.exists_mem_of_ne_nil _ hch
      have hpos : 1 ≤ (downstreamOf e g u).length := by
        obtain ⟨_, h2, _, _⟩ := downstreamOf_spec he g u
        exact List.length_pos_of_mem ((h2 hu y).2 (Relation.TransGen.single hy))
      rcases hstop with h | h
      · have hsub : final ⊆ g.users.filter (fun u => (lookup g.parent u).isSome) := by
          intro x hx
          obtain ⟨w, _, hd⟩ := (hfin x).1 hx
          apply List.mem_filter.2
          refine ⟨descendant_mem hinv hd, ?_⟩
          cases hpx : lookup g.parent x with
          | none => exact absurd hd (root_not_descendant hinv hpx w)
          | some p => rfl
        have h1 := (List.subperm_of_subset hfnd hsub).length_le
        have h2 := (List.length_filter_lt_length_iff_exists
          (p := fun u => (lookup g.parent u).isSome) (l := g.users)).2
          ⟨u, hu, by simp [hpu]⟩
        omega
      · have := h u hu hnot
        rw [hgain _ u hu hpu (fun w hw => hw) hnot] at this
        omega
  have hfinal : final.Perm (g.users.filter (fun u => (lookup g.parent u).isSome)) := by
    apply (List.perm_ext_iff_of_nodup hfnd (hinv.users_nodup.filter _)).2
    intro x
    rw [hfin, List.mem_filter]
    constructor
    · rintro ⟨w, _, hd⟩
      refine ⟨descendant_mem hinv hd, ?_⟩
      cases hpx : lookup g.parent x with
      | none => exact absurd hd (root_not_descendant hinv hpx w)
      | some p => rfl
    · rintro ⟨hx, hpx⟩
      obtain ⟨r, hr, hpr, hrx⟩ := exists_root hinv hx
      have hd : Descendant g r x := by
        rcases hrx with h | h
        · subst h
          rw [hpr] at hpx
          cases hpx
        · exact h
      refine ⟨r, (hsel r).2 ⟨hr, hpr, ?_⟩, hd⟩
      obtain ⟨y, hy⟩ := descendant_has_child hd
      intro hempty
      unfold child at hy
      rw [hempty] at hy
      simp at hy
  have hsum : (out.map UserReach.Reach).sum =
      (g.users.filter (fun u => (lookup g.parent u).isSome)).length := by
    rw [← hlen, hfinal.length_eq]
  refine ⟨out, hout, hsel, hnd, ?_, ?_, hsum, ?_⟩
  · intro x hx
    obtain ⟨i, hi⟩ := hidx x hx
    obtain ⟨_, _, hreach, _⟩ := downstreamOf_spec he g x.User
    rw [hreach (hsteps i x hi).1, hentry i x hi]
  · rw [List.pairwise_map, List.pairwise_iff_getElem]
    intro i j hi hj hij
    have hxi : out[i]? = some (out[i]) := List.getElem?_eq_getElem hi
    have hxj : out[j]? = some (out[j]) := List.getElem?_eq_getElem hj
    obtain ⟨_, _, h3, _, h5⟩ := hsteps i _ hxi
    have hju : out[j].User ∈ g.users := (hsteps j _ hxj).1
    have hjnot : out[j].User ∉ (out.take i).map UserReach.User := by
      intro hmem
      apply (hsteps j _ hxj).2.1
      have hsub : (out.take i).Sublist (out.take j) := by
        have := List.take_sublist i (out.take j)
        rwa [List.take_take, Nat.min_eq_left (by omega)] at this
      exact (hsub.map UserReach.User).subset hmem
    have := h5 _ hju hjnot
    rw [hgain _ _ hju (step_root he hinv (hsteps j _ hxj)) (htake i) hjnot,
      ← hentry j _ hxj] at this
    exact this
  · intro hne
    rw [hsum]
    obtain ⟨m, hm⟩ := List.exists_mem_of_ne_nil _ hne
    obtain ⟨r, hr, hpr, _⟩ := exists_root hinv hm
    exact (List.length_filter_lt_length_iff_exists
      (p := fun u => (lookup g.parent u).isSome) (l := g.users)).2 ⟨r, hr, by simp [hpr]⟩

/-- C19 at the tree A → B, A → C, B → D, C → E with the identity enumeration. -/
theorem C19_expansion_on_forest_witness :
    ∃ out, UniqueReachExpansion id treeABCDE = .ok out ∧
      (∀ u, u ∈ out.map UserReach.User ↔
        (u ∈ treeABCDE.users ∧ lookup treeABCDE.parent u = none ∧
          childrenOf treeABCDE u ≠ [])) ∧
      (out.map UserReach.User).Nodup ∧
      (∀ x ∈ out, TotalReach id treeABCDE x.User = .ok x.Reach) ∧
      (out.map UserReach.Reach).Pairwise (fun a b => a ≥ b) ∧
      (out.map UserReach.Reach).sum =
        (treeABCDE.users.filter (fun u => (lookup treeABCDE.parent u).isSome)).length ∧
      (treeABCDE.users ≠ [] → (out.map UserReach.Reach).sum < treeABCDE.users.length) :=
  C19_expansion_on_forest id valid_id treeABCDE reachable_treeABCDE

/-! ## Paths and shortest distances -/

theorem walk_snoc {g : Graph} : ∀ (n : Nat) (a b c : String),
    Walk g n a b → child g b c → Walk g (n + 1) a c := by
  intro n
  induction n with
  | zero =>
    intro a b c h hc
    simp only [Walk] at h
    subst h
    exact ⟨c, hc, rfl⟩
  | succ n ih =>
    intro a b c h hc
    obtain ⟨x, hx, hw⟩ := h
    exact ⟨x, hx, ih x b c hw hc⟩

theorem walk_trans {g : Graph} : ∀ (n m : Nat) (a b c : String),
    Walk g n a b → Walk g m b c → Walk g (n + m) a c := by
  intro n
  induction n with
  | zero =>
    intro m a b c h1 h2
    simp only [Walk] at h1
    subst h1
    simpa using h2
  | succ n ih =>
    intro m a b c h1 h2
    obtain ⟨x, hx, hw⟩ := h1
    have : n + 1 + m = (n + m) + 1 := by omega
    rw [this]
    exact ⟨x, hx, ih m x b c hw h2⟩

theorem walk_descendant {g : Graph} : ∀ (n : Nat) (a b : String),
    Walk g (n + 1) a b → Descendant g a b := by
  intro n
  induction n with
  | zero =>
    rintro a b ⟨c, hc, h⟩
    simp only [Walk] at h
    subst h
    exact Relation.TransGen.single hc
  | succ n ih =>
    rintro a b ⟨c, hc, h⟩
    exact Relation.TransGen.head hc (ih c b h)

theorem descendant_walk {g : Graph} {a b : String} (h : Descendant g a b) :
    ∃ n, Walk g (n + 1) a b := by
  unfold Descendant at h
  induction h with
  | single h1 => exact ⟨0, _, h1, rfl⟩
  | tail _ h1 ih =>
    obtain ⟨n, hn⟩ := ih
    exact ⟨n + 1, walk_snoc _ _ _ _ hn h1⟩

theorem walk_mem {g : Graph} (hclosed : ∀ a ∈ g.users, ∀ b, child g a b → b ∈ g.users) :
    ∀ (n : Nat) (a b : String), a ∈ g.users → Walk g n a b → b ∈ g.users := by
  intro n
  induction n with
  | zero =>
    intro a b ha h
    simp only [Walk] at h
    exact h ▸ ha
  | succ n ih =>
    rintro a b ha ⟨c, hc, h⟩
    exact ih c b (hclosed a ha c hc) h

theorem isDist_unique {g : Graph} {a b : String} {d d' : Nat} (h : IsDist g a b d)
    (h' : IsDist g a b d') : d = d' :=
  Nat.le_antisymm (h.2 d' h'.1) (h'.2 d h.1)

theorem exists_isDist {g : Graph} {a b : String} (h : ∃ n, Walk g n a b) :
    ∃ d, IsDist g a b d := by
  classical
  exact ⟨Nat.find h, Nat.find_spec h, fun n hn => Nat.find_min' h hn⟩

/-! ## The distances computed by `bfsDistances` -/

theorem dget_insert (dist : List (String × Int)) (k x : String) (v : Int) :
    dget (insert dist k v) x = if x = k then v else dget dist x := by
  unfold dget
  by_cases h : x = k
  · subst h
    simp [lookup_insert_self]
  · simp [lookup_insert_ne _ _ h, h]

theorem filter_length_succ_le {l : List String} {p q : String → Bool}
    (hpq : ∀ x, q x = true → p x = true) {c : String} (hc : c ∈ l) (hp : p c = true)
    (hq : q c = false) : (l.filter q).length + 1 ≤ (l.filter p).length := by
  induction l with
  | nil => simp at hc
  | cons a l ih =>
    have hle : (l.filter q).length ≤ (l.filter p).length := by
      have h1 : (l.filter q).length = ((l.filter p).filter q).length := by
        rw [List.filter_filter]
        congr 1
        apply List.filter_congr
        intro x _
        cases hqx : q x with
        | false => simp
        | true => simp [hpq x hqx]
      rw [h1]
      exact List.length_filter_le _ _
    by_cases hac : a = c
    · subst hac
      simp only [List.filter_cons, hp, hq, if_true, List.length_cons]
      simp only [Bool.false_eq_true, if_false]
      omega
    · have hcl : c ∈ l := by
        rcases List.mem_cons.1 hc with h | h
        · exact absurd h.symm hac
        · exact h
      have := ih hcl
      simp only [List.filter_cons]
      cases hqa : q a with
      | true =>
        simp only [hpq a hqa, if_true, List.length_cons]
        omega
      | false =>
        simp only [Bool.false_eq_true, if_false]
        split
        · simp only [List.length_cons]
          omega
        · omega

theorem unassigned_insert {users : List String} {dist : List (String × Int)} {c : String}
    (hc : c ∈ users) (hd : dget dist c = -1) {v : Int} (hv : v ≠ -1) :
    unassigned users (insert dist c v) + 1 ≤ unassigned users dist := by
  unfold unassigned
  apply filter_length_succ_le (c := c) _ hc
  · simp [hd]
  · simp [dget_insert, hv]
  · intro x hx
    simp only [decide_eq_true_eq, dget_insert] at hx ⊢
    by_cases hxc : x = c
    · simp only [hxc, if_true] at hx
      exact absurd hx hv
    · simpa [hxc] using hx

/-- On a path from an assigned node to an unassigned one some link leaves the
assigned nodes. -/
theorem first_unassigned {g : Graph}
    (hclosed : ∀ a ∈ g.users, ∀ b, child g a b → b ∈ g.users)
    (dist : List (String × Int)) (hlower : ∀ x ∈ g.users, -1 ≤ dget dist x) :
    ∀ (n : Nat) (a b : String), a ∈ g.users → 0 ≤ dget dist a → dget dist b = -1 →
      Walk g n a b →
      ∃ i x y, Walk g i a x ∧ x ∈ g.users ∧ 0 ≤ dget dist x ∧ child g x y ∧
        dget dist y = -1 ∧ i + 1 ≤ n := by
  intro n
  induction n with
  | zero =>
    intro a b _ ha hb h
    simp only [Walk] at h
    subst h
    omega
  | succ n ih =>
    rintro a b hau ha hb ⟨c, hc, h⟩
    have hcu := hclosed a hau c hc
    by_cases hcd : dget dist c = -1
    · exact ⟨0, a, c, rfl, hau, ha, hc, hcd, by omega⟩
    · have hc0 : 0 ≤ dget dist c := by
        have := hlower c hcu
        omega
      obtain ⟨i, x, y, h1, h2, h3, h4, h5, h6⟩ := ih c b hcu hc0 hb h
      exact ⟨i + 1, x, y, ⟨c, hc, h1⟩, h2, h3, h4, h5, by omega⟩

theorem visitDist_nil (curr : String) (dist : List (String × Int)) (queue : List String) :
    visitDist curr [] dist queue = (dist, queue) := rfl

theorem visitDist_cons (curr c : String) (cs : List String) (dist : List (String × Int))
    (queue : List String) :
    visitDist curr (c :: cs) dist queue =
      if dget dist c = -1 then
        visitDist curr cs (insert dist c (dget dist curr + 1)) (queue ++ [c])
      else visitDist curr cs dist queue := by
  unfold visitDist
  simp only [List.foldl_cons]
  split <;> rfl

theorem visitDist_inv {g : Graph} (hclosed : ∀ a ∈ g.users, ∀ b, child g a b → b ∈ g.users)
    (start curr : String) (hcu : curr ∈ g.users) :
    ∀ (cs : List String) (dist : List (String × Int)) (queue : List String),
      (∀ c ∈ cs, child g curr c) →
      DistInv g start dist → start ∈ g.users → 0 ≤ dget dist curr →
      (∀ q ∈ queue, q ∈ g.users ∧ dget dist curr ≤ dget dist q ∧
        dget dist q ≤ dget dist curr + 1) →
      queue.Pairwise (fun a b => dget dist a ≤ dget dist b) →
      (∀ x ∈ g.users, 0 ≤ dget dist x → x ∉ queue → x ≠ curr →
        ∀ c, child g x c → 0 ≤ dget dist c) →
      DistInv g start (visitDist curr cs dist queue).1 ∧
      dget (visitDist curr cs dist queue).1 curr = dget dist curr ∧
      (∀ q ∈ (visitDist curr cs dist queue).2, q ∈ g.users ∧
        dget dist curr ≤ dget (visitDist curr cs dist queue).1 q ∧
        dget (visitDist curr cs dist queue).1 q ≤ dget dist curr + 1) ∧
      (visitDist curr cs dist queue).2.Pairwise
        (fun a b => dget (visitDist curr cs dist queue).1 a ≤
          dget (visitDist curr cs dist queue).1 b) ∧
      (∀ x ∈ g.users, 0 ≤ dget (visitDist curr cs dist queue).1 x →
        x ∉ (visitDist curr cs dist queue).2 → x ≠ curr →
        ∀ c, child g x c → 0 ≤ dget (visitDist curr cs dist queue).1 c) ∧
      (∀ x, 0 ≤ dget dist x → dget (visitDist curr cs dist queue).1 x = dget dist x) ∧
      (∀ c ∈ cs, 0 ≤ dget (visitDist curr cs dist queue).1 c) ∧
      (visitDist curr cs dist queue).2.length +
          unassigned g.users (visitDist curr cs dist queue).1 ≤
        queue.length + unassigned g.users dist := by
  intro cs
  induction cs with
  | nil =>
    intro dist queue _ hinv _ hcurr hq hsorted hcl
    exact ⟨hinv, rfl, hq, hsorted, hcl, fun _ _ => rfl,
      fun c hc => absurd hc (List.not_mem_nil c), le_refl _⟩
  | cons c cs ih =>
    intro dist queue hcs hinv hs hcurr hq hsorted hcl
    have hcc : child g curr c := hcs c (List.mem_cons_self _ _)
    have hcmem : c ∈ g.users := hclosed curr hcu c hcc
    have hcs' : ∀ x ∈ cs, child g curr x := fun x hx => hcs x (List.mem_cons_of_mem _ hx)
    rw [visitDist_cons]
    by_cases hc : dget dist c = -1
    · simp only [hc, if_true]
      have hne : c ≠ curr := by
        intro h
        rw [h] at hc
        omega
      have hget : ∀ x, dget (insert dist c (dget dist curr + 1)) x =
          if x = c then dget dist curr + 1 else dget dist x := fun x => dget_insert _ _ _ _
      have hkeep : ∀ x, 0 ≤ dget dist x →
          dget (insert dist c (dget dist curr + 1)) x = dget dist x := by
        intro x hx
        have : x ≠ c := by
          intro h
          rw [h] at hx
          omega
        rw [hget, if_neg this]
      have hcurr' : dget (insert dist c (dget dist curr + 1)) curr = dget dist curr :=
        hkeep curr hcurr
      have hinv' : DistInv g start (insert dist c (dget dist curr + 1)) := by
        refine ⟨?_, ?_, ?_, ?_⟩
        · intro x hx
          rw [hget]
          split
          · omega
          · exact hinv.lower x hx
        · rw [hkeep start (by rw [hinv.start0]), hinv.start0]
        · intro x hx h0
          rw [hget] at h0 ⊢
          by_cases hxc : x = c
          · simp only [hxc, if_true]
            have hw := hinv.sound curr hcu hcurr
            have := walk_snoc _ _ _ _ hw hcc
            have he : (dget dist curr + 1).toNat = (dget dist curr).toNat + 1 := by omega
            rw [he]
            exact this
          · simp only [hxc, if_false] at h0 ⊢
            exact hinv.sound x hx h0
        · intro x hx h0 n hw
          rw [hget] at h0 ⊢
          by_cases hxc : x = c
          · simp only [hxc, if_true]
            subst hxc
            obtain ⟨i, y, z, h1, h2, h3, h4, h5, h6⟩ :=
              first_unassigned hclosed dist hinv.lower n start x hs
                (by rw [hinv.start0]) hc hw
            have hy : dget dist curr ≤ dget dist y := by
              by_cases hyq : y ∈ queue
              · exact (hq y hyq).2.1
              · by_cases hyc : y = curr
                · rw [hyc]
                · have := hcl y h2 h3 hyq hyc z h4
                  omega
            have := hinv.minimal y h2 h3 i h1
            omega
          · simp only [hxc, if_false] at h0 ⊢
            exact hinv.minimal x hx h0 n hw
      have hq' : ∀ q ∈ queue ++ [c], q ∈ g.users ∧
          dget (insert dist c (dget dist curr + 1)) curr ≤
            dget (insert dist c (dget dist curr + 1)) q ∧
          dget (insert dist c (dget dist curr + 1)) q ≤
            dget (insert dist c (dget dist curr + 1)) curr + 1 := by
        intro q hqm
        rw [hcurr']
        rcases List.mem_append.1 hqm with h | h
        · obtain ⟨h1, h2, h3⟩ := hq q h
          rw [hkeep q (by omega)]
          exact ⟨h1, h2, h3⟩
        · simp only [List.mem_singleton] at h
          subst h
          rw [hget, if_pos rfl]
          exact ⟨hcmem, by omega, le_refl _⟩
      have hsorted' : (queue ++ [c]).Pairwise
          (fun a b => dget (insert dist c (dget dist curr + 1)) a ≤
            dget (insert dist c (dget dist curr + 1)) b) := by
        rw [List.pairwise_append]
        refine ⟨?_, List.pairwise_singleton _ _, ?_⟩
        · refine hsorted.imp_of_mem ?_
          intro a b ha hb hab
          rw [hkeep a (by have := (hq a ha).2.1; omega),
            hkeep b (by have := (hq b hb).2.1; omega)]
          exact hab
        · intro a ha b hb
          simp only [List.mem_singleton] at hb
          subst hb
          rw [hkeep a (by have := (hq a ha).2.1; omega), hget, if_pos rfl]
          exact (hq a ha).2.2
      have hcl' : ∀ x ∈ g.users, 0 ≤ dget (insert dist c (dget dist curr + 1)) x →
          x ∉ queue ++ [c] → x ≠ curr →
          ∀ y, child g x y → 0 ≤ dget (insert dist c (dget dist curr + 1)) y := by
        intro x hx h0 hnot hxc y hy
        have hxne : x ≠ c := fun h => hnot (by simp [h])
        rw [hget, if_neg hxne] at h0
        have hxq : x ∉ queue := fun h => hnot (List.mem_append.2 (Or.inl h))
        have := hcl x hx h0 hxq hxc y hy
        rw [hkeep y this]
        exact this
      obtain ⟨r1, r2, r3, r4, r5, r6, r7, r8⟩ :=
        ih (insert dist c (dget dist curr + 1)) (queue ++ [c]) hcs' hinv' hs
          (by rw [hcurr']; exact hcurr) hq' hsorted' hcl'
      refine ⟨r1, by rw [r2, hcurr'], ?_, r4, r5, ?_, ?_, ?_⟩
      · intro q hqm
        have := r3 q hqm
        rw [hcurr'] at this
        exact this
      · intro x hx
        rw [r6 x (by rw [hkeep x hx]; exact hx), hkeep x hx]
      · intro y hy
        rcases List.mem_cons.1 hy with h | h
        · subst h
          have h1 : dget (insert dist y (dget dist curr + 1)) y = dget dist curr + 1 := by
            rw [hget, if_pos rfl]
          rw [r6 y (by omega), h1]
          omega
        · exact r7 y h
      · have := @unassigned_insert g.users dist c hcmem hc (dget dist curr + 1) (by omega)
        simp only [List.length_append, List.length_singleton] at r8
        omega
    · simp only [hc, if_false]
      obtain ⟨r1, r2, r3, r4, r5, r6, r7, r8⟩ := ih dist queue hcs' hinv hs hcurr hq hsorted hcl
      refine ⟨r1, r2, r3, r4, r5, r6, ?_, r8⟩
      intro y hy
      rcases List.mem_cons.1 hy with h | h
      · subst h
        have h0 : 0 ≤ dget dist y := by
          have := hinv.lower y hcmem
          omega
        rw [r6 y h0]
        exact h0
      · exact r7 y h

theorem distLoop_spec {e : Enum} (he : e.Valid) {g : Graph}
    (hclosed : ∀ a ∈ g.users, ∀ b, child g a b → b ∈ g.users) (start : String)
    (hs : start ∈ g.users) :
    ∀ (fuel : Nat) (queue : List String) (dist : List (String × Int)),
      DistInv g start dist →
      (∀ q ∈ queue, q ∈ g.users ∧ 0 ≤ dget dist q) →
      queue.Pairwise (fun a b => dget dist a ≤ dget dist b) →
      (∀ a ∈ queue, ∀ b ∈ queue, dget dist b ≤ dget dist a + 1) →
      (∀ x ∈ g.users, 0 ≤ dget dist x → x ∉ queue → ∀ c, child g x c → 0 ≤ dget dist c) →
      queue.length + unassigned g.users dist ≤ fuel →
      ∃ out, distLoop e g fuel queue dist = some out ∧ DistInv g start out ∧
        ∀ x ∈ g.users, 0 ≤ dget out x → ∀ c, child g x c → 0 ≤ dget out c := by
  intro fuel
  induction fuel with
  | zero =>
    intro queue dist hinv _ _ _ hcl hf
    cases queue with
    | cons c q => simp at hf
    | nil => exact ⟨dist, rfl, hinv, fun x hx h0 => hcl x hx h0 (List.not_mem_nil x)⟩
  | succ n ih =>
    intro queue dist hinv hq hsorted hdiff hcl hf
    cases queue with
    | nil => exact ⟨dist, rfl, hinv, fun x hx h0 => hcl x hx h0 (List.not_mem_nil x)⟩
    | cons curr rest =>
      simp only [distLoop]
      have hcu := (hq curr (List.mem_cons_self _ _)).1
      have hcurr := (hq curr (List.mem_cons_self _ _)).2
      have hhead := (List.pairwise_cons.1 hsorted).1
      obtain ⟨r1, r2, r3, r4, r5, r6, r7, r8⟩ :=
        visitDist_inv hclosed start curr hcu (e (childrenOf g curr)) dist rest
          (fun c hc => he.mem.1 hc) hinv hs hcurr
          (fun q hqm => ⟨(hq q (List.mem_cons_of_mem _ hqm)).1, hhead q hqm,
            hdiff curr (List.mem_cons_self _ _) q (List.mem_cons_of_mem _ hqm)⟩)
          (List.pairwise_cons.1 hsorted).2
          (fun x hx h0 hnot hne => hcl x hx h0 (by
            intro hmem
            rcases List.mem_cons.1 hmem with h | h
            · exact hne h
            · exact hnot h))
      apply ih
      · exact r1
      · intro q hqm
        have := r3 q hqm
        exact ⟨this.1, by omega⟩
      · exact r4
      · intro a ha b hb
        have h1 := r3 a ha
        have h2 := r3 b hb
        omega
      · intro x hx h0 hnot c hc
        by_cases hxc : x = curr
        · subst hxc
          exact r7 c (he.mem.2 hc)
        · exact r5 x hx h0 hnot hxc c hc
      · simp only [List.length_cons] at hf
        omega

/-- On a graph whose child links lead to members, `bfsDistances` terminates
and records for every member `-1` when it is not reached from `start` and the
length of a shortest path otherwise. -/
theorem bfsDistances_spec {e : Enum} (he : e.Valid) {g : Graph}
    (hclosed : ∀ a ∈ g.users, ∀ b, child g a b → b ∈ g.users) {start : String}
    (hs : start ∈ g.users) :
    ∃ dist, bfsDistances e g start = some dist ∧
      ∀ t ∈ g.users,
        (dget dist t = -1 ∧ ∀ n, ¬ Walk g n start t) ∨
          (0 ≤ dget dist t ∧ IsDist g start t (dget dist t).toNat) := by
  have hget : ∀ x, dget (insert ((e g.users).foldl (fun dist u => insert dist u (-1)) [])
      start 0) x = if x = start then 0 else if x ∈ g.users then -1 else 0 := by
    intro x
    rw [dget_insert]
    by_cases hx : x = start
    · simp [hx]
    · simp only [hx, if_false]
      unfold dget
      rw [lookup_foldl_insert (fun _ => (-1 : Int))]
      by_cases hxu : x ∈ g.users
      · simp [he.mem.2 hxu, hxu]
      · have : x ∉ e g.users := fun h => hxu (he.mem.1 h)
        simp [this, hxu, lookup]
  have hinit : DistInv g start
      (insert ((e g.users).foldl (fun dist u => insert dist u (-1)) []) start 0) := by
    refine ⟨?_, ?_, ?_, ?_⟩
    · intro x hx
      rw [hget]
      split
      · omega
      · simp [hx]
    · rw [hget]
      simp
    · intro x hx h0
      rw [hget] at h0 ⊢
      by_cases hxs : x = start
      · simp only [hxs, if_true]
        rfl
      · simp [hxs, hx] at h0
    · intro x hx h0 n _
      rw [hget] at h0 ⊢
      by_cases hxs : x = start
      · simp only [hxs, if_true]
        omega
      · simp [hxs, hx] at h0
  obtain ⟨out, h1, h2, h3⟩ := distLoop_spec he hclosed start hs (g.users.length + 1) [start]
    _ hinit
    (by
      intro q hq
      simp only [List.mem_singleton] at hq
      subst hq
      exact ⟨hs, by rw [hinit.start0]⟩)
    (List.pairwise_singleton _ _)
    (by
      intro a ha b hb
      simp only [List.mem_singleton] at ha hb
      subst ha
      subst hb
      omega)
    (by
      intro x hx h0 hnot
      rw [hget] at h0
      by_cases hxs : x = start
      · exact absurd (by simp [hxs]) hnot
      · simp [hxs, hx] at h0)
    (by
      have : unassigned g.users
          (insert ((e g.users).foldl (fun dist u => insert dist u (-1)) []) start 0) ≤
          g.users.length := List.length_filter_le _ _
      simp only [List.length_singleton]
      omega)
  refine ⟨out, h1, ?_⟩
  intro t ht
  have hl := h2.lower t ht
  by_cases hneg : dget out t = -1
  · left
    refine ⟨hneg, ?_⟩
    intro n hw
    obtain ⟨i, x, y, _, hx, hx0, hxy, hy, _⟩ :=
      first_unassigned hclosed out h2.lower n start t hs (by rw [h2.start0]) hneg hw
    have := h3 x hx hx0 y hxy
    omega
  · right
    have h0 : 0 ≤ dget out t := by omega
    refine ⟨h0, h2.sound t ht h0, ?_⟩
    intro n hw
    have := h2.minimal t ht h0 n hw
    omega

theorem allDistances_spec {e : Enum} (he : e.Valid) {g : Graph}
    (hclosed : ∀ a ∈ g.users, ∀ b, child g a b → b ∈ g.users) :
    ∀ (l : List String) (acc : List (String × List (String × Int))),
      (∀ u ∈ l, u ∈ g.users) →
      ∃ m, allDistances e g l acc = some m ∧
        ∀ u, (u ∈ l → ∃ d, bfsDistances e g u = some d ∧ lookup m u = some d) ∧
          (u ∉ l → lookup m u = lookup acc u) := by
  intro l
  induction l with
  | nil =>
    intro acc _
    exact ⟨acc, rfl, fun u => ⟨fun h => absurd h (List.not_mem_nil u), fun _ => rfl⟩⟩
  | cons a l ih =>
    intro acc hl
    obtain ⟨d, hd, _⟩ := bfsDistances_spec he hclosed (hl a (List.mem_cons_self _ _))
    obtain ⟨m, hm, hspec⟩ := ih (insert acc a d) fun u hu => hl u (List.mem_cons_of_mem _ hu)
    refine ⟨m, by simp only [allDistances, hd, hm], ?_⟩
    intro u
    constructor
    · intro hu
      by_cases hul : u ∈ l
      · exact (hspec u).1 hul
      · have hua : u = a := by
          rcases List.mem_cons.1 hu with h | h
          · exact h
          · exact absurd h hul
        subst hua
        exact ⟨d, hd, by rw [(hspec u).2 hul, lookup_insert_self]⟩
    · intro hu
      have hul : u ∉ l := fun h => hu (List.mem_cons_of_mem _ h)
      have hua : u ≠ a := fun h => hu (h ▸ List.mem_cons_self _ _)
      rw [(hspec u).2 hul, lookup_insert_ne _ _ hua]

/-! ## The score loops of `FlowCentrality` -/

theorem foldl_add_measure {σ : Type} (μ : σ → Int) (f : σ → String → σ) (w : String → Int)
    (h : ∀ a s, μ (f a s) = μ a + w s) (l : List String) :
    ∀ a, μ (l.foldl f a) = μ a + (l.map w).sum := by
  induction l with
  | nil => intro a; simp
  | cons s l ih =>
    intro a
    simp only [List.foldl_cons, List.map_cons, List.sum_cons, ih, h]
    omega

theorem foldl_preserves {σ : Type} (P : σ → Prop) (f : σ → String → σ)
    (h : ∀ a s, P a → P (f a s)) (l : List String) : ∀ a, P a → P (l.foldl f a) := by
  induction l with
  | nil => intro a ha; exact ha
  | cons s l ih => intro a ha; exact ih _ (h a s ha)

theorem dget_bump (score : List (String × Int)) (v x : String) :
    dget (bump score v) x = dget score x + if v = x then 1 else 0 := by
  unfold bump
  rw [dget_insert]
  by_cases h : x = v
  · subst h
    simp
  · have : ¬ v = x := fun h' => h h'.symm
    simp [h, this]

theorem ScoreOK_bump {score : List (String × Int)} (h : ScoreOK score) (v : String) :
    ScoreOK (bump score v) := by
  refine ⟨?_, ?_, ?_⟩
  · unfold bump
    rw [keys_insert]
    exact nodup_setInsert _ h.keys_nodup
  · intro x
    rw [dget_bump]
    unfold bump
    rw [keys_insert, mem_setInsert, h.key_iff]
    have := h.nonneg x
    by_cases hvx : v = x
    · simp only [hvx, if_true, or_true, true_iff]
      omega
    · have : ¬ x = v := fun h' => hvx h'.symm
      simp [hvx, this]
  · intro x
    rw [dget_bump]
    have := h.nonneg x
    split <;> omega

theorem sum_zero_of_forall {l : List String} {w : String → Int} (h : ∀ x ∈ l, w x = 0) :
    (l.map w).sum = 0 := by
  induction l with
  | nil => rfl
  | cons a l ih =>
    simp only [List.map_cons, List.sum_cons, h a (List.mem_cons_self _ _)]
    rw [ih fun x hx => h x (List.mem_cons_of_mem _ hx)]
    rfl

theorem scoreLoops_spec (users : List String) (dist : List (String × List (String × Int))) :
    ScoreOK (scoreLoops users dist) ∧
      ∀ x, dget (scoreLoops users dist) x = tally users dist x := by
  constructor
  · unfold scoreLoops
    apply foldl_preserves ScoreOK
    · intro a s ha
      apply foldl_preserves ScoreOK _ _ users a ha
      intro b t hb
      split
      · exact hb
      · apply foldl_preserves ScoreOK _ _ users b hb
        intro c v hc
        split
        · exact hc
        · split
          · exact ScoreOK_bump hc v
          · exact hc
    · exact ⟨List.nodup_nil, by simp [keys, dget, lookup], by simp [dget, lookup]⟩
  · intro x
    unfold scoreLoops tally
    rw [foldl_add_measure (fun sc => dget sc x) _
      (fun s => (users.map fun t => (users.map fun v =>
        if betweenCond dist s t v = true ∧ v = x then (1 : Int) else 0).sum).sum)]
    · simp [dget, lookup]
    · intro a s
      rw [foldl_add_measure (fun sc => dget sc x) _
        (fun t => (users.map fun v =>
          if betweenCond dist s t v = true ∧ v = x then (1 : Int) else 0).sum)]
      intro b t
      by_cases hguard : s = t ∨ distAt dist s t = -1
      · simp only [hguard, if_true]
        rw [sum_zero_of_forall]
        · omega
        · intro v _
          simp [betweenCond, hguard]
      · simp only [hguard, if_false]
        rw [foldl_add_measure (fun sc => dget sc x) _
          (fun v => if betweenCond dist s t v = true ∧ v = x then (1 : Int) else 0)]
        intro c v
        by_cases h1 : v = s ∨ v = t
        · simp [betweenCond, h1]
        · simp only [h1, if_false]
          by_cases h2 : distAt dist s v ≠ -1 ∧ distAt dist v t ≠ -1 ∧
              distAt dist s v + distAt dist v t = distAt dist s t
          · rw [if_pos h2, dget_bump]
            have : betweenCond dist s t v = true := by
              simp only [betweenCond, decide_eq_true_eq]
              exact ⟨hguard, h1, h2⟩
            simp [this]
          · rw [if_neg h2]
            have : betweenCond dist s t v = false := by
              simp only [betweenCond, decide_eq_false_iff_not]
              exact fun h => h2 h.2.2
            simp [this]

theorem sum_indicator (l : List String) (hl : l.Nodup) (c : String → Bool) (x : String) :
    (l.map fun v => if c v = true ∧ v = x then (1 : Int) else 0).sum =
      if x ∈ l ∧ c x = true then 1 else 0 := by
  induction l with
  | nil => simp
  | cons a l ih =>
    have hnd := List.nodup_cons.1 hl
    simp only [List.map_cons, List.sum_cons, ih hnd.2, List.mem_cons]
    by_cases hax : a = x
    · subst hax
      have : a ∉ l := hnd.1
      by_cases hc : c a = true
      · simp [hc, this]
      · simp [hc, this]
    · have : ¬ x = a := fun h => hax h.symm
      simp [hax, this]

theorem sum_ite_filter {α : Type} (l : List α) (p : α → Bool) :
    (l.map fun a => if p a = true then (1 : Int) else 0).sum = ((l.filter p).length : Int) := by
  induction l with
  | nil => rfl
  | cons a l ih =>
    simp only [List.map_cons, List.sum_cons, ih, List.filter_cons]
    cases hp : p a with
    | true => simp; omega
    | false => simp

theorem sum_product (l1 l2 : List String) (f : String → String → Int) :
    (l1.map fun s => (l2.map fun t => f s t).sum).sum =
      ((l1.product l2).map fun st => f st.1 st.2).sum := by
  induction l1 with
  | nil => rfl
  | cons a l ih =>
    rw [show (a :: l).product l2 = l2.map (fun b => (a, b)) ++ l.product l2 from
      List.product_cons a l l2]
    simp only [List.map_cons, List.sum_cons, ih, List.map_append, List.sum_append,
      List.map_map]
    rfl

theorem ncard_of_list_pairs (S : Set (String × String)) (l : List (String × String))
    (hl : l.Nodup) (h : ∀ x, x ∈ S ↔ x ∈ l) : S.ncard = l.length := by
  have hset : S = (↑l.toFinset : Set (String × String)) := by
    ext x
    simp [h]
  rw [hset, Set.ncard_coe_Finset, List.toFinset_card_of_nodup hl]

/-- With duplicate-free `users`, the number of increments of `score[x]` is the
number of pairs `(s, t)` of `users` that pass the test with `v = x`. -/
theorem tally_eq (users : List String) (hu : users.Nodup)
    (dist : List (String × List (String × Int))) (x : String) :
    tally users dist x =
      if x ∈ users then
        (((users.product users).filter
          (fun st => betweenCond dist st.1 st.2 x)).length : Int)
      else 0 := by
  unfold tally
  have hinner : ∀ s t, (users.map fun v =>
      if betweenCond dist s t v = true ∧ v = x then (1 : Int) else 0).sum =
      if x ∈ users ∧ betweenCond dist s t x = true then 1 else 0 := fun s t =>
    sum_indicator users hu (fun v => betweenCond dist s t v) x
  simp only [hinner]
  by_cases hx : x ∈ users
  · simp only [hx, true_and, if_true]
    rw [sum_product users users
      (fun s t => if betweenCond dist s t x = true then (1 : Int) else 0)]
    exact sum_ite_filter _ _
  · simp only [hx, false_and, if_false]
    rw [sum_zero_of_forall]
    intro s _
    exact sum_zero_of_forall fun t _ => rfl

/-! ## The result of `FlowCentrality` -/

theorem walk_reachable {g : Graph} : ∀ (n : Nat) (a b : String),
    Walk g n a b → ReachableFrom g a b := by
  intro n
  induction n with
  | zero =>
    intro a b h
    simp only [Walk] at h
    subst h
    exact Relation.ReflTransGen.refl
  | succ n ih =>
    rintro a b ⟨c, hc, h⟩
    exact Relation.ReflTransGen.head hc (ih c b h)

/-- Any sort that meets the contract of `sort.Slice` puts entries with
pairwise different users into the ranking order. -/
theorem sortSlice_ranking
    {sortSlice : (UserReach → UserReach → Bool) → List UserReach → List UserReach}
    (hs : SortSliceSpec sortSlice) (l : List UserReach)
    (hl : (l.map UserReach.User).Nodup) :
    (sortSlice reachLess l).Perm l ∧ (sortSlice reachLess l).Pairwise rankBefore := by
  obtain ⟨hperm, hsorted⟩ := hs reachLess l
  refine ⟨hperm, ?_⟩
  have hne : (sortSlice reachLess l).Pairwise (fun a b => a ≠ b) :=
    hperm.nodup_iff.2 (List.Nodup.of_map UserReach.User hl)
  refine ((hsorted reachLess_strictWeakOrder).and hne).imp ?_
  rintro a b ⟨h1, h2⟩
  by_contra hab
  have hba : ¬ rankBefore b a := by
    rw [← reachLess_iff, h1]
    simp
  exact h2 (rankBefore_incomparable hab hba)

/-- On a graph with duplicate-free member list whose child links lead to
members, `FlowCentrality` succeeds and lists, in ranking order, exactly the
members with a positive number of pairs between which they lie, with that number. -/
theorem FlowCentrality_spec
    {sortSlice : (UserReach → UserReach → Bool) → List UserReach → List UserReach}
    (hs : SortSliceSpec sortSlice) {e : Enum} (he : e.Valid) {g : Graph}
    (hu : g.users.Nodup) (hclosed : ∀ a ∈ g.users, ∀ b, child g a b → b ∈ g.users) :
    ∃ out, FlowCentrality sortSlice e g = .ok out ∧
      (∀ x : UserReach, x ∈ out ↔
        x.User ∈ g.users ∧ 1 ≤ x.Reach ∧ x.Reach = (betweenPairs g x.User).ncard) ∧
      (out.map UserReach.User).Nodup ∧ out.Pairwise rankBefore := by
  have hL : (e g.users).Nodup := (he g.users).nodup_iff.2 hu
  obtain ⟨m, hm, hmspec⟩ := allDistances_spec he hclosed (e g.users) []
    (fun u hu' => he.mem.1 hu')
  have hdist : ∀ s ∈ g.users, ∀ t ∈ g.users,
      (distAt m s t = -1 ∧ ∀ n, ¬ Walk g n s t) ∨
        (0 ≤ distAt m s t ∧ IsDist g s t (distAt m s t).toNat) := by
    intro s hsu t ht
    obtain ⟨d, hd, hlk⟩ := (hmspec s).1 (he.mem.2 hsu)
    obtain ⟨d', hd', hspec⟩ := bfsDistances_spec he hclosed hsu
    rw [hd] at hd'
    cases hd'
    unfold distAt
    rw [hlk, Option.getD_some]
    exact hspec t ht
  have hfin : ∀ s ∈ g.users, ∀ t ∈ g.users, ∀ d, IsDist g s t d →
      0 ≤ distAt m s t ∧ (distAt m s t).toNat = d := by
    intro s hsu t ht d hd
    rcases hdist s hsu t ht with ⟨_, h⟩ | ⟨h0, h⟩
    · exact absurd hd.1 (h d)
    · exact ⟨h0, isDist_unique h hd⟩
  have hcond : ∀ s ∈ g.users, ∀ t ∈ g.users, ∀ v ∈ g.users,
      (betweenCond m s t v = true ↔
        s ≠ t ∧ s ≠ v ∧ t ≠ v ∧ ReachableFrom g s t ∧ Between g s v t) := by
    intro s hsu t ht v hv
    simp only [betweenCond, decide_eq_true_eq, not_or]
    constructor
    · rintro ⟨⟨h1, h2⟩, ⟨h3, h4⟩, h5, h6, h7⟩
      have hst : 0 ≤ distAt m s t ∧ IsDist g s t (distAt m s t).toNat := by
        rcases hdist s hsu t ht with ⟨h, _⟩ | h
        · exact absurd h h2
        · exact h
      have hsv : 0 ≤ distAt m s v ∧ IsDist g s v (distAt m s v).toNat := by
        rcases hdist s hsu v hv with ⟨h, _⟩ | h
        · exact absurd h h5
        · exact h
      have hvt : 0 ≤ distAt m v t ∧ IsDist g v t (distAt m v t).toNat := by
        rcases hdist v hv t ht with ⟨h, _⟩ | h
        · exact absurd h h6
        · exact h
      refine ⟨h1, fun h => h3 h.symm, fun h => h4 h.symm, walk_reachable _ _ _ hst.2.1,
        _, _, _, hsv.2, hvt.2, hst.2, ?_⟩
      omega
    · rintro ⟨h1, h2, h3, _, d1, d2, d3, hd1, hd2, hd3, hsum⟩
      obtain ⟨a1, a2⟩ := hfin s hsu v hv d1 hd1
      obtain ⟨b1, b2⟩ := hfin v hv t ht d2 hd2
      obtain ⟨c1, c2⟩ := hfin s hsu t ht d3 hd3
      refine ⟨⟨h1, by omega⟩, ⟨fun h => h2 h.symm, fun h => h3 h.symm⟩, by omega, by omega,
        by omega⟩
  obtain ⟨hok, hscore⟩ := scoreLoops_spec (e g.users) m
  have hcount : ∀ x ∈ g.users,
      dget (scoreLoops (e g.users) m) x = ((betweenPairs g x).ncard : Int) := by
    intro x hx
    rw [hscore, tally_eq _ hL, if_pos (he.mem.2 hx)]
    congr 1
    symm
    apply ncard_of_list_pairs
    · exact (hL.product hL).filter _
    · rintro ⟨s, t⟩
      simp only [betweenPairs, Set.mem_setOf_eq, List.mem_filter]
      rw [show ((s, t) ∈ (e g.users).product (e g.users)) ↔ s ∈ e g.users ∧ t ∈ e g.users from
        List.mem_product, he.mem, he.mem]
      constructor
      · rintro ⟨h1, h2, h3, h4, h5, h6, h7⟩
        exact ⟨⟨h1, h2⟩, (hcond s h1 t h2 x hx).2 ⟨h3, h4, h5, h6, h7⟩⟩
      · rintro ⟨⟨h1, h2⟩, h3⟩
        obtain ⟨a, b, c, d, f⟩ := (hcond s h1 t h2 x hx).1 h3
        exact ⟨h1, h2, a, b, c, d, f⟩
  have hzero : ∀ x, x ∉ g.users → dget (scoreLoops (e g.users) m) x = 0 := by
    intro x hx
    have : x ∉ e g.users := fun h => hx (he.mem.1 h)
    rw [hscore, tally_eq _ hL, if_neg this]
  have hnd : (((e (keys (scoreLoops (e g.users) m))).map fun u =>
      ({ User := u, Reach := (dget (scoreLoops (e g.users) m) u).toNat } : UserReach)).map
      UserReach.User).Nodup := by
    rw [List.map_map]
    have : (UserReach.User ∘ fun u =>
        ({ User := u, Reach := (dget (scoreLoops (e g.users) m) u).toNat } : UserReach)) =
        id := rfl
    rw [this, List.map_id]
    exact (he _).nodup_iff.2 hok.keys_nodup
  obtain ⟨hperm, hsorted⟩ := sortSlice_ranking hs _ hnd
  refine ⟨_, by simp only [FlowCentrality, hm], ?_, ?_, hsorted⟩
  · intro x
    rw [hperm.mem_iff, List.mem_map]
    constructor
    · rintro ⟨u, hu', rfl⟩
      have hkey := (hok.key_iff u).1 (he.mem.1 hu')
      have hmem : u ∈ g.users := by
        by_contra hnot
        rw [hzero u hnot] at hkey
        omega
      rw [hcount u hmem] at hkey
      simp only
      rw [hcount u hmem]
      refine ⟨hmem, ?_, ?_⟩ <;> omega
    · rintro ⟨h1, h2, h3⟩
      refine ⟨x.User, he.mem.2 ((hok.key_iff _).2 ?_), ?_⟩
      · rw [hcount _ h1]
        omega
      · rw [hcount _ h1]
        cases x
        simp only at h3 ⊢
        rw [h3]
        rfl
  · exact (hperm.map UserReach.User).nodup_iff.2 hnd

/-! ## Flow centrality on a forest -/

theorem Inv.closed {g : Graph} (hg : Inv g) :
    ∀ a ∈ g.users, ∀ b, child g a b → b ∈ g.users :=
  fun _ _ b hab => (hg.parent_mem b _ ((hg.parent_iff b _).2 hab)).1

theorem walk_unsnoc {g : Graph} : ∀ (n : Nat) (a b : String),
    Walk g (n + 1) a b → ∃ y, Walk g n a y ∧ child g y b := by
  intro n
  induction n with
  | zero =>
    rintro a b ⟨c, hc, h⟩
    simp only [Walk] at h
    subst h
    exact ⟨a, rfl, hc⟩
  | succ n ih =>
    rintro a b ⟨c, hc, h⟩
    obtain ⟨y, hy, hyb⟩ := ih c b h
    exact ⟨y, ⟨c, hc, hy⟩, hyb⟩

/-- In a forest all paths between two nodes have the same length. -/
theorem walk_unique {g : Graph} (hg : Inv g) : ∀ (n m : Nat) (a b : String),
    Walk g n a b → Walk g m a b → n = m := by
  intro n
  induction n with
  | zero =>
    intro m a b h1 h2
    simp only [Walk] at h1
    subst h1
    cases m with
    | zero => rfl
    | succ m => exact absurd (walk_descendant m a a h2) (hg.acyclic a)
  | succ n ih =>
    intro m a b h1 h2
    cases m with
    | zero =>
      simp only [Walk] at h2
      subst h2
      exact absurd (walk_descendant n a a h1) (hg.acyclic a)
    | succ m =>
      obtain ⟨y, hy, hyb⟩ := walk_unsnoc n a b h1
      obtain ⟨z, hz, hzb⟩ := walk_unsnoc m a b h2
      have hp := (hg.parent_iff b y).2 hyb
      rw [(hg.parent_iff b z).2 hzb] at hp
      cases hp
      rw [ih m a y hy hz]

theorem isDist_of_walk {g : Graph} (hg : Inv g) {n : Nat} {a b : String}
    (h : Walk g n a b) : IsDist g a b n :=
  ⟨h, fun m hm => le_of_eq (walk_unique hg n m a b h hm)⟩

/-- On a forest the pairs between which `v` lies are the pairs of a proper
ancestor and a proper descendant of `v`. -/
theorem betweenPairs_forest {g : Graph} (hg : Inv g) (v : String) :
    betweenPairs g v = {st | Descendant g st.1 v ∧ Descendant g v st.2} := by
  ext ⟨s, t⟩
  simp only [betweenPairs, Between, Set.mem_setOf_eq]
  constructor
  · rintro ⟨_, _, _, h4, h5, _, d1, d2, d3, hd1, hd2, _, _⟩
    constructor
    · cases d1 with
      | zero =>
        have := hd1.1
        simp only [Walk] at this
        exact absurd this h4
      | succ d => exact walk_descendant d s v hd1.1
    · cases d2 with
      | zero =>
        have := hd2.1
        simp only [Walk] at this
        exact absurd this.symm h5
      | succ d => exact walk_descendant d v t hd2.1
  · rintro ⟨h1, h2⟩
    have h3 : Descendant g s t := Relation.TransGen.trans h1 h2
    obtain ⟨n1, w1⟩ := descendant_walk h1
    obtain ⟨n2, w2⟩ := descendant_walk h2
    refine ⟨descendant_source_mem hg h1, descendant_mem hg h2, ?_, ?_, ?_,
      (reachableFrom_iff g s t).2 (Or.inr h3), n1 + 1, n2 + 1, n1 + 1 + (n2 + 1),
      isDist_of_walk hg w1, isDist_of_walk hg w2,
      isDist_of_walk hg (walk_trans _ _ _ _ _ w1 w2), rfl⟩
    · intro h
      subst h
      exact hg.acyclic _ h3
    · intro h
      subst h
      exact hg.acyclic _ h1
    · intro h
      subst h
      exact hg.acyclic _ h2

theorem exists_list_of_subset (users : List String) (hu : users.Nodup) (P : String → Prop)
    (hP : ∀ x, P x → x ∈ users) : ∃ l : List String, l.Nodup ∧ ∀ x, x ∈ l ↔ P x := by
  classical
  refine ⟨users.filter (fun x => decide (P x)), hu.filter _, ?_⟩
  intro x
  simp only [List.mem_filter, decide_eq_true_eq]
  exact ⟨fun h => h.2, fun h => ⟨hP x h, h⟩⟩

theorem ncard_pair_sets (P Q : String → Prop) (l1 l2 : List String) (h1 : l1.Nodup)
    (h2 : l2.Nodup) (hP : ∀ x, x ∈ l1 ↔ P x) (hQ : ∀ x, x ∈ l2 ↔ Q x) :
    Set.ncard {st : String × String | P st.1 ∧ Q st.2} =
      Set.ncard {s | P s} * Set.ncard {t | Q t} := by
  rw [ncard_of_list {s | P s} l1 h1 (fun x => (hP x).symm),
    ncard_of_list {t | Q t} l2 h2 (fun x => (hQ x).symm),
    ncard_of_list_pairs _ (l1.product l2) (h1.product h2)]
  · exact List.length_product l1 l2
  rintro ⟨s, t⟩
  rw [show ((s, t) ∈ l1.product l2) ↔ s ∈ l1 ∧ t ∈ l2 from List.mem_product, hP, hQ]
  rfl

theorem FlowCentrality_forest
    {sortSlice : (UserReach → UserReach → Bool) → List UserReach → List UserReach}
    (hs : SortSliceSpec sortSlice) {e : Enum} (he : e.Valid) {g : Graph} (hg : Inv g) :
    ∃ out, FlowCentrality sortSlice e g = .ok out ∧
      (∀ x : UserReach, x ∈ out ↔
        x.User ∈ g.users ∧ 1 ≤ x.Reach ∧
          x.Reach = Set.ncard {s | Descendant g s x.User} *
            Set.ncard {t | Descendant g x.User t}) ∧
      (out.map UserReach.User).Nodup ∧ out.Pairwise rankBefore := by
  obtain ⟨out, h1, h2, h3, h4⟩ := FlowCentrality_spec hs he hg.users_nodup hg.closed
  refine ⟨out, h1, ?_, h3, h4⟩
  intro x
  rw [h2, betweenPairs_forest hg]
  obtain ⟨l1, a1, a2⟩ := exists_list_of_subset g.users hg.users_nodup
    (fun s => Descendant g s x.User) fun s hs' => descendant_source_mem hg hs'
  obtain ⟨l2, b1, b2⟩ := exists_list_of_subset g.users hg.users_nodup
    (fun t => Descendant g x.User t) fun t ht => descendant_mem hg ht
  rw [ncard_pair_sets (fun s => Descendant g s x.User) (fun t => Descendant g x.User t)
    l1 l2 a1 b1 a2 b2]

theorem climb_iff_descendant {g : Graph} (hg : Inv g) (v s : String) :
    (∃ k, climb g (k + 1) v = some s) ↔ Descendant g s v := by
  constructor
  · rintro ⟨k, hk⟩
    exact climb_descendant hg k v s hk
  · intro h
    unfold Descendant at h
    induction h with
    | single h1 =>
      refine ⟨0, ?_⟩
      simp [climb, (hg.parent_iff _ _).2 h1]
    | tail _ h1 ih =>
      obtain ⟨k, hk⟩ := ih
      refine ⟨k + 1, ?_⟩
      rw [climb, (hg.parent_iff _ _).2 h1]
      exact hk

/-! ## Claims C13, C14 and C20: flow centrality -/

theorem reachable_flowABCD : Reachable flowABCD :=
  Reachable.addReferral id _ "D" "C" valid_id
    (Reachable.addReferral id _ "A" "D" valid_id
      (Reachable.addReferral id _ "B" "C" valid_id
        (Reachable.addReferral id _ "A" "B" valid_id
          (Reachable.addUser _ "D" (Reachable.addUser _ "C"
            (Reachable.addUser _ "B" (Reachable.addUser _ "A" Reachable.newGraph)))))))

theorem ancestors_of_root {g : Graph} (hg : Inv g) {v : String}
    (hv : lookup g.parent v = none) : {s | Descendant g s v} = ∅ := by
  ext s
  simp only [Set.mem_setOf_eq, Set.mem_empty_iff_false, iff_false]
  exact root_not_descendant hg hv s

theorem descendants_of_leaf {g : Graph} {v : String} (hv : childrenOf g v = []) :
    {t | Descendant g v t} = ∅ := by
  ext t
  simp only [Set.mem_setOf_eq, Set.mem_empty_iff_false, iff_false]
  intro h
  obtain ⟨y, hy⟩ := descendant_has_child h
  unfold child at hy
  rw [hv] at hy
  simp at hy

theorem ancestors_of_root_child {g : Graph} (hg : Inv g) {v p : String}
    (hv : lookup g.parent v = some p) (hp : lookup g.parent p = none) :
    {s | Descendant g s v} = {p} := by
  ext s
  simp only [Set.mem_setOf_eq, Set.mem_singleton_iff]
  constructor
  · intro h
    have key : ∀ y, child g y v → y = p := by
      intro y hy
      have := (hg.parent_iff v y).2 hy
      rw [hv] at this
      cases this
      rfl
    cases h with
    | single h1 => exact key s h1
    | tail h0 h1 =>
      have := key _ h1
      subst this
      exact absurd h0 (root_not_descendant hg hp s)
  · intro h
    subst h
    exact Relation.TransGen.single ((hg.parent_iff v s).1 hv)

theorem descendants_of_leaf_parent {g : Graph} {v c : String}
    (hv : childrenOf g v = [c]) (hc : childrenOf g c = []) :
    {t | Descendant g v t} = {c} := by
  ext t
  simp only [Set.mem_setOf_eq, Set.mem_singleton_iff]
  constructor
  · intro h
    obtain ⟨b, hb, hbt⟩ := Relation.TransGen.head'_iff.1 h
    have hbc : b = c := by
      unfold child at hb
      rw [hv] at hb
      simpa using hb
    subst hbc
    rcases (reachableFrom_iff g b t).1 hbt with h1 | h1
    · exact h1
    · have := descendants_of_leaf hc
      exact absurd h1 (by
        intro h2
        have : t ∈ {t | Descendant g b t} := h2
        rw [descendants_of_leaf hc] at this
        exact this)
  · intro h
    subst h
    apply Relation.TransGen.single
    unfold child
    rw [hv]
    exact List.mem_singleton_self _

/-- C14 as stated fails: the fourth call `AddReferral("D", "C")` is rejected
with `ErrAlreadyHasReferrer` (C already has the referrer B), so D has no
referral, and `FlowCentrality` returns the single entry `(B, 1)`: there is no
entry for D. -/
theorem C14_counterexample :
    (AddReferral id (AddReferral id (AddReferral id (AddReferral id
      (AddUser (AddUser (AddUser (AddUser NewGraph "A") "B") "C") "D")
      "A" "B").1 "B" "C").1 "A" "D").1 "D" "C").2 = some .ErrAlreadyHasReferrer ∧
    FlowCentrality insertionSortSlice id flowABCD = .ok [UserReach.mk "B" 1] ∧
    childrenOf flowABCD "D" = [] :=
  ⟨by decide, by rfl, by decide⟩

/-- C14, amended: starting from a new graph with members A, B, C, D and
calling `AddReferral` for A → B, B → C, A → D, D → C in that order (the last
call is rejected), `FlowCentrality` yields exactly one entry, B with score 1,
for every enumeration order and every sort that meets the contract of
`sort.Slice`. -/
theorem C14_flow_on_test_graph
    (sortSlice : (UserReach → UserReach → Bool) → List UserReach → List UserReach)
    (hs : SortSliceSpec sortSlice) (e : Enum) (he : e.Valid) :
    FlowCentrality sortSlice e flowABCD = .ok [UserReach.mk "B" 1] := by
  have hinv := reachable_flowABCD.inv
  obtain ⟨out, h1, h2, h3, _⟩ := FlowCentrality_forest hs he hinv
  have hA : {s | Descendant flowABCD s "A"} = ∅ := ancestors_of_root hinv (by decide)
  have hB1 : {s | Descendant flowABCD s "B"} = {"A"} :=
    ancestors_of_root_child hinv (by decide) (by decide)
  have hB2 : {t | Descendant flowABCD "B" t} = {"C"} :=
    descendants_of_leaf_parent (by decide) (by decide)
  have hC : {t | Descendant flowABCD "C" t} = ∅ := descendants_of_leaf (by decide)
  have hD : {t | Descendant flowABCD "D" t} = ∅ := descendants_of_leaf (by decide)
  have hmem : ∀ x : UserReach, x ∈ out ↔ x ∈ [UserReach.mk "B" 1] := by
    rintro ⟨v, n⟩
    rw [h2]
    simp only [List.mem_singleton, UserReach.mk.injEq]
    constructor
    · rintro ⟨hv, hn, heq⟩
      have hv' : v = "A" ∨ v = "B" ∨ v = "C" ∨ v = "D" := by
        have : v ∈ ["A", "B", "C", "D"] := hv
        simpa using this
      rcases hv' with h | h | h | h <;> subst h
      · rw [hA] at heq
        simp at heq
        omega
      · rw [hB1, hB2] at heq
        simp at heq
        exact ⟨rfl, heq⟩
      · rw [hC] at heq
        simp at heq
        omega
      · rw [hD] at heq
        simp at heq
        omega
    · rintro ⟨rfl, rfl⟩
      refine ⟨by decide, le_refl _, ?_⟩
      rw [hB1, hB2]
      simp
  have hnd : out.Nodup := List.Nodup.of_map UserReach.User h3
  have hperm : out.Perm [UserReach.mk "B" 1] :=
    (List.perm_ext_iff_of_nodup hnd (List.nodup_singleton _)).2 hmem
  rw [h1, List.perm_singleton.1 hperm]

/-- C14 (amended) with insertion sort and the identity enumeration. -/
theorem C14_flow_on_test_graph_witness :
    FlowCentrality insertionSortSlice id flowABCD = .ok [UserReach.mk "B" 1] :=
  C14_flow_on_test_graph insertionSortSlice insertionSortSlice_spec id valid_id

/-- C20: on every graph built by `AddUser`/`AddReferral` calls, the score
that `FlowCentrality` records for a member `v` is the number of its proper
ancestors along parent links times `TotalReach(v)`, and `v` has an entry
exactly when that product is at least 1.  Hence a member without referrer and
a member without referrals have no entry, and the result is empty when no two
referrals follow one another. -/
theorem C20_forest_centrality
    (sortSlice : (UserReach → UserReach → Bool) → List UserReach → List UserReach)
    (hs : SortSliceSpec sortSlice) (e : Enum) (he : e.Valid) (g : Graph)
    (hg : Reachable g) :
    ∃ out, FlowCentrality sortSlice e g = .ok out ∧
      (∀ v ∈ g.users, ∀ r, TotalReach e g v = .ok r → ∀ n,
        (UserReach.mk v n ∈ out ↔
          1 ≤ n ∧ n = Set.ncard {s | ∃ k, climb g (k + 1) v = some s} * r)) ∧
      (∀ x ∈ out, x.User ∈ g.users) ∧
      (out.map UserReach.User).Nodup ∧
      (∀ v, lookup g.parent v = none → v ∉ out.map UserReach.User) ∧
      (∀ v, childrenOf g v = [] → v ∉ out.map UserReach.User) ∧
      ((¬ ∃ a b c, child g a b ∧ child g b c) → out = []) := by
  have hinv := hg.inv
  obtain ⟨out, h1, h2, h3, _⟩ := FlowCentrality_forest hs he hinv
  have hanc : ∀ v, {s | ∃ k, climb g (k + 1) v = some s} = {s | Descendant g s v} := by
    intro v
    ext s
    exact climb_iff_descendant hinv v s
  have hpos : ∀ x ∈ out, (∃ s, Descendant g s x.User) ∧ ∃ t, Descendant g x.User t := by
    intro x hx
    obtain ⟨_, hn, heq⟩ := (h2 x).1 hx
    constructor
    · by_contra hnone
      have : {s | Descendant g s x.User} = ∅ := by
        ext s
        simp only [Set.mem_setOf_eq, Set.mem_empty_iff_false, iff_false]
        exact fun h => hnone ⟨s, h⟩
      rw [this] at heq
      simp at heq
      omega
    · by_contra hnone
      have : {t | Descendant g x.User t} = ∅ := by
        ext t
        simp only [Set.mem_setOf_eq, Set.mem_empty_iff_false, iff_false]
        exact fun h => hnone ⟨t, h⟩
      rw [this] at heq
      simp at heq
      omega
  refine ⟨out, h1, ?_, fun x hx => ((h2 x).1 hx).1, h3, ?_, ?_, ?_⟩
  · intro v hv r hr n
    obtain ⟨_, _, hreach, _⟩ := downstreamOf_spec he g v
    rw [hreach hv] at hr
    cases hr
    rw [h2, hanc, ncard_descendants he g hv]
    simp only [hv, true_and]
  · intro v hv hmem
    obtain ⟨x, hx, rfl⟩ := List.mem_map.1 hmem
    obtain ⟨⟨s, hs'⟩, _⟩ := hpos x hx
    exact root_not_descendant hinv hv s hs'
  · intro v hv hmem
    obtain ⟨x, hx, rfl⟩ := List.mem_map.1 hmem
    obtain ⟨_, ⟨t, ht⟩⟩ := hpos x hx
    have : t ∈ {t | Descendant g x.User t} := ht
    rw [descendants_of_leaf hv] at this
    exact this
  · intro hno
    apply List.eq_nil_iff_forall_not_mem.2
    intro x hx
    obtain ⟨⟨s, hs'⟩, ⟨t, ht⟩⟩ := hpos x hx
    obtain ⟨c, hc⟩ := descendant_has_child ht
    have : ∃ y, child g y x.User := by
      cases hs' with
      | single h => exact ⟨_, h⟩
      | tail _ h => exact ⟨_, h⟩
    obtain ⟨y, hy⟩ := this
    exact hno ⟨y, x.User, c, hy, hc⟩

/-- C20 with insertion sort and the identity enumeration at the chain A → B → C. -/
theorem C20_forest_centrality_witness :
    ∃ out, FlowCentrality insertionSortSlice id chainABC = .ok out ∧
      (∀ v ∈ chainABC.users, ∀ r, TotalReach id chainABC v = .ok r → ∀ n,
        (UserReach.mk v n ∈ out ↔
          1 ≤ n ∧ n = Set.ncard {s | ∃ k, climb chainABC (k + 1) v = some s} * r)) ∧
      (∀ x ∈ out, x.User ∈ chainABC.users) ∧
      (out.map UserReach.User).Nodup ∧
      (∀ v, lookup chainABC.parent v = none → v ∉ out.map UserReach.User) ∧
      (∀ v, childrenOf chainABC v = [] → v ∉ out.map UserReach.User) ∧
      ((¬ ∃ a b c, child chainABC a b ∧ child chainABC b c) → out = []) :=
  C20_forest_centrality insertionSortSlice insertionSortSlice_spec id valid_id chainABC
    reachable_chainABC

end Referral
